import Mathlib

/-!
Zettelo: tag index, query engine and tag statistics.

A shallow embedding of `core/zettelo.go` (`PutNote`, `Filter`, `GetTagsStats`, `GetAttribute`,
`ReadNote`) and of the query-string parse of `cmd/serve.go`, over a model of the bbolt
key/value store the program keeps its index in and of the note files.

Modelling conventions.

* A Go `string` / `[]byte` is the list of its bytes (`GoString`); bbolt orders keys by
  `bytes.Compare`, which is the lexicographic order of the byte lists.
* A bbolt bucket is the list of its key/value pairs in key order (`Assoc`); a cursor is a
  position in that list.  `Put` rejects the empty key (`ErrKeyRequired`) and a key longer than
  `MaxKeySize` (`ErrKeyTooLarge`); these are the storage errors of the model.
* `db.Update(fn)` commits the bucket state `fn` leaves when `fn` returns `nil` and keeps the
  state from before the call when `fn` returns an error.
* A Go `map` is also an `Assoc`; the order in which `range` visits a map is not defined by Go,
  so every `range` over a map goes through a `RangeOrder`, an arbitrary reordering of the
  entries, and the theorems hold for every `RangeOrder`.
* The bucket `attrs` holds, for every name, the value `json.Unmarshal` reads from the bytes
  `json.Marshal` wrote.  For a string that is the string itself when it is valid UTF-8;
  `json.Marshal` writes every byte that is not part of a valid UTF-8 sequence as the escape of
  U+FFFD, so such a byte is read back as the three bytes `EF BF BD` (`jsonString`).
* The 8-byte little-endian encoding of a count is inverse to its decoder, so the bucket
  `tags_stats` holds the decoded counts.  A count is an `int64` that is bounded by the number
  of writes, so it is modelled by an `Int` without wrap-around.
* What the operating system and the header parser of `github.com/adrg/frontmatter` answer
  during a call of `PutNote` is not code of this repository; it is the parameter `Host`.
-/

namespace Zettelo

/-- A Go string: its bytes. -/
abbrev GoString := List Nat

/-- An ordered key/value table: a bbolt bucket (pairs in key order) or a Go map. -/
abbrev Assoc (V : Type) := List (GoString × V)

/-- The error values `Bucket.Put` of bbolt returns for a bad key. -/
inductive BoltErr where
  | ErrKeyRequired
  | ErrKeyTooLarge
deriving DecidableEq

/-- The constant `MaxKeySize` of bbolt. -/
def MaxKeySize : Nat := 32768

namespace Assoc

variable {V : Type}

/-- The keys of a table, in table order. -/
def keys (b : Assoc V) : List GoString := b.map Prod.fst

/-- Point lookup: `Bucket.Get`, or `m[k]` with the comma-ok form on a Go map. -/
def get : Assoc V → GoString → Option V
  | [], _ => none
  | e :: rest, k => if e.1 = k then some e.2 else get rest k

/-- Lookup with the zero value for a missing key: `m[k]` on a Go map. -/
def getD (b : Assoc V) (k : GoString) (d : V) : V := (b.get k).getD d

/-- Insert or overwrite, keeping key order: the effect of a successful `Put`, or `m[k] = v`. -/
def set : Assoc V → GoString → V → Assoc V
  | [], k, v => [(k, v)]
  | e :: rest, k, v =>
    if k < e.1 then (k, v) :: e :: rest
    else if k = e.1 then (k, v) :: rest
    else e :: set rest k v

/-- The function `Bucket.Put`: the key must be non-empty and at most `MaxKeySize` bytes. -/
def put (b : Assoc V) (k : GoString) (v : V) : Except BoltErr (Assoc V) :=
  if k.length = 0 then .error .ErrKeyRequired
  else if MaxKeySize < k.length then .error .ErrKeyTooLarge
  else .ok (b.set k v)

/-- The function `Bucket.Delete` (it returns `nil` whether or not the key exists), or
`delete(m, k)`. -/
def del : Assoc V → GoString → Assoc V
  | [], _ => []
  | e :: rest, k => if e.1 = k then del rest k else e :: del rest k

end Assoc

/-- A bbolt cursor over a bucket: `stack` holds the pairs from the current position to the
end of the bucket, and is empty for a cursor that is not positioned or has run off the end. -/
structure Cursor (V : Type) where
  bucket : Assoc V
  stack : Assoc V

namespace Cursor

variable {V : Type}

/-- The function `Cursor.First`. -/
def first (c : Cursor V) : Cursor V × Option (GoString × V) :=
  ({ c with stack := c.bucket }, c.bucket.head?)

/-- The function `Cursor.Seek`: the first pair whose key is at or after `k`. -/
def seek (c : Cursor V) (k : GoString) : Cursor V × Option (GoString × V) :=
  let r := c.bucket.dropWhile (fun e => decide (e.1 < k))
  ({ c with stack := r }, r.head?)

/-- The function `Cursor.Next`. -/
def next (c : Cursor V) : Cursor V × Option (GoString × V) :=
  ({ c with stack := c.stack.tail }, c.stack.tail.head?)

end Cursor

/-- The struct `NoteAttribute` of `core/attr.go`; the two times are kept as abstract
instants, taken to be ones `json.Marshal` can write (RFC 3339, a year from 0 to 9999), so
that line 134 of `PutNote` returns no error. -/
structure NoteAttribute where
  Tags : List GoString
  CreatedAt : Int
  UpdatedAt : Int
deriving DecidableEq

/-! ### UTF-8 and the JSON encoding of a string -/

/-- The least second byte `utf8.DecodeRuneInString` accepts after the first byte `s0` (the
field `lo` of the table `acceptRanges`): `0xA0` after `0xE0`, `0x90` after `0xF0`, `0x80`
otherwise. -/
def acceptLo (s0 : Nat) : Nat := if s0 = 224 then 160 else if s0 = 240 then 144 else 128

/-- The greatest second byte `utf8.DecodeRuneInString` accepts after the first byte `s0` (the
field `hi` of the table `acceptRanges`): `0x9F` after `0xED`, `0x8F` after `0xF4`, `0xBF`
otherwise. -/
def acceptHi (s0 : Nat) : Nat := if s0 = 237 then 159 else if s0 = 244 then 143 else 191

/-- The size `utf8.DecodeRuneInString` returns together with a decoded rune; `none` when it
returns `RuneError` with size 1 (a byte that starts no valid sequence) or size 0 (the empty
string).  First bytes below `0x80` are a rune of their own, `0xC2..0xDF` start two bytes,
`0xE0..0xEF` three, `0xF0..0xF4` four, every other first byte is invalid; the second byte
must lie in the accept range of the first, the later ones in `0x80..0xBF`. -/
def runeSize : GoString → Option Nat
  | [] => none
  | s0 :: rest =>
    if s0 < 128 then some 1
    else if s0 < 194 ∨ 244 < s0 then none
    else
      match rest with
      | [] => none
      | s1 :: rest1 =>
        if s1 < acceptLo s0 ∨ acceptHi s0 < s1 then none
        else if s0 < 224 then some 2
        else
          match rest1 with
          | [] => none
          | s2 :: rest2 =>
            if s2 < 128 ∨ 191 < s2 then none
            else if s0 < 240 then some 3
            else
              match rest2 with
              | [] => none
              | s3 :: _ => if s3 < 128 ∨ 191 < s3 then none else some 4

/-- The loop of `json.Marshal` over the bytes of a string, followed by `json.Unmarshal`:
`skip` bytes of a sequence already decoded are copied; at the start of a sequence the bytes
of a valid rune are copied and a byte that starts none is replaced by the three bytes of
U+FFFD. -/
def jsonFrom : Nat → GoString → GoString
  | _, [] => []
  | skip + 1, c :: cs => c :: jsonFrom skip cs
  | 0, c :: cs =>
    match runeSize (c :: cs) with
    | some n => c :: jsonFrom (n - 1) cs
    | none => 239 :: 191 :: 189 :: jsonFrom 0 cs

/-- The string `json.Unmarshal` reads from the bytes `json.Marshal` writes for the string
`s`. -/
def jsonString (s : GoString) : GoString := jsonFrom 0 s

/-- The loop of `utf8.ValidString`: `skip` bytes of a sequence already decoded are passed
over, and every sequence must decode to a rune. -/
def validFrom : Nat → GoString → Bool
  | _, [] => true
  | skip + 1, _ :: cs => validFrom skip cs
  | 0, c :: cs =>
    match runeSize (c :: cs) with
    | some n => validFrom (n - 1) cs
    | none => false

/-- The function `utf8.ValidString`: the string is valid UTF-8. -/
def ValidString (s : GoString) : Bool := validFrom 0 s

/-- The attribute `json.Unmarshal` reads from the bytes `json.Marshal` writes for `attr`
(lines 134 and 127 of `PutNote`): every tag goes through `jsonString`; the two times are
written in RFC 3339 with nanoseconds and read back as the same instants. -/
def jsonAttr (attr : NoteAttribute) : NoteAttribute :=
  { attr with Tags := attr.Tags.map jsonString }

/-- The database `index.db`: bucket `attrs`, bucket `tags_stats`, and the buckets
`tags/<url.PathEscape(tag)>` indexed by their tag (`url.PathEscape` is injective).  A row of
a membership bucket has the one-byte value `[0]`. -/
structure Store where
  attrs : Assoc NoteAttribute
  tagsStats : Assoc Int
  tagBuckets : Assoc (Assoc GoString)
deriving DecidableEq

/-- The database right after `New`: no bucket, no row. -/
def Store.empty : Store := ⟨[], [], []⟩

/-- The order in which the `range` statements over Go maps visit their entries: any
rearrangement, possibly a different one at every `range` statement (`site`). -/
structure RangeOrder where
  order : (α : Type) → Nat → List α → List α
  perm : ∀ (α : Type) (site : Nat) (l : List α), (order α site l).Perm l

/-- Visit the entries as they are stored. -/
def RangeOrder.stored : RangeOrder := ⟨fun _ _ l => l, fun _ _ l => List.Perm.refl l⟩

/-- Visit the entries in the reverse of the stored order. -/
def RangeOrder.reversed : RangeOrder := ⟨fun _ _ l => l.reverse, fun _ _ l => List.reverse_perm l⟩

/-- The statement `m[v] = struct{}{}` on a Go map used as a set. -/
def setInsert (s : List GoString) (v : GoString) : List GoString := if v ∈ s then s else s ++ [v]

/-- The Go idiom `for _, v := range xs { m[v] = struct{}{} }` on an empty map: the set of the
elements of `xs`. -/
def setOf (xs : List GoString) : List GoString := xs.foldl setInsert []

/-- The clamp of lines 228-230 of `PutNote`. -/
def clamp0 (count : Int) : Int := if count < 0 then 0 else count

/-- The call `tx.CreateBucketIfNotExists("tags/" + url.PathEscape(k))`. -/
def createBucketIfNotExists (tb : Assoc (Assoc GoString)) (k : GoString) : Assoc (Assoc GoString) :=
  match tb.get k with
  | some _ => tb
  | none => tb.set k []

/-- The rows of the membership bucket of tag `k` (none when the bucket does not exist). -/
def bucketOf (tb : Assoc (Assoc GoString)) (k : GoString) : Assoc GoString := tb.getD k []

/-- Lines 198-206 of `PutNote`: delete the row of `name` in every removed tag, delta `-1`. -/
def putRemoved (name : GoString) :
    List GoString → Assoc (Assoc GoString) → Assoc Int → Assoc (Assoc GoString) × Assoc Int
  | [], tb, us => (tb, us)
  | k :: ks, tb, us =>
    putRemoved name ks (tb.set k ((bucketOf tb k).del name)) (us.set k (us.getD k 0 - 1))

/-- Lines 208-216 of `PutNote`: put the row of `name` in every added tag, delta `+1`. -/
def putAdded (name : GoString) :
    List GoString → Assoc (Assoc GoString) → Assoc Int →
      Except BoltErr (Assoc (Assoc GoString) × Assoc Int)
  | [], tb, us => .ok (tb, us)
  | k :: ks, tb, us =>
    match (bucketOf tb k).put name [0] with
    | .error e => .error e
    | .ok b => putAdded name ks (tb.set k b) (us.set k (us.getD k 0 + 1))

/-- Lines 218-244 of `PutNote`: apply every delta to `tags_stats`, clamping at 0 and deleting
the row of a tag whose count becomes 0. -/
def putStats : List (GoString × Int) → Assoc Int → Except BoltErr (Assoc Int)
  | [], st => .ok st
  | kd :: rest, st =>
    let count := clamp0 (st.getD kd.1 0 + kd.2)
    if count = 0 then putStats rest (st.del kd.1)
    else
      match st.put kd.1 count with
      | .error e => .error e
      | .ok st1 => putStats rest st1

/-- The second `db.Update` of `PutNote` (lines 180-247), as the function the transaction
runs: its result is committed when it is `ok`. -/
def indexTx (ro : RangeOrder) (z : Store) (name : GoString)
    (modifiedTags removedTags addedTags : List GoString) : Except BoltErr Store :=
  let tb0 := (ro.order _ 0 modifiedTags).foldl createBucketIfNotExists z.tagBuckets
  let r := putRemoved name (ro.order _ 1 removedTags) tb0 []
  match putAdded name (ro.order _ 2 addedTags) r.1 r.2 with
  | .error e => .error e
  | .ok a =>
    match putStats (ro.order _ 3 a.2) z.tagsStats with
    | .error e => .error e
    | .ok st => .ok { z with tagBuckets := a.1, tagsStats := st }

/-- Lines 152-158 of `PutNote`: the tag set of the previous attribute, empty when there is
none. -/
def prevTagSet (previousAttr : Option NoteAttribute) : List GoString :=
  match previousAttr with
  | some p => setOf p.Tags
  | none => []

/-- Lines 162-169 of `PutNote`: the tags of the previous attribute that the new one lacks. -/
def removedTagsOf (prevTags tags : List GoString) : List GoString :=
  prevTags.filter (fun k => decide (k ∉ tags))

/-- Lines 171-178 of `PutNote`: the tags of the new attribute that the previous one lacks. -/
def addedTagsOf (prevTags tags : List GoString) : List GoString :=
  tags.filter (fun k => decide (k ∉ prevTags))

/-- Lines 116-254 of `PutNote`, for a note whose header parsed to `attr`: the store after
these lines and the error returned (`none` for `nil`).  The first `db.Update` reads the
previous attribute from the bucket `attrs` and writes the JSON of the new one; the tag sets
are then computed from `attr` itself and from the attribute read back; the second `db.Update`
updates the index. -/
def PutNoteDB (ro : RangeOrder) (z : Store) (name : GoString) (attr : NoteAttribute) :
    Store × Option BoltErr :=
  let previousAttr := z.attrs.get name
  match z.attrs.put name (jsonAttr attr) with
  | .error e => (z, some e)
  | .ok attrs1 =>
    let z1 : Store := { z with attrs := attrs1 }
    let tags := setOf attr.Tags
    let prevTags := prevTagSet previousAttr
    let removedTags := removedTagsOf prevTags tags
    let addedTags := addedTagsOf prevTags tags
    let modifiedTags := removedTags ++ addedTags
    match indexTx ro z1 name modifiedTags removedTags addedTags with
    | .error e => (z1, some e)
    | .ok z2 => (z2, none)

/-- One call of `PutNote` that reaches line 116: the visiting order of its `range`
statements, the note name and the attribute the header parsed to. -/
structure PutCall where
  ro : RangeOrder
  name : GoString
  attr : NoteAttribute

/-- Run a sequence of `PutNote` calls; `some` of the final store when every call returned
`nil`. -/
def runPuts : Store → List PutCall → Option Store
  | z, [] => some z
  | z, c :: cs =>
    match PutNoteDB c.ro z c.name c.attr with
    | (z1, none) => runPuts z1 cs
    | (_, some _) => none

/-- The note names that are keys of the membership table of tag `t`. -/
def members (z : Store) (t : GoString) : List GoString := (bucketOf z.tagBuckets t).keys

/-- The count `tags_stats` holds for tag `t`, 0 when the tag has no row. -/
def tagCount (z : Store) (t : GoString) : Int := z.tagsStats.getD t 0

/-- Key order of a table: the keys increase strictly. -/
def Sorted {V : Type} (b : Assoc V) : Prop := b.keys.Pairwise (· < ·)

instance instDecidableSorted {V : Type} (b : Assoc V) : Decidable (Sorted b) :=
  inferInstanceAs (Decidable (b.keys.Pairwise (· < ·)))

/-! ### `Filter` -/

/-- Lines 257-263 of `Filter`: how many times each tag occurs in the query. -/
def countTags (query : List (List GoString)) : Assoc Int :=
  query.foldl (fun tags v => v.foldl (fun tags k => tags.set k (tags.getD k 0 + 1)) tags) []

/-- Lines 270-280 of `Filter`: `maxKey` and `maxCount` after the scan of one clause. -/
def maxKeyOf (tags : Assoc Int) (v : List GoString) : GoString × Int :=
  v.foldl (fun m k => if m.2 ≤ tags.getD k 0 then (k, tags.getD k 0) else m) ([], -1)

/-- Lines 267-285 of `Filter`: the set `temp` of the primary tags of the clauses. -/
def primarySet (tags : Assoc Int) (query : List (List GoString)) : List GoString :=
  query.foldl (fun temp v => if (maxKeyOf tags v).2 ≥ 0 then setInsert temp (maxKeyOf tags v).1
    else temp) []

/-- The loop state of `Filter`: the open cursors, `lastPositions` and `results`. -/
structure FilterState where
  cursors : Assoc (Cursor GoString)
  lastPositions : Assoc GoString
  results : List GoString

/-- Lines 322-331 of `Filter`: the read of one cursor in round `i`; the name read is `none`
for `nil`. -/
def readCursor (seeks : Assoc GoString) (i : Nat) (k : GoString) (c : Cursor GoString) :
    Cursor GoString × Option GoString :=
  let r := if i = 0 then
      (match seeks.get k with
      | some v => c.seek v
      | none => c.first)
    else c.next
  (r.1, r.2.map Prod.fst)

/-- Lines 346-355 of `Filter`: `isAll` for candidate `name` and clause `v`. -/
def isAll (tb : Assoc (Assoc GoString)) (name : GoString) (v : List GoString) : Bool :=
  v.all (fun k => ((bucketOf tb k).get name).isSome)

/-- Lines 345-361 of `Filter`: the scan of the clauses for one candidate; the state is
`results` and the set `temp`. -/
def matchClauses (tb : Assoc (Assoc GoString)) (query : List (List GoString))
    (acc : List GoString × List GoString) (name : GoString) : List GoString × List GoString :=
  query.foldl (fun acc v =>
    if name ∉ acc.2 ∧ isAll tb name v = true then (acc.1 ++ [name], setInsert acc.2 name)
    else acc) acc

/-- Lines 319-362 of `Filter`: one round `i` of the outer loop. -/
def filterRound (ro : RangeOrder) (tb : Assoc (Assoc GoString)) (query : List (List GoString))
    (seeks : Assoc GoString) (i : Nat) (st : FilterState) : FilterState :=
  let reads := (ro.order _ (3 + 2 * i) st.cursors).map
    (fun kc => (kc.1, readCursor seeks i kc.1 kc.2))
  let cursors := reads.filterMap (fun r => if r.2.2.isSome then some (r.1, r.2.1) else none)
  let lastPositions := reads.foldl (fun lp r => lp.set r.1 (r.2.2.getD [])) st.lastPositions
  let items := reads.foldl (fun s r => setInsert s (r.2.2.getD [])) []
  let res := (ro.order _ (4 + 2 * i) items).foldl (matchClauses tb query) (st.results, [])
  ⟨cursors, lastPositions, res.1⟩

/-- The outer loop `for i := 0; i < max && len(cursors) > 0; i++` of `Filter`, with `fuel`
the number of values of `i` left below `max`. -/
def filterLoop (ro : RangeOrder) (tb : Assoc (Assoc GoString)) (query : List (List GoString))
    (seeks : Assoc GoString) : Nat → Nat → FilterState → FilterState
  | 0, _, st => st
  | fuel + 1, i, st =>
    if 0 < st.cursors.length then
      filterLoop ro tb query seeks fuel (i + 1) (filterRound ro tb query seeks i st)
    else st

/-- Lines 297-305 of `Filter`: the membership buckets after the bucket of every tag of the
query has been created if it did not exist. -/
def openBuckets (ro : RangeOrder) (z : Store) (query : List (List GoString)) :
    Assoc (Assoc GoString) :=
  (ro.order _ 1 (countTags query).keys).foldl createBucketIfNotExists z.tagBuckets

/-- Lines 265-290 and 307-316 of `Filter`: one cursor for every primary tag, then the seek of
the cursors that have an entry in `seeks`. -/
def openCursors (ro : RangeOrder) (tb : Assoc (Assoc GoString)) (query : List (List GoString))
    (seeks : Assoc GoString) : Assoc (Cursor GoString) :=
  let primaries := ro.order _ 0 (primarySet (countTags query) query)
  let cursors : Assoc (Cursor GoString) :=
    primaries.foldl (fun cs k => Assoc.set cs k ⟨bucketOf tb k, []⟩) []
  (ro.order _ 2 seeks).foldl (fun cs tk =>
    match Assoc.get cs tk.1 with
    | some c => Assoc.set cs tk.1 (c.seek tk.2).1
    | none => cs) cursors

/-- The function `Zettelo.Filter`: `results`, `lastPositions` and the store after the call
(the transaction creates the membership bucket of every tag of the query).  No step of the
transaction returns an error in the model, so the error result is always `nil`. -/
def Filter (ro : RangeOrder) (z : Store) (query : List (List GoString))
    (seeks : Assoc GoString) (max : Int) : List GoString × Assoc GoString × Store :=
  let tb := openBuckets ro z query
  let st := filterLoop ro tb query seeks max.toNat 0 ⟨openCursors ro tb query seeks, [], []⟩
  (st.results, st.lastPositions, { z with tagBuckets := tb })

/-! ### `GetTagsStats` -/

/-- The loop `for i := 0; i < limit; i++` of `GetTagsStats` (lines 388-409), with `fuel` the
number of values of `i` left below `limit`; the state is the cursor, `stats` and `lastSeek`. -/
def statsLoop (seek : GoString) :
    Nat → Nat → Cursor Int → Assoc Int → GoString → Assoc Int × GoString
  | 0, _, _, stats, lastSeek => (stats, lastSeek)
  | fuel + 1, i, c, stats, lastSeek =>
    let r := if i = 0 then (if seek.length > 0 then c.seek seek else c.first) else c.next
    match r.2 with
    | none => (stats, lastSeek)
    | some kv => statsLoop seek fuel (i + 1) r.1 (stats.set kv.1 kv.2) kv.1

/-- The function `Zettelo.GetTagsStats`: the map `stats` and `lastSeek`. -/
def GetTagsStats (z : Store) (seek : GoString) (limit : Int) : Assoc Int × GoString :=
  statsLoop seek limit.toNat 0 ⟨z.tagsStats, []⟩ [] []

/-- The rows of `tags_stats` whose key is at or after `seek`, in key order. -/
def rowsFrom (z : Store) (seek : GoString) : Assoc Int :=
  z.tagsStats.filter (fun e => decide (seek ≤ e.1))

/-- The key of the last row of a page, the empty string for an empty page. -/
def lastKeyOf (page : Assoc Int) : GoString := (page.getLast?.map Prod.fst).getD []

/-- The pages of a chain of `n` calls of `GetTagsStats`, the first with `seek` and each later
one with the `lastSeek` of the call before. -/
def statsPages (z : Store) (limit : Int) : Nat → GoString → List (Assoc Int)
  | 0, _ => []
  | n + 1, seek =>
    (GetTagsStats z seek limit).1 :: statsPages z limit n (GetTagsStats z seek limit).2

/-- The rows of a chain of `n` resumed calls of `GetTagsStats`, each page without its first
row (the row of the `lastSeek` the call resumes from). -/
def resumedRows (z : Store) (limit : Int) : Nat → GoString → Assoc Int
  | 0, _ => []
  | n + 1, seek =>
    (GetTagsStats z seek limit).1.tail ++ resumedRows z limit n (GetTagsStats z seek limit).2

/-- The rows of a chain of `n` calls of `GetTagsStats` that starts with the empty seek: the
first page, then the resumed pages without their first row. -/
def pagedRows (z : Store) (limit : Int) : Nat → Assoc Int
  | 0 => []
  | n + 1 => (GetTagsStats z [] limit).1 ++ resumedRows z limit n (GetTagsStats z [] limit).2

/-- The results of a chain of `n` calls of `Filter`, the first with `seeks` and each later
one with the `lastPositions` of the call before, on the store the call before left; call
number `j` (counted from the end of the chain) visits its maps in the order `ros j`. -/
def filterChain (ros : Nat → RangeOrder) (query : List (List GoString)) (max : Int) :
    Nat → Assoc GoString → Store → List GoString
  | 0, _, _ => []
  | n + 1, seeks, z =>
    (Filter (ros n) z query seeks max).1
      ++ filterChain ros query max n (Filter (ros n) z query seeks max).2.1
          (Filter (ros n) z query seeks max).2.2

/-- Name `x` satisfies the query: some clause has `x` as a key of the membership table of
every one of its tags. -/
def satisfies (z : Store) (query : List (List GoString)) (x : GoString) : Prop :=
  ∃ v ∈ query, ∀ t ∈ v, x ∈ members z t

/-- Where round 0 of `Filter` puts the cursor of tag `k`: on the rows of the table of `k`
from the seek position on, or on all its rows when `seeks` has no entry for `k`. -/
def startStack (z : Store) (seeks : Assoc GoString) (k : GoString) : Assoc GoString :=
  match seeks.get k with
  | some v => (bucketOf z.tagBuckets k).dropWhile (fun e => decide (e.1 < v))
  | none => bucketOf z.tagBuckets k

/-- The rows a cursor is about to read in round `i`: from its start position in round 0,
the rows after its current one in a later round. -/
def pending (seeks : Assoc GoString) (i : Nat) (kc : GoString × Cursor GoString) :
    Assoc GoString :=
  if i = 0 then
    (match seeks.get kc.1 with
    | some v => kc.2.bucket.dropWhile (fun e => decide (e.1 < v))
    | none => kc.2.bucket)
  else kc.2.stack.tail

/-- The names a cursor brings up in `fuel` rounds when the rows ahead of it are `s`: the keys
of the first `fuel` rows, and the empty string when it runs out within these rounds. -/
def surfaced (fuel : Nat) (s : Assoc GoString) (x : GoString) : Prop :=
  x ∈ Assoc.keys (s.take fuel) ∨ (x = [] ∧ s.length < fuel)

/-- The entry of `lastPositions` for a cursor after `fuel` rounds with the rows `s` ahead of
it, `prev` being the entry before these rounds. -/
def lastRead : Nat → Assoc GoString → Option GoString → Option GoString
  | 0, _, prev => prev
  | _ + 1, [], _ => some []
  | n + 1, e :: t, _ => lastRead n t (some e.1)

/-- The cursor map of `Filter` before the first round: one cursor for every primary tag, on
the table of the tag. -/
structure CursorsOK (tb : Assoc (Assoc GoString)) (P : List GoString)
    (cs : Assoc (Cursor GoString)) : Prop where
  sorted : Sorted cs
  bucket : ∀ kc ∈ cs, kc.2.bucket = bucketOf tb kc.1
  keys : ∀ k, k ∈ Assoc.keys cs ↔ k ∈ P

/-! ### Concrete inputs -/

/-- Three writes: note `a` with tags `x, y, x`, note `b` with tag `y`, then `a` again with
tag `y` only (`a = [97]`, `b = [98]`, `x = [120]`, `y = [121]`). -/
def demoCalls : List PutCall :=
  [⟨RangeOrder.stored, [97], ⟨[[120], [121], [120]], 0, 0⟩⟩,
   ⟨RangeOrder.reversed, [98], ⟨[[121]], 0, 0⟩⟩,
   ⟨RangeOrder.stored, [97], ⟨[[121]], 1, 2⟩⟩]

/-- A store with three count rows: `x` 2, `y` 1, `z` 1 (`z = [122]`). -/
def demoStats : Store := ⟨[], [([120], 2), ([121], 1), ([122], 1)], []⟩

/-- Two writes: note `a` with tag `x`, note `b` with tags `x, y`. -/
def dupCalls : List PutCall :=
  [⟨RangeOrder.stored, [97], ⟨[[120]], 0, 0⟩⟩, ⟨RangeOrder.stored, [98], ⟨[[120], [121]], 0, 0⟩⟩]

/-- The store the two writes of `dupCalls` leave: table `x` holds `a, b`, table `y` holds
`b`. -/
def dupStore : Store :=
  ⟨[([97], ⟨[[120]], 0, 0⟩), ([98], ⟨[[120], [121]], 0, 0⟩)],
   [([120], 2), ([121], 1)],
   [([120], [([97], [0]), ([98], [0])]), ([121], [([98], [0])])]⟩

/-- The store the three writes of `demoCalls` leave. -/
def demoStore : Store :=
  ⟨[([97], ⟨[[121]], 1, 2⟩), ([98], ⟨[[121]], 0, 0⟩)],
   [([121], 2)],
   [([120], []), ([121], [([97], [0]), ([98], [0])])]⟩

/-- The index invariant: every membership table is in key order, a name is a key of the table
of tag `t` exactly when `t` is a tag of the attribute stored for the name (I2), and the count
of `t` is the number of rows of its table (I1). -/
structure IndexInv (z : Store) : Prop where
  sorted : ∀ t, Sorted (bucketOf z.tagBuckets t)
  i2 : ∀ t n, n ∈ members z t ↔ ∃ a, z.attrs.get n = some a ∧ t ∈ a.Tags
  i1 : ∀ t, tagCount z t = ((members z t).length : Int)

/-- What holds of the index after successful writes of arbitrary tags: every membership table
is in key order, the tags of every stored attribute are valid UTF-8 (they were read from
JSON), a member of the table of a valid tag has the tag in its stored attribute, the count of
a valid tag is at most the number of rows of its table, no count is negative, and a tag
without a member has the count 0. -/
structure StoreInv (z : Store) : Prop where
  sorted : ∀ t, Sorted (bucketOf z.tagBuckets t)
  stored : ∀ n a, z.attrs.get n = some a → ∀ t ∈ a.Tags, ValidString t = true
  recorded : ∀ t n, ValidString t = true → n ∈ members z t →
    ∃ a, z.attrs.get n = some a ∧ t ∈ a.Tags
  le : ∀ t, ValidString t = true → tagCount z t ≤ ((members z t).length : Int)
  nonneg : ∀ t, 0 ≤ tagCount z t
  zero : ∀ t, members z t = [] → tagCount z t = 0

/-- Two writes of note `a` with the one tag `[255]`, a byte that is not valid UTF-8 (a YAML
header can give it as a `!!binary` scalar). -/
def binaryCalls : List PutCall :=
  [⟨RangeOrder.stored, [97], ⟨[[255]], 0, 0⟩⟩, ⟨RangeOrder.stored, [97], ⟨[[255]], 0, 0⟩⟩]

/-- The store after the first write of `binaryCalls`: the tag is stored as U+FFFD
(`[239, 191, 189]`), the table and the count row are those of the tag `[255]`. -/
def binaryStore1 : Store :=
  ⟨[([97], ⟨[[239, 191, 189]], 0, 0⟩)], [([255], 1)], [([255], [([97], [0])])]⟩

/-- The store after the two writes of `binaryCalls`. -/
def binaryStore2 : Store :=
  ⟨[([97], ⟨[[239, 191, 189]], 0, 0⟩)], [([255], 2)],
   [([239, 191, 189], []), ([255], [([97], [0])])]⟩

/-- Three writes: note `b` with the tag U+FFFD, note `a` with the tag `[255]`, then `a` with
no tag. -/
def staleCalls : List PutCall :=
  [⟨RangeOrder.stored, [98], ⟨[[239, 191, 189]], 0, 0⟩⟩,
   ⟨RangeOrder.stored, [97], ⟨[[255]], 0, 0⟩⟩,
   ⟨RangeOrder.stored, [97], ⟨[], 0, 0⟩⟩]

/-- The store after the three writes of `staleCalls`. -/
def staleStore : Store :=
  ⟨[([97], ⟨[], 0, 0⟩), ([98], ⟨[[239, 191, 189]], 0, 0⟩)], [([255], 1)],
   [([239, 191, 189], [([98], [0])]), ([255], [([97], [0])])]⟩

/-- Three writes with a tag of two bytes (`[195, 169]`, the letter e with an acute accent):
note `a` with that tag and `x`, note `b` with that tag, then `a` with `x` only. -/
def accentCalls : List PutCall :=
  [⟨RangeOrder.reversed, [97], ⟨[[195, 169], [120]], 0, 0⟩⟩,
   ⟨RangeOrder.stored, [98], ⟨[[195, 169]], 0, 0⟩⟩,
   ⟨RangeOrder.reversed, [97], ⟨[[120]], 0, 0⟩⟩]

/-- The store after the three writes of `accentCalls`. -/
def accentStore : Store :=
  ⟨[([97], ⟨[[120]], 0, 0⟩), ([98], ⟨[[195, 169]], 0, 0⟩)],
   [([120], 1), ([195, 169], 1)],
   [([120], [([97], [0])]), ([195, 169], [([98], [0])])]⟩

/-! ### The rest of the program: transaction mode, note files, query strings -/

/-- The number of times tag `t` occurs in the query, all clauses together. -/
def occurrences (query : List (List GoString)) (t : GoString) : Int :=
  ((query.flatten.filter (fun k => decide (k = t))).length : Int)

/-- The store after `GetTagsStats`: the transaction creates the bucket `tags_stats` when it
is missing, which the model does not tell from an empty one, opens a cursor on it and reads;
it calls no `Put` and no `Delete`. -/
def GetTagsStatsStore (z : Store) (_seek : GoString) (_limit : Int) : Store := z

/-- The error `Bucket.CreateBucket` of bbolt returns in a read-only transaction. -/
inductive TxErr where
  | ErrTxNotWritable
deriving DecidableEq

/-- The guard at the head of `Bucket.CreateBucket` of bbolt, which `CreateBucketIfNotExists`
goes through whether or not the bucket exists: `if !b.tx.writable { return ErrTxNotWritable }`.
`db.Update` runs its function in a writable transaction, `db.View` in a read-only one. -/
def txCreateBucketIfNotExists (writable : Bool) : Except TxErr Unit :=
  if writable then .ok () else .error .ErrTxNotWritable

/-- The function `Zettelo.GetAttribute`: the attribute returned (`none` for `nil`) and the
error returned.  The function runs in `db.View`. -/
def GetAttribute (z : Store) (name : GoString) : Option NoteAttribute × Option TxErr :=
  match txCreateBucketIfNotExists false with
  | .error e => (none, some e)
  | .ok _ => (z.attrs.get name, none)

/-- The bytes of a file after `os.OpenFile(p, os.O_CREATE|os.O_WRONLY, 0755)` and the write
of `content` from offset 0: the flags have no `os.O_TRUNC`, so an existing file keeps the
bytes beyond the ones written. -/
def writeFile (old : Option GoString) (content : GoString) : GoString :=
  match old with
  | none => content
  | some o => content ++ o.drop content.length

/-- Lines 94-114 of `PutNote`: the file of the note (the files `notes/<PathEscape(name)>.md`
are indexed by the note name) receives every byte the header parser reads through the
`io.TeeReader`, which is the whole content when the header parses. -/
def PutNoteFile (fs : Assoc GoString) (name content : GoString) : Assoc GoString :=
  fs.set name (writeFile (fs.get name) content)

/-- The function `Zettelo.ReadNote`: the bytes written to `w`, `none` when the file cannot be
opened. -/
def ReadNote (fs : Assoc GoString) (name : GoString) : Option GoString := fs.get name

/-- The path of `Zettelo.PutNote` on which `os.MkdirAll` and `os.OpenFile` return no error
and `frontmatter.Parse` returns the attribute `attr` after reading the whole content: the note
files, the store and the error after the call. -/
def PutNoteContent (ro : RangeOrder) (fs : Assoc GoString) (z : Store) (name content : GoString)
    (attr : NoteAttribute) : Assoc GoString × Store × Option BoltErr :=
  (PutNoteFile fs name content, (PutNoteDB ro z name attr).1, (PutNoteDB ro z name attr).2)

/-- The error `PutNote` returns, by the statement that produced it: `os.MkdirAll` (line 96),
`os.OpenFile` (line 103), `frontmatter.Parse` (line 113), or one of the two `db.Update`
(lines 143 and 250). -/
inductive PutErr where
  | mkdirAll
  | openFile
  | parse
  | bolt (e : BoltErr)
deriving DecidableEq

/-- What the operating system and the header parser answer during a call of `PutNote`:
whether `os.MkdirAll` of the directory `notes` passes the check of line 95, whether
`os.OpenFile` opens the file of a note name, and what `frontmatter.Parse` makes of a content
(the attribute, after reading every byte of the content, or an error after reading the given
number of bytes). -/
structure Host where
  mkdirAll : Bool
  openFile : GoString → Bool
  parse : GoString → Except Nat NoteAttribute

/-- The function `Zettelo.PutNote`: the note files, the store and the error after the call.
An error of `os.MkdirAll` or `os.OpenFile` is returned before any write; the bytes the parser
reads go to the file through the `io.TeeReader`; an error of the parser is returned before
the database is opened; otherwise lines 116-254 run with the parsed attribute. -/
def PutNote (h : Host) (ro : RangeOrder) (fs : Assoc GoString) (z : Store)
    (name content : GoString) : Assoc GoString × Store × Option PutErr :=
  if h.mkdirAll = false then (fs, z, some .mkdirAll)
  else if h.openFile name = false then (fs, z, some .openFile)
  else
    match h.parse content with
    | .error n => (PutNoteFile fs name (content.take n), z, some .parse)
    | .ok attr =>
      ((PutNoteContent ro fs z name content attr).1,
       (PutNoteContent ro fs z name content attr).2.1,
       (PutNoteContent ro fs z name content attr).2.2.map PutErr.bolt)

/-- The call `strings.Split(s, sep)` for a separator of one byte. -/
def splitByte (sep : Nat) : GoString → List GoString
  | [] => [[]]
  | c :: cs =>
    if c = sep then [] :: splitByte sep cs
    else
      match splitByte sep cs with
      | [] => [[c]]
      | p :: ps => (c :: p) :: ps

/-- The whitespace class of the Go package `regexp` (the letter s after a backslash): tab,
newline, form feed, carriage return and space. -/
def isSpaceByte (c : Nat) : Bool := c = 9 ∨ c = 10 ∨ c = 12 ∨ c = 13 ∨ c = 32

/-- Line 203 of `searchNoteByTagsHandler`: `ReplaceAllString` with the pattern of one or more
bytes of the whitespace class and the empty replacement, so every byte of the class goes. -/
def removeSpaces (q : GoString) : GoString := q.filter (fun c => !isSpaceByte c)

/-- Lines 195-213 of `searchNoteByTagsHandler`: the query string is split on the byte 124
(a vertical bar), each group on the byte 38 (an ampersand), and the terms and groups that are
not empty are appended in turn. -/
def parseQuery (rawQuery : GoString) : List (List GoString) :=
  (splitByte 124 rawQuery).foldl (fun query v =>
    let trimedAndQuery := (splitByte 38 v).foldl (fun acc q =>
      if (removeSpaces q).length > 0 then acc ++ [removeSpaces q] else acc) []
    if trimedAndQuery.length > 0 then query ++ [trimedAndQuery] else query) []

/-- The parse as the specification words it, on the list functions of the library: split on
the vertical bar, split each group on the ampersand, remove from each term the bytes tab,
newline, form feed, carriage return and space, drop the empty terms, drop the empty groups. -/
def parseQuerySpec (rawQuery : GoString) : List (List GoString) :=
  ((rawQuery.splitOn 124).map (fun g =>
    ((g.splitOn 38).map (fun q => q.filter (fun c => decide (c ∉ [9, 10, 12, 13, 32])))).filter
      (fun q => decide (q ≠ [])))).filter (fun g => decide (g ≠ []))

/-- The function `unicode.IsSpace` on the code points below 256: tab, newline, vertical tab,
form feed, carriage return, space, U+0085 and U+00A0. -/
def unicodeIsSpace (r : Nat) : Bool :=
  r = 9 ∨ r = 10 ∨ r = 11 ∨ r = 12 ∨ r = 13 ∨ r = 32 ∨ r = 133 ∨ r = 160

/-- The bytes of a note with the header `tags: [y, ""]` and no body. -/
def emptyTagContent : GoString :=
  [45, 45, 45, 10, 116, 97, 103, 115, 58, 32, 91, 121, 44, 32, 34, 34, 93, 10, 45, 45, 45, 10]

/-- A host on which the directory `notes` exists, a note file opens when the name has at
most 200 bytes, and the parser reads the header of `emptyTagContent` as the tags `y` and
`""`; its answer on any other content (an error before the first byte) is not used. -/
def demoHost : Host :=
  ⟨true, fun name => decide (name.length ≤ 200),
   fun content => if content = emptyTagContent then .ok ⟨[[121], []], 0, 0⟩ else .error 0⟩

/-- The scenario of the specification: write `a` with tags `x, y`, write `b` with tag `y`,
then rewrite `a` with tag `y`. -/
def scenarioCalls : List PutCall :=
  [⟨RangeOrder.stored, [97], ⟨[[120], [121]], 0, 0⟩⟩,
   ⟨RangeOrder.reversed, [98], ⟨[[121]], 0, 0⟩⟩,
   ⟨RangeOrder.stored, [97], ⟨[[121]], 0, 0⟩⟩]

/-- The store the three writes of `scenarioCalls` leave. -/
def scenarioStore : Store :=
  ⟨[([97], ⟨[[121]], 0, 0⟩), ([98], ⟨[[121]], 0, 0⟩)],
   [([121], 2)],
   [([120], []), ([121], [([97], [0]), ([98], [0])])]⟩

/-- The bytes of a note with the header `tags: [x]` and the body `longer`. -/
def longContent : GoString :=
  [45, 45, 45, 10, 116, 97, 103, 115, 58, 32, 91, 120, 93, 10, 45, 45, 45, 10, 108, 111, 110, 103, 101, 114]

/-- The bytes of a note with the header `tags: [x]` and the body `hi`. -/
def shortContent : GoString :=
  [45, 45, 45, 10, 116, 97, 103, 115, 58, 32, 91, 120, 93, 10, 45, 45, 45, 10, 104, 105]

end Zettelo

namespace Zettelo
namespace Assoc
variable {V : Type}

theorem get_set (b : Assoc V) (k : GoString) (v : V) (k1 : GoString) :
    (b.set k v).get k1 = if k1 = k then some v else b.get k1 := by
  induction b with
  | nil =>
    simp only [set, get]
    by_cases h : k = k1
    · simp [h]
    · simp [h, Ne.symm h]
  | cons e rest ih =>
    obtain ⟨ke, ve⟩ := e
    simp only [set]
    by_cases hlt : k < ke
    · simp only [hlt, if_true, get]
      by_cases h : k = k1
      · simp [h]
      · simp [h, Ne.symm h]
    · simp only [hlt, if_false]
      by_cases heq : k = ke
      · subst heq
        simp only [if_true, get]
        by_cases h : k = k1
        · simp [h]
        · simp [h, Ne.symm h]
      · simp only [heq, if_false, get, ih]
        by_cases h : ke = k1
        · subst h
          simp [Ne.symm heq]
        · simp [h]

theorem get_del (b : Assoc V) (k k1 : GoString) :
    (b.del k).get k1 = if k1 = k then none else b.get k1 := by
  induction b with
  | nil => simp [del, get]
  | cons e rest ih =>
    obtain ⟨ke, ve⟩ := e
    simp only [del]
    by_cases h : ke = k
    · subst h
      simp only [if_true, ih, get]
      by_cases h1 : k1 = ke
      · simp [h1]
      · simp [h1, Ne.symm h1]
    · simp only [h, if_false, get, ih]
      by_cases h1 : ke = k1
      · subst h1
        simp [h]
      · simp [h1]

theorem keys_cons (e : GoString × V) (rest : Assoc V) : keys (e :: rest) = e.1 :: keys rest := rfl

theorem get_isSome_iff (b : Assoc V) (k : GoString) : (b.get k).isSome ↔ k ∈ b.keys := by
  induction b with
  | nil => simp [get, keys]
  | cons e rest ih =>
    obtain ⟨ke, ve⟩ := e
    simp only [get, keys_cons, List.mem_cons]
    by_cases h : ke = k
    · simp [h]
    · simp only [h, if_false, ih, Ne.symm h, false_or]

theorem get_eq_none_iff (b : Assoc V) (k : GoString) : b.get k = none ↔ k ∉ b.keys := by
  rw [← get_isSome_iff]; cases b.get k <;> simp

theorem mem_keys_set (b : Assoc V) (k : GoString) (v : V) (x : GoString) :
    x ∈ (b.set k v).keys ↔ x = k ∨ x ∈ b.keys := by
  rw [← get_isSome_iff, ← get_isSome_iff, get_set]
  by_cases h : x = k <;> simp [h]

theorem mem_keys_del (b : Assoc V) (k x : GoString) :
    x ∈ (b.del k).keys ↔ x ≠ k ∧ x ∈ b.keys := by
  rw [← get_isSome_iff, ← get_isSome_iff, get_del]
  by_cases h : x = k <;> simp [h]

theorem del_sublist (b : Assoc V) (k : GoString) : List.Sublist (b.del k) b := by
  induction b with
  | nil => simp [del]
  | cons e rest ih =>
    by_cases h : e.1 = k
    · simp only [del, h, if_true]; exact List.Sublist.cons _ ih
    · simp only [del, h, if_false]; exact List.Sublist.cons₂ _ ih

end Assoc

namespace Assoc
variable {V : Type}

theorem sorted_nil : Sorted ([] : Assoc V) := List.Pairwise.nil

theorem sorted_cons {e : GoString × V} {rest : Assoc V} :
    Sorted (e :: rest) ↔ (∀ x ∈ keys rest, e.1 < x) ∧ Sorted rest := by
  unfold Sorted; rw [keys_cons, List.pairwise_cons]

theorem sorted_del {b : Assoc V} (h : Sorted b) (k : GoString) : Sorted (b.del k) := by
  unfold Sorted keys at *
  exact List.Pairwise.sublist ((del_sublist b k).map _) h

theorem sorted_set {b : Assoc V} (h : Sorted b) (k : GoString) (v : V) : Sorted (b.set k v) := by
  induction b with
  | nil => simp [Sorted, set, keys]
  | cons e rest ih =>
    obtain ⟨ke, ve⟩ := e
    have hp := sorted_cons.mp h
    simp only [set]
    by_cases hlt : k < ke
    · simp only [hlt, if_true]
      refine sorted_cons.mpr ⟨?_, h⟩
      intro x hx
      rw [keys_cons, List.mem_cons] at hx
      rcases hx with rfl | hx
      · exact hlt
      · exact lt_trans hlt (hp.1 x hx)
    · simp only [hlt, if_false]
      by_cases heq : k = ke
      · subst heq
        simp only [if_true]
        exact sorted_cons.mpr ⟨hp.1, hp.2⟩
      · simp only [heq, if_false]
        refine sorted_cons.mpr ⟨?_, ih hp.2⟩
        intro x hx
        rcases (mem_keys_set rest k v x).mp hx with rfl | hx
        · exact lt_of_le_of_ne (not_lt.mp hlt) (fun e2 => heq e2.symm)
        · exact hp.1 x hx

theorem nodup_keys {b : Assoc V} (h : Sorted b) : b.keys.Nodup :=
  List.Pairwise.imp (fun hab => ne_of_lt hab) h

theorem length_set_of_not_mem (b : Assoc V) (k : GoString) (v : V) (h : k ∉ b.keys) :
    (b.set k v).length = b.length + 1 := by
  induction b with
  | nil => simp [set]
  | cons e rest ih =>
    obtain ⟨ke, ve⟩ := e
    rw [keys_cons, List.mem_cons, not_or] at h
    simp only [set]
    by_cases hlt : k < ke
    · simp [hlt]
    · simp [hlt, h.1, ih h.2]

theorem del_eq_self (b : Assoc V) (k : GoString) (h : k ∉ b.keys) : b.del k = b := by
  induction b with
  | nil => simp [del]
  | cons e rest ih =>
    obtain ⟨ke, ve⟩ := e
    rw [keys_cons, List.mem_cons, not_or] at h
    simp only [del, Ne.symm h.1, if_false, ih h.2]

theorem length_del_of_mem {b : Assoc V} (hs : Sorted b) (k : GoString) (h : k ∈ b.keys) :
    (b.del k).length + 1 = b.length := by
  induction b with
  | nil => simp [keys] at h
  | cons e rest ih =>
    obtain ⟨ke, ve⟩ := e
    have hp := sorted_cons.mp hs
    rw [keys_cons, List.mem_cons] at h
    simp only [del]
    by_cases h1 : ke = k
    · subst h1
      have h2 : ke ∉ keys rest := fun h3 => lt_irrefl _ (hp.1 ke h3)
      simp only [if_true, del_eq_self rest ke h2, List.length_cons]
    · have h2 : k ∈ keys rest := by
        rcases h with h | h
        · exact absurd h.symm h1
        · exact h
      simp only [h1, if_false, List.length_cons, ih hp.2 h2]

theorem length_keys (b : Assoc V) : b.keys.length = b.length := by simp [keys]

end Assoc
end Zettelo

namespace Zettelo

/-! ### Go sets -/

theorem mem_setInsert (s : List GoString) (v x : GoString) :
    x ∈ setInsert s v ↔ x = v ∨ x ∈ s := by
  unfold setInsert
  by_cases h : v ∈ s
  · simp only [h, if_true]
    constructor
    · exact Or.inr
    · rintro (rfl | h1)
      · exact h
      · exact h1
  · simp only [h, if_false, List.mem_append, List.mem_singleton]; tauto

theorem nodup_setInsert (s : List GoString) (v : GoString) (h : s.Nodup) :
    (setInsert s v).Nodup := by
  unfold setInsert
  by_cases h1 : v ∈ s
  · simpa only [h1, if_true] using h
  · simp only [h1, if_false]
    rw [List.nodup_append]
    refine ⟨h, List.nodup_singleton v, ?_⟩
    intro a ha hb
    rw [List.mem_singleton] at hb
    subst hb
    exact h1 ha

theorem mem_foldl_insert (xs acc : List GoString) (x : GoString) :
    x ∈ xs.foldl setInsert acc ↔ x ∈ xs ∨ x ∈ acc := by
  induction xs generalizing acc with
  | nil => simp
  | cons y ys ih =>
    rw [List.foldl_cons, ih, mem_setInsert, List.mem_cons]
    tauto

theorem nodup_foldl_insert (xs acc : List GoString) (h : acc.Nodup) :
    (xs.foldl setInsert acc).Nodup := by
  induction xs generalizing acc with
  | nil => simpa using h
  | cons y ys ih => rw [List.foldl_cons]; exact ih _ (nodup_setInsert _ _ h)

theorem mem_setOf (xs : List GoString) (x : GoString) : x ∈ setOf xs ↔ x ∈ xs := by
  unfold setOf; rw [mem_foldl_insert]; simp

theorem nodup_setOf (xs : List GoString) : (setOf xs).Nodup :=
  nodup_foldl_insert xs [] List.nodup_nil

/-! ### The membership buckets through the index transaction -/

theorem getD_set {V : Type} (b : Assoc V) (k : GoString) (v d : V) (k1 : GoString) :
    (b.set k v).getD k1 d = if k1 = k then v else b.getD k1 d := by
  unfold Assoc.getD; rw [Assoc.get_set]; by_cases h : k1 = k <;> simp [h]

theorem getD_del {V : Type} (b : Assoc V) (k : GoString) (d : V) (k1 : GoString) :
    (b.del k).getD k1 d = if k1 = k then d else b.getD k1 d := by
  unfold Assoc.getD; rw [Assoc.get_del]; by_cases h : k1 = k <;> simp [h]

theorem bucketOf_set (tb : Assoc (Assoc GoString)) (k : GoString) (b : Assoc GoString)
    (t : GoString) : bucketOf (tb.set k b) t = if t = k then b else bucketOf tb t := by
  unfold bucketOf; exact getD_set tb k b [] t

theorem bucketOf_create (tb : Assoc (Assoc GoString)) (k t : GoString) :
    bucketOf (createBucketIfNotExists tb k) t = bucketOf tb t := by
  unfold createBucketIfNotExists
  cases h : tb.get k with
  | some b => rfl
  | none =>
    simp only [bucketOf_set]
    by_cases h1 : t = k
    · subst h1; simp [bucketOf, Assoc.getD, h]
    · simp [h1]

theorem bucketOf_foldl_create (ks : List GoString) (tb : Assoc (Assoc GoString)) (t : GoString) :
    bucketOf (ks.foldl createBucketIfNotExists tb) t = bucketOf tb t := by
  induction ks generalizing tb with
  | nil => rfl
  | cons k ks ih => rw [List.foldl_cons, ih, bucketOf_create]

theorem putRemoved_bucketOf (name : GoString) (ks : List GoString) (hn : ks.Nodup)
    (tb : Assoc (Assoc GoString)) (us : Assoc Int) (t : GoString) :
    bucketOf (putRemoved name ks tb us).1 t
      = if t ∈ ks then (bucketOf tb t).del name else bucketOf tb t := by
  induction ks generalizing tb us with
  | nil => simp [putRemoved]
  | cons k ks ih =>
    rw [List.nodup_cons] at hn
    rw [putRemoved, ih hn.2, bucketOf_set]
    by_cases h : t = k
    · subst h; simp [hn.1]
    · simp [h]

theorem putRemoved_get (name : GoString) (ks : List GoString) (hn : ks.Nodup)
    (tb : Assoc (Assoc GoString)) (us : Assoc Int) (t : GoString) :
    (putRemoved name ks tb us).2.get t
      = if t ∈ ks then some (us.getD t 0 - 1) else us.get t := by
  induction ks generalizing tb us with
  | nil => simp [putRemoved]
  | cons k ks ih =>
    rw [List.nodup_cons] at hn
    rw [putRemoved, ih hn.2, getD_set, Assoc.get_set]
    by_cases h : t = k
    · subst h; simp [hn.1]
    · simp [h]

theorem putAdded_ok (name : GoString) (ks : List GoString) (hn : ks.Nodup)
    (tb : Assoc (Assoc GoString)) (us : Assoc Int) (r : Assoc (Assoc GoString) × Assoc Int)
    (h : putAdded name ks tb us = .ok r) (t : GoString) :
    bucketOf r.1 t = (if t ∈ ks then (bucketOf tb t).set name [0] else bucketOf tb t)
      ∧ r.2.get t = (if t ∈ ks then some (us.getD t 0 + 1) else us.get t) := by
  induction ks generalizing tb us with
  | nil =>
    simp only [putAdded, Except.ok.injEq] at h
    subst h; simp
  | cons k ks ih =>
    rw [List.nodup_cons] at hn
    rw [putAdded] at h
    cases hp : (bucketOf tb k).put name [0] with
    | error e => rw [hp] at h; cases h
    | ok b =>
      rw [hp] at h
      have hb : b = (bucketOf tb k).set name [0] := by
        unfold Assoc.put at hp
        split_ifs at hp
        exact (Except.ok.inj hp).symm
      have := ih hn.2 _ _ h
      rw [bucketOf_set, getD_set, Assoc.get_set] at this
      by_cases h1 : t = k
      · subst h1; simpa [hn.1, hb] using this
      · simpa [h1] using this

theorem putStats_ok (ds : List (GoString × Int)) (hn : (Assoc.keys ds).Nodup)
    (st st1 : Assoc Int) (h : putStats ds st = .ok st1) (t : GoString) :
    (∀ d, (t, d) ∈ ds → st1.getD t 0 = clamp0 (st.getD t 0 + d))
      ∧ (t ∉ Assoc.keys ds → st1.getD t 0 = st.getD t 0) := by
  induction ds generalizing st with
  | nil =>
    simp only [putStats, Except.ok.injEq] at h
    subst h; simp
  | cons kd rest ih =>
    obtain ⟨k, d0⟩ := kd
    rw [Assoc.keys_cons, List.nodup_cons] at hn
    have hstep : ∃ st2, putStats rest st2 = .ok st1 ∧
        ∀ x, st2.getD x 0 = if x = k then clamp0 (st.getD k 0 + d0) else st.getD x 0 := by
      simp only [putStats] at h
      by_cases hz : clamp0 (st.getD k 0 + d0) = 0
      · rw [if_pos hz] at h
        refine ⟨_, h, fun x => ?_⟩
        rw [getD_del]
        by_cases hx : x = k
        · simp [hx, hz]
        · simp [hx]
      · rw [if_neg hz] at h
        cases hp : st.put k (clamp0 (st.getD k 0 + d0)) with
        | error e => rw [hp] at h; cases h
        | ok st2 =>
          rw [hp] at h
          have hb : st2 = st.set k (clamp0 (st.getD k 0 + d0)) := by
            unfold Assoc.put at hp
            split_ifs at hp
            exact (Except.ok.inj hp).symm
          refine ⟨st2, h, fun x => ?_⟩
          rw [hb, getD_set]
    obtain ⟨st2, h2, hget⟩ := hstep
    have := ih hn.2 st2 h2
    constructor
    · intro d hd
      rw [List.mem_cons] at hd
      rcases hd with hd | hd
      · have e1 : t = k := congrArg Prod.fst hd
        have e2 : d = d0 := congrArg Prod.snd hd
        subst e1; subst e2
        rw [this.2 hn.1, hget]; simp
      · have hk : t ≠ k := by
          intro e1; rw [e1] at hd
          have h3 : k ∈ Assoc.keys rest := by
            have := List.mem_map_of_mem Prod.fst hd
            exact this
          exact hn.1 h3
        rw [this.1 d hd, hget]; simp [hk]
    · intro hnot
      rw [Assoc.keys_cons, List.mem_cons, not_or] at hnot
      rw [this.2 hnot.2, hget]; simp [hnot.1]

end Zettelo

namespace Zettelo

theorem mem_iff_get {V : Type} {b : Assoc V} (hs : Sorted b) (k : GoString) (v : V) :
    (k, v) ∈ b ↔ b.get k = some v := by
  induction b with
  | nil => simp [Assoc.get]
  | cons e rest ih =>
    obtain ⟨ke, ve⟩ := e
    have hp := Assoc.sorted_cons.mp hs
    rw [List.mem_cons, ih hp.2]
    simp only [Assoc.get]
    by_cases h : ke = k
    · subst h
      have h2 : ke ∉ Assoc.keys rest := fun h3 => lt_irrefl _ (hp.1 ke h3)
      have h3 : Assoc.get rest ke = none := (Assoc.get_eq_none_iff rest ke).mpr h2
      simp only [if_true, h3, Prod.mk.injEq, true_and, Option.some.injEq]
      constructor
      · rintro (h4 | h4)
        · exact h4.symm
        · cases h4
      · intro h4; exact Or.inl h4.symm
    · simp only [h, if_false, Prod.mk.injEq]
      constructor
      · rintro (h4 | h4)
        · exact absurd h4.1.symm h
        · exact h4
      · exact Or.inr

theorem putRemoved_sorted (name : GoString) (ks : List GoString)
    (tb : Assoc (Assoc GoString)) (us : Assoc Int) (h : Sorted us) :
    Sorted (putRemoved name ks tb us).2 := by
  induction ks generalizing tb us with
  | nil => simpa [putRemoved] using h
  | cons k ks ih => rw [putRemoved]; exact ih _ _ (Assoc.sorted_set h _ _)

theorem putAdded_sorted (name : GoString) (ks : List GoString)
    (tb : Assoc (Assoc GoString)) (us : Assoc Int) (h : Sorted us)
    (r : Assoc (Assoc GoString) × Assoc Int) (hr : putAdded name ks tb us = .ok r) :
    Sorted r.2 := by
  induction ks generalizing tb us with
  | nil =>
    simp only [putAdded, Except.ok.injEq] at hr
    subst hr; exact h
  | cons k ks ih =>
    rw [putAdded] at hr
    cases hp : (bucketOf tb k).put name [0] with
    | error e => rw [hp] at hr; cases hr
    | ok b => rw [hp] at hr; exact ih _ _ (Assoc.sorted_set h _ _) hr

/-- What a committed index transaction does to the membership tables and the counts. -/
theorem indexTx_ok (ro : RangeOrder) (z z2 : Store) (name : GoString)
    (R A : List GoString) (hR : R.Nodup) (hA : A.Nodup) (hd : ∀ t, t ∈ R → t ∉ A)
    (h : indexTx ro z name (R ++ A) R A = .ok z2) :
    z2.attrs = z.attrs
    ∧ (∀ t, bucketOf z2.tagBuckets t =
        if t ∈ R then (bucketOf z.tagBuckets t).del name
        else if t ∈ A then (bucketOf z.tagBuckets t).set name [0]
        else bucketOf z.tagBuckets t)
    ∧ (∀ t, tagCount z2 t =
        if t ∈ R then clamp0 (tagCount z t - 1)
        else if t ∈ A then clamp0 (tagCount z t + 1)
        else tagCount z t) := by
  unfold indexTx at h
  simp only at h
  have pR := ro.perm _ 1 R
  have pA := ro.perm _ 2 A
  have hR1 : (ro.order _ 1 R).Nodup := pR.nodup_iff.mpr hR
  have hA1 : (ro.order _ 2 A).Nodup := pA.nodup_iff.mpr hA
  cases ha : putAdded name (ro.order _ 2 A)
      (putRemoved name (ro.order _ 1 R)
        ((ro.order _ 0 (R ++ A)).foldl createBucketIfNotExists z.tagBuckets) []).1
      (putRemoved name (ro.order _ 1 R)
        ((ro.order _ 0 (R ++ A)).foldl createBucketIfNotExists z.tagBuckets) []).2 with
  | error e => rw [ha] at h; cases h
  | ok a =>
    rw [ha] at h
    simp only at h
    cases hs : putStats (ro.order _ 3 a.2) z.tagsStats with
    | error e => rw [hs] at h; cases h
    | ok st =>
      rw [hs] at h
      simp only [Except.ok.injEq] at h
      subst h
      have hus : Sorted a.2 :=
        putAdded_sorted name _ _ _ (putRemoved_sorted name _ _ _ Assoc.sorted_nil) a ha
      have hget : ∀ t, a.2.get t =
          if t ∈ R then some (-1) else if t ∈ A then some 1 else none := by
        intro t
        rw [(putAdded_ok name _ hA1 _ _ a ha t).2, Assoc.getD, putRemoved_get name _ hR1]
        simp only [pA.mem_iff, pR.mem_iff]
        by_cases h1 : t ∈ R
        · simp [h1, hd t h1, Assoc.getD, Assoc.get]
        · simp [h1, Assoc.getD, Assoc.get]
      have p3 := ro.perm _ 3 a.2
      have hn3 : (Assoc.keys (ro.order _ 3 a.2)).Nodup :=
        ((p3.map Prod.fst).nodup_iff).mpr (Assoc.nodup_keys hus)
      refine ⟨rfl, fun t => ?_, fun t => ?_⟩
      · show bucketOf a.1 t = _
        rw [(putAdded_ok name _ hA1 _ _ a ha t).1, putRemoved_bucketOf name _ hR1,
          bucketOf_foldl_create]
        simp only [pA.mem_iff, pR.mem_iff]
        by_cases h1 : t ∈ R
        · simp [h1, hd t h1]
        · simp [h1]
      · show st.getD t 0 = _
        have hst := putStats_ok _ hn3 _ _ hs t
        have hmem : ∀ d, (t, d) ∈ ro.order _ 3 a.2 ↔ a.2.get t = some d :=
          fun d => (p3.mem_iff).trans (mem_iff_get hus t d)
        have hkeys : t ∈ Assoc.keys (ro.order _ 3 a.2) ↔ t ∈ Assoc.keys a.2 :=
          (p3.map Prod.fst).mem_iff
        by_cases h1 : t ∈ R
        · rw [hst.1 (-1) ((hmem _).mpr (by rw [hget]; simp [h1]))]
          simp [h1, tagCount]; rfl
        · by_cases h2 : t ∈ A
          · rw [hst.1 1 ((hmem _).mpr (by rw [hget]; simp [h1, h2]))]
            simp [h1, h2, tagCount]
          · have : t ∉ Assoc.keys (ro.order _ 3 a.2) := by
              rw [hkeys, ← Assoc.get_eq_none_iff, hget]; simp [h1, h2]
            rw [hst.2 this]; simp [h1, h2, tagCount]

/-! ### UTF-8 and JSON -/

theorem jsonFrom_of_valid (s : GoString) (skip : Nat) (h : validFrom skip s = true) :
    jsonFrom skip s = s := by
  induction s generalizing skip with
  | nil => cases skip <;> rfl
  | cons c cs ih =>
    cases skip with
    | succ k =>
      simp only [validFrom] at h
      simp only [jsonFrom, ih k h]
    | zero =>
      simp only [validFrom] at h
      simp only [jsonFrom]
      cases hr : runeSize (c :: cs) with
      | none => rw [hr] at h; cases h
      | some n =>
        rw [hr] at h
        simp only at h ⊢
        rw [ih _ h]

theorem length_le_jsonFrom (s : GoString) (skip : Nat) : s.length ≤ (jsonFrom skip s).length := by
  induction s generalizing skip with
  | nil => cases skip <;> simp [jsonFrom]
  | cons c cs ih =>
    cases skip with
    | succ k =>
      simp only [jsonFrom, List.length_cons]
      exact Nat.succ_le_succ (ih k)
    | zero =>
      simp only [jsonFrom]
      cases hr : runeSize (c :: cs) with
      | none =>
        simp only [List.length_cons]
        have := ih 0
        omega
      | some n =>
        simp only [List.length_cons]
        exact Nat.succ_le_succ (ih _)

theorem valid_of_jsonFrom (s : GoString) (skip : Nat) (h : jsonFrom skip s = s) :
    validFrom skip s = true := by
  induction s generalizing skip with
  | nil => cases skip <;> rfl
  | cons c cs ih =>
    cases skip with
    | succ k =>
      simp only [jsonFrom, List.cons.injEq, true_and] at h
      simp only [validFrom, ih k h]
    | zero =>
      simp only [jsonFrom] at h
      simp only [validFrom]
      cases hr : runeSize (c :: cs) with
      | none =>
        rw [hr] at h
        simp only at h
        have h1 := congrArg List.length h
        have h2 := length_le_jsonFrom cs 0
        simp only [List.length_cons] at h1
        omega
      | some n =>
        rw [hr] at h
        simp only [List.cons.injEq, true_and] at h
        exact ih _ h

/-- A string comes back from the JSON of the bucket `attrs` as it was written exactly when it
is valid UTF-8. -/
theorem jsonString_eq_iff (s : GoString) : jsonString s = s ↔ ValidString s = true :=
  ⟨valid_of_jsonFrom s 0, jsonFrom_of_valid s 0⟩

theorem jsonAttr_of_valid (attr : NoteAttribute) (h : ∀ t ∈ attr.Tags, ValidString t = true) :
    jsonAttr attr = attr := by
  unfold jsonAttr
  have : attr.Tags.map jsonString = attr.Tags := by
    conv_rhs => rw [← List.map_id attr.Tags]
    exact List.map_congr_left (fun t ht => (jsonString_eq_iff t).mpr (h t ht))
  rw [this]

theorem runeSize_jsonFrom (c : Nat) (cs : GoString) (n : Nat)
    (h : runeSize (c :: cs) = some n) : runeSize (c :: jsonFrom (n - 1) cs) = some n := by
  simp only [runeSize] at h ⊢
  by_cases h1 : c < 128
  · rw [if_pos h1] at h ⊢; exact h
  · rw [if_neg h1] at h ⊢
    by_cases h2 : c < 194 ∨ 244 < c
    · rw [if_pos h2] at h; cases h
    · rw [if_neg h2] at h ⊢
      cases cs with
      | nil => cases h
      | cons s1 rest1 =>
        simp only at h
        by_cases h3 : s1 < acceptLo c ∨ acceptHi c < s1
        · rw [if_pos h3] at h; cases h
        · rw [if_neg h3] at h
          by_cases h4 : c < 224
          · rw [if_pos h4] at h
            cases h
            simp only [Nat.add_one_sub_one, jsonFrom, if_neg h3, if_pos h4]
          · rw [if_neg h4] at h
            cases rest1 with
            | nil => cases h
            | cons s2 rest2 =>
              simp only at h
              by_cases h5 : s2 < 128 ∨ 191 < s2
              · rw [if_pos h5] at h; cases h
              · rw [if_neg h5] at h
                by_cases h6 : c < 240
                · rw [if_pos h6] at h
                  cases h
                  simp only [Nat.add_one_sub_one, jsonFrom, if_neg h3, if_neg h4, if_neg h5,
                    if_pos h6]
                · rw [if_neg h6] at h
                  cases rest2 with
                  | nil => cases h
                  | cons s3 rest3 =>
                    simp only at h
                    by_cases h7 : s3 < 128 ∨ 191 < s3
                    · rw [if_pos h7] at h; cases h
                    · rw [if_neg h7] at h
                      cases h
                      simp only [Nat.add_one_sub_one, jsonFrom, if_neg h3, if_neg h4, if_neg h5,
                        if_neg h6, if_neg h7]

theorem validFrom_jsonFrom (s : GoString) (skip : Nat) :
    validFrom skip (jsonFrom skip s) = true := by
  induction s generalizing skip with
  | nil => cases skip <;> rfl
  | cons c cs ih =>
    cases skip with
    | succ k => simp only [jsonFrom, validFrom, ih k]
    | zero =>
      simp only [jsonFrom]
      cases hr : runeSize (c :: cs) with
      | none =>
        simp only
        have h3 : ∀ X : GoString, runeSize (239 :: 191 :: 189 :: X) = some 3 := by
          intro X; simp [runeSize, acceptLo, acceptHi]
        simp only [validFrom, h3, Nat.add_one_sub_one]
        exact ih 0
      | some n =>
        simp only [validFrom, runeSize_jsonFrom c cs n hr]
        exact ih _

/-- What `json.Unmarshal` reads back is valid UTF-8. -/
theorem valid_jsonString (s : GoString) : ValidString (jsonString s) = true :=
  validFrom_jsonFrom s 0

theorem valid_jsonAttr (attr : NoteAttribute) : ∀ t ∈ (jsonAttr attr).Tags, ValidString t = true := by
  intro t ht
  simp only [jsonAttr, List.mem_map] at ht
  obtain ⟨s, _, rfl⟩ := ht
  exact valid_jsonString s

theorem mem_jsonAttr_of_valid (attr : NoteAttribute) (t : GoString) (hv : ValidString t = true)
    (ht : t ∈ attr.Tags) : t ∈ (jsonAttr attr).Tags := by
  simp only [jsonAttr, List.mem_map]
  exact ⟨t, ht, (jsonString_eq_iff t).mpr hv⟩

end Zettelo

namespace Zettelo

theorem put_ok {V : Type} {b b1 : Assoc V} {k : GoString} {v : V} (h : b.put k v = .ok b1) :
    b1 = b.set k v ∧ k ≠ [] ∧ k.length ≤ MaxKeySize := by
  unfold Assoc.put at h
  split_ifs at h with h1 h2
  refine ⟨(Except.ok.inj h).symm, ?_, not_lt.mp h2⟩
  intro e; rw [e] at h1; exact h1 rfl

/-- The two halves of a successful `PutNoteDB`: the new attribute row, then the committed index
transaction on the removed and added tags. -/
theorem PutNoteDB_ok (ro : RangeOrder) (z z2 : Store) (name : GoString) (attr : NoteAttribute)
    (h : PutNoteDB ro z name attr = (z2, none)) :
    name ≠ [] ∧
    indexTx ro { z with attrs := z.attrs.set name (jsonAttr attr) } name
      (removedTagsOf (prevTagSet (z.attrs.get name)) (setOf attr.Tags)
        ++ addedTagsOf (prevTagSet (z.attrs.get name)) (setOf attr.Tags))
      (removedTagsOf (prevTagSet (z.attrs.get name)) (setOf attr.Tags))
      (addedTagsOf (prevTagSet (z.attrs.get name)) (setOf attr.Tags)) = .ok z2 := by
  unfold PutNoteDB at h
  cases hp : z.attrs.put name (jsonAttr attr) with
  | error e => rw [hp] at h; simp at h
  | ok attrs1 =>
    rw [hp] at h
    simp only at h
    obtain ⟨h1, h2, _⟩ := put_ok hp
    subst h1
    refine ⟨h2, ?_⟩
    cases hi : indexTx ro { z with attrs := z.attrs.set name (jsonAttr attr) } name
      (removedTagsOf (prevTagSet (z.attrs.get name)) (setOf attr.Tags)
        ++ addedTagsOf (prevTagSet (z.attrs.get name)) (setOf attr.Tags))
      (removedTagsOf (prevTagSet (z.attrs.get name)) (setOf attr.Tags))
      (addedTagsOf (prevTagSet (z.attrs.get name)) (setOf attr.Tags)) with
    | error e => rw [hi] at h; simp at h
    | ok z3 => rw [hi] at h; simp only [Prod.mk.injEq, and_true] at h; rw [h]

theorem mem_prevTagSet (z : Store) (name t : GoString) :
    t ∈ prevTagSet (z.attrs.get name) ↔ ∃ a, z.attrs.get name = some a ∧ t ∈ a.Tags := by
  unfold prevTagSet
  cases z.attrs.get name with
  | none => simp
  | some p => simp [mem_setOf]

theorem nodup_prevTagSet (p : Option NoteAttribute) : (prevTagSet p).Nodup := by
  cases p with
  | none => exact List.nodup_nil
  | some p => exact nodup_setOf _

/-- What a successful write does to the three parts of the store, for every attribute: the
row of `attrs` is the attribute as the JSON gives it back, the name leaves the tables of the
tags read back from the previous row that the new attribute lacks, and enters the tables of
the tags of the new attribute that were not read back. -/
theorem PutNoteDB_tables (ro : RangeOrder) (z z2 : Store) (name : GoString)
    (attr : NoteAttribute) (h : PutNoteDB ro z name attr = (z2, none)) :
    z2.attrs = z.attrs.set name (jsonAttr attr)
    ∧ (∀ t, bucketOf z2.tagBuckets t =
        if t ∈ prevTagSet (z.attrs.get name) ∧ t ∉ attr.Tags then
          (bucketOf z.tagBuckets t).del name
        else if t ∈ attr.Tags ∧ t ∉ prevTagSet (z.attrs.get name) then
          (bucketOf z.tagBuckets t).set name [0]
        else bucketOf z.tagBuckets t)
    ∧ (∀ t, tagCount z2 t =
        if t ∈ prevTagSet (z.attrs.get name) ∧ t ∉ attr.Tags then clamp0 (tagCount z t - 1)
        else if t ∈ attr.Tags ∧ t ∉ prevTagSet (z.attrs.get name) then
          clamp0 (tagCount z t + 1)
        else tagCount z t) := by
  obtain ⟨_, htx⟩ := PutNoteDB_ok ro z z2 name attr h
  have hR : (removedTagsOf (prevTagSet (z.attrs.get name)) (setOf attr.Tags)).Nodup :=
    (nodup_prevTagSet _).filter _
  have hA : (addedTagsOf (prevTagSet (z.attrs.get name)) (setOf attr.Tags)).Nodup :=
    (nodup_setOf _).filter _
  have memR : ∀ t, t ∈ removedTagsOf (prevTagSet (z.attrs.get name)) (setOf attr.Tags)
        ↔ (t ∈ prevTagSet (z.attrs.get name) ∧ t ∉ attr.Tags) := by
    intro t
    rw [removedTagsOf, List.mem_filter, decide_eq_true_eq, mem_setOf]
  have memA : ∀ t, t ∈ addedTagsOf (prevTagSet (z.attrs.get name)) (setOf attr.Tags)
        ↔ (t ∈ attr.Tags ∧ t ∉ prevTagSet (z.attrs.get name)) := by
    intro t
    rw [addedTagsOf, List.mem_filter, mem_setOf, decide_eq_true_eq]
  obtain ⟨hattrs, hb, hc⟩ := indexTx_ok ro _ z2 name _ _ hR hA
    (fun t h1 h2 => ((memR t).mp h1).2 ((memA t).mp h2).1) htx
  simp only [memR, memA] at hb hc
  exact ⟨hattrs, hb, hc⟩

/-- A successful write keeps every membership table in key order, whatever the tags. -/
theorem PutNoteDB_sorted (ro : RangeOrder) (z z2 : Store) (name : GoString)
    (attr : NoteAttribute) (h : PutNoteDB ro z name attr = (z2, none))
    (hs : ∀ t, Sorted (bucketOf z.tagBuckets t)) : ∀ t, Sorted (bucketOf z2.tagBuckets t) := by
  intro t
  rw [(PutNoteDB_tables ro z z2 name attr h).2.1 t]
  split_ifs
  · exact Assoc.sorted_del (hs t) _
  · exact Assoc.sorted_set (hs t) _ _
  · exact hs t

/-- A successful write of an attribute whose tags are valid UTF-8 keeps the index
invariant. -/
theorem PutNoteDB_inv (ro : RangeOrder) (z z2 : Store) (name : GoString) (attr : NoteAttribute)
    (hv : ∀ t ∈ attr.Tags, ValidString t = true)
    (h : PutNoteDB ro z name attr = (z2, none)) (inv : IndexInv z) : IndexInv z2 := by
  obtain ⟨_, htx⟩ := PutNoteDB_ok ro z z2 name attr h
  rw [jsonAttr_of_valid attr hv] at htx
  have hR : (removedTagsOf (prevTagSet (z.attrs.get name)) (setOf attr.Tags)).Nodup :=
    (nodup_prevTagSet _).filter _
  have hA : (addedTagsOf (prevTagSet (z.attrs.get name)) (setOf attr.Tags)).Nodup :=
    (nodup_setOf _).filter _
  have memR : ∀ t, t ∈ removedTagsOf (prevTagSet (z.attrs.get name)) (setOf attr.Tags)
        ↔ (name ∈ members z t ∧ t ∉ attr.Tags) := by
    intro t
    rw [removedTagsOf, List.mem_filter, mem_prevTagSet, inv.i2]
    simp [mem_setOf]
  have memA : ∀ t, t ∈ addedTagsOf (prevTagSet (z.attrs.get name)) (setOf attr.Tags)
        ↔ (t ∈ attr.Tags ∧ name ∉ members z t) := by
    intro t
    rw [addedTagsOf, List.mem_filter, mem_setOf, decide_eq_true_eq, mem_prevTagSet, inv.i2]
  obtain ⟨hattrs, hb, hc⟩ := indexTx_ok ro _ z2 name _ _ hR hA
    (fun t h1 h2 => ((memR t).mp h1).2 ((memA t).mp h2).1) htx
  simp only [memR, memA] at hb hc
  have hget : ∀ n, z2.attrs.get n = if n = name then some attr else z.attrs.get n := by
    intro n; rw [hattrs]; exact Assoc.get_set _ _ _ _
  have hmem : ∀ t, members z2 t = (bucketOf z2.tagBuckets t).keys := fun _ => rfl
  have hmem0 : ∀ t, members z t = (bucketOf z.tagBuckets t).keys := fun _ => rfl
  have hcount : ∀ t, tagCount ({ z with attrs := z.attrs.set name attr } : Store) t = tagCount z t :=
    fun _ => rfl
  refine ⟨fun t => ?_, fun t n => ?_, fun t => ?_⟩
  · rw [hb]
    show Sorted (if name ∈ members z t ∧ t ∉ attr.Tags then _ else _)
    split_ifs
    · exact Assoc.sorted_del (inv.sorted t) _
    · exact Assoc.sorted_set (inv.sorted t) _ _
    · exact inv.sorted t
  · rw [hmem, hb, hget]
    show n ∈ Assoc.keys (if name ∈ members z t ∧ t ∉ attr.Tags then _
      else if t ∈ attr.Tags ∧ name ∉ members z t then _ else _) ↔ _
    by_cases hn : n = name
    · subst hn
      simp only [if_true, Option.some.injEq, exists_eq_left']
      split_ifs with h1 h2
      · rw [Assoc.mem_keys_del]; simp [h1.2]
      · rw [Assoc.mem_keys_set]; simp [h2.1]
      · change n ∈ members z t ↔ _
        constructor
        · intro h3
          by_contra h4
          exact h1 ⟨h3, h4⟩
        · intro h3
          by_contra h4
          exact h2 ⟨h3, h4⟩
    · simp only [hn, if_false]
      rw [← inv.i2 t n]
      split_ifs with h1 h2
      · rw [Assoc.mem_keys_del]; simp [hn]; rfl
      · rw [Assoc.mem_keys_set]; simp [hn]; rfl
      · rfl
  · rw [hc, hmem, hb]
    show (if name ∈ members z t ∧ t ∉ attr.Tags then _
      else if t ∈ attr.Tags ∧ name ∉ members z t then _ else _) = _
    have hlen := inv.i1 t
    rw [hmem0, Assoc.length_keys] at hlen
    split_ifs with h1 h2
    · have := Assoc.length_del_of_mem (inv.sorted t) name h1.1
      rw [hcount, hlen, Assoc.length_keys, clamp0]
      split_ifs with h3
      · omega
      · omega
    · have := Assoc.length_set_of_not_mem (bucketOf z.tagBuckets t) name [0] h2.2
      rw [hcount, hlen, Assoc.length_keys, clamp0]
      split_ifs with h3
      · omega
      · omega
    · rw [hcount, hlen, Assoc.length_keys]

theorem IndexInv_empty : IndexInv Store.empty := by
  refine ⟨fun t => ?_, fun t n => ?_, fun t => ?_⟩
  · exact Assoc.sorted_nil
  · simp [members, bucketOf, Assoc.getD, Assoc.get, Assoc.keys, Store.empty]
  · simp [members, bucketOf, Assoc.getD, Assoc.get, Assoc.keys, Store.empty, tagCount]

theorem runPuts_inv (calls : List PutCall) (z z2 : Store)
    (hv : ∀ c ∈ calls, ∀ t ∈ c.attr.Tags, ValidString t = true)
    (h : runPuts z calls = some z2) (inv : IndexInv z) : IndexInv z2 := by
  induction calls generalizing z with
  | nil => simp only [runPuts, Option.some.injEq] at h; subst h; exact inv
  | cons c cs ih =>
    rw [runPuts] at h
    cases hp : PutNoteDB c.ro z c.name c.attr with
    | mk z1 e =>
      rw [hp] at h
      cases e with
      | some e => simp at h
      | none =>
        exact ih z1 (fun c1 hc1 => hv c1 (List.mem_cons_of_mem _ hc1)) h
          (PutNoteDB_inv _ _ _ _ _ (hv c (List.mem_cons_self _ _)) hp inv)

theorem runPuts_buckets_sorted (calls : List PutCall) (z z2 : Store)
    (h : runPuts z calls = some z2) (hs : ∀ t, Sorted (bucketOf z.tagBuckets t)) :
    ∀ t, Sorted (bucketOf z2.tagBuckets t) := by
  induction calls generalizing z with
  | nil => simp only [runPuts, Option.some.injEq] at h; subst h; exact hs
  | cons c cs ih =>
    rw [runPuts] at h
    cases hp : PutNoteDB c.ro z c.name c.attr with
    | mk z1 e =>
      rw [hp] at h
      cases e with
      | some e => simp at h
      | none => exact ih z1 h (PutNoteDB_sorted _ _ _ _ _ hp hs)

end Zettelo

namespace Zettelo

/-- C1, counterexample: note `a` is written twice with the one tag `[255]`, a byte that is
not valid UTF-8.  Both calls return no error.  The first stores the tag as U+FFFD in `attrs`,
so the second reads back U+FFFD as the previous tag, finds `[255]` added again and adds 1 to
its count: the count of `[255]` is 2 and its membership table has the one key `a`. -/
theorem C1_counterexample :
    runPuts Store.empty binaryCalls = some binaryStore2
      ∧ tagCount binaryStore2 [255] = 2
      ∧ members binaryStore2 [255] = [[97]]
      ∧ tagCount binaryStore2 [255] ≠ ((members binaryStore2 [255]).length : Int) := by
  decide

/-- C1, amended (invariant I1): after every sequence of successful `PutNote` calls on the
empty store whose tags are all valid UTF-8 (arbitrary names, duplicates in a tag list
allowed), so after each call of such a sequence, the count `tags_stats` holds for a tag (0
without a row) is the number of note names that are keys of the membership table of the tag;
the keys are pairwise distinct, so their number is the length of the key list. -/
theorem C1_count_eq_members (calls : List PutCall) (z : Store)
    (hv : ∀ c ∈ calls, ∀ t ∈ c.attr.Tags, ValidString t = true)
    (h : runPuts Store.empty calls = some z) (t : GoString) :
    tagCount z t = ((members z t).length : Int) ∧ (members z t).Nodup :=
  ⟨(runPuts_inv calls _ z hv h IndexInv_empty).i1 t,
   Assoc.nodup_keys ((runPuts_inv calls _ z hv h IndexInv_empty).sorted t)⟩

theorem C1_count_eq_members_witness :
    (∀ c ∈ accentCalls, ∀ t ∈ c.attr.Tags, ValidString t = true)
      ∧ runPuts Store.empty accentCalls = some accentStore
      ∧ (tagCount accentStore [195, 169] = ((members accentStore [195, 169]).length : Int)
        ∧ (members accentStore [195, 169]).Nodup) :=
  ⟨by decide, by decide,
    C1_count_eq_members accentCalls accentStore (by decide) (by decide) [195, 169]⟩

/-- C2, counterexample: after the one successful write of note `a` with the tag `[255]`, the
name `a` is a key of the membership table of `[255]`, while the attribute stored for `a` has
the one tag U+FFFD, so `[255]` is not a tag of the stored attribute. -/
theorem C2_counterexample :
    runPuts Store.empty (binaryCalls.take 1) = some binaryStore1
      ∧ [97] ∈ members binaryStore1 [255]
      ∧ binaryStore1.attrs.get [97] = some ⟨[[239, 191, 189]], 0, 0⟩
      ∧ ¬ ∃ a, binaryStore1.attrs.get [97] = some a ∧ [255] ∈ a.Tags := by
  refine ⟨by decide, by decide, by decide, ?_⟩
  rintro ⟨a, ha, ht⟩
  have h1 : binaryStore1.attrs.get [97] = some ⟨[[239, 191, 189]], 0, 0⟩ := by decide
  rw [h1] at ha
  cases ha
  revert ht
  decide

/-- C2, amended (invariant I2): after every sequence of successful `PutNote` calls on the
empty store whose tags are all valid UTF-8, a note name is a key of the membership table of
tag `t` if and only if the bucket `attrs` holds an attribute for the name and `t` is one of
its tags. -/
theorem C2_member_iff_tag (calls : List PutCall) (z : Store)
    (hv : ∀ c ∈ calls, ∀ t ∈ c.attr.Tags, ValidString t = true)
    (h : runPuts Store.empty calls = some z) (t n : GoString) :
    n ∈ members z t ↔ ∃ a, z.attrs.get n = some a ∧ t ∈ a.Tags :=
  (runPuts_inv calls _ z hv h IndexInv_empty).i2 t n

theorem C2_member_iff_tag_witness :
    (∀ c ∈ demoCalls, ∀ t ∈ c.attr.Tags, ValidString t = true)
      ∧ runPuts Store.empty demoCalls = some demoStore
      ∧ ([97] ∈ members demoStore [121]
          ↔ ∃ a, demoStore.attrs.get [97] = some a ∧ [121] ∈ a.Tags) :=
  ⟨by decide, by decide,
    C2_member_iff_tag demoCalls demoStore (by decide) (by decide) [121] [97]⟩

end Zettelo

namespace Zettelo

/-! ### Rewrites and failed writes -/

theorem order_nil (ro : RangeOrder) (α : Type) (site : Nat) : ro.order α site [] = [] :=
  List.Perm.eq_nil (ro.perm α site [])

theorem indexTx_attrs (ro : RangeOrder) (z z2 : Store) (name : GoString)
    (M R A : List GoString) (h : indexTx ro z name M R A = .ok z2) : z2.attrs = z.attrs := by
  unfold indexTx at h
  simp only at h
  split at h
  · cases h
  · split at h
    · cases h
    · simp only [Except.ok.injEq] at h
      subst h; rfl

theorem indexTx_nil (ro : RangeOrder) (z : Store) (name : GoString) :
    indexTx ro z name [] [] [] = .ok z := by
  unfold indexTx
  simp only [order_nil, List.foldl_nil, putRemoved, putAdded, putStats]

theorem removedTagsOf_self (s : List GoString) : removedTagsOf s s = [] := by
  unfold removedTagsOf
  rw [List.filter_eq_nil_iff]
  intro a ha; simp [ha]

theorem addedTagsOf_self (s : List GoString) : addedTagsOf s s = [] := by
  unfold addedTagsOf
  rw [List.filter_eq_nil_iff]
  intro a ha; simp [ha]

/-- Writing an attribute whose tags are valid UTF-8 over the row a write of the same
attribute left only rewrites the row of `attrs`: no tag is removed or added. -/
theorem PutNoteDB_same (ro : RangeOrder) (s : Store) (name : GoString) (attr : NoteAttribute)
    (hj : jsonAttr attr = attr)
    (hv : s.attrs.put name (jsonAttr attr) = .ok (s.attrs.set name (jsonAttr attr)))
    (h : s.attrs.get name = some (jsonAttr attr)) :
    PutNoteDB ro s name attr = ({ s with attrs := s.attrs.set name (jsonAttr attr) }, none) := by
  unfold PutNoteDB
  rw [hv, h]
  simp only [prevTagSet, hj, removedTagsOf_self, addedTagsOf_self, List.append_nil, indexTx_nil]

/-- The store lines 116-254 of `PutNote` leave, by the transaction that failed. -/
theorem PutNoteDB_cases (ro : RangeOrder) (z : Store) (name : GoString) (attr : NoteAttribute) :
    (∃ e, z.attrs.put name (jsonAttr attr) = .error e ∧ PutNoteDB ro z name attr = (z, some e))
    ∨ (z.attrs.put name (jsonAttr attr) = .ok (z.attrs.set name (jsonAttr attr))
        ∧ ((∃ e, PutNoteDB ro z name attr
              = ({ z with attrs := z.attrs.set name (jsonAttr attr) }, some e))
          ∨ (∃ z2, PutNoteDB ro z name attr = (z2, none)
              ∧ z2.attrs = z.attrs.set name (jsonAttr attr)))) := by
  cases hp : z.attrs.put name (jsonAttr attr) with
  | error e => exact Or.inl ⟨e, rfl, by unfold PutNoteDB; rw [hp]⟩
  | ok attrs1 =>
    obtain ⟨h1, _, _⟩ := put_ok hp
    subst h1
    refine Or.inr ⟨rfl, ?_⟩
    cases hi : indexTx ro { z with attrs := z.attrs.set name (jsonAttr attr) } name
      (removedTagsOf (prevTagSet (z.attrs.get name)) (setOf attr.Tags)
        ++ addedTagsOf (prevTagSet (z.attrs.get name)) (setOf attr.Tags))
      (removedTagsOf (prevTagSet (z.attrs.get name)) (setOf attr.Tags))
      (addedTagsOf (prevTagSet (z.attrs.get name)) (setOf attr.Tags)) with
    | error e =>
      refine Or.inl ⟨e, ?_⟩
      unfold PutNoteDB; rw [hp]; simp only; rw [hi]
    | ok z2 =>
      refine Or.inr ⟨z2, ?_, indexTx_attrs _ _ _ _ _ _ _ hi⟩
      unfold PutNoteDB; rw [hp]; simp only; rw [hi]

/-- C10, counterexample: on the empty store note `a` is written twice with the one tag
`[255]`, a byte that is not valid UTF-8.  Both writes return no error; the first leaves
`binaryStore1`, and after the second the count of `[255]` is 2 instead of 1 and there is a
new, empty membership bucket for the tag U+FFFD: the counts table and the membership tables
are not what they were after the first write. -/
theorem C10_counterexample :
    PutNoteDB RangeOrder.stored Store.empty [97] ⟨[[255]], 0, 0⟩ = (binaryStore1, none)
      ∧ PutNoteDB RangeOrder.stored binaryStore1 [97] ⟨[[255]], 0, 0⟩ = (binaryStore2, none)
      ∧ binaryStore2.tagsStats ≠ binaryStore1.tagsStats
      ∧ binaryStore2.tagBuckets ≠ binaryStore1.tagBuckets := by
  decide

/-- C10, amended (idempotent rewrite): in every store, so in every store reached by
successful `PutNote` calls, writing the same attribute, with tags that are valid UTF-8, under
the same name twice in a row leaves every membership bucket and the bucket `tags_stats` after
the second write identical to what they were after the first write, whatever the visiting
orders of the two calls and whether or not the first write returned an error. -/
theorem C10_rewrite_idempotent (ro1 ro2 : RangeOrder) (z : Store) (name : GoString)
    (attr : NoteAttribute) (hv : ∀ t ∈ attr.Tags, ValidString t = true) :
    (PutNoteDB ro2 (PutNoteDB ro1 z name attr).1 name attr).1.tagBuckets
        = (PutNoteDB ro1 z name attr).1.tagBuckets
      ∧ (PutNoteDB ro2 (PutNoteDB ro1 z name attr).1 name attr).1.tagsStats
        = (PutNoteDB ro1 z name attr).1.tagsStats := by
  have hj := jsonAttr_of_valid attr hv
  have key : ∀ s : Store,
      z.attrs.put name (jsonAttr attr) = .ok (z.attrs.set name (jsonAttr attr)) →
      s.attrs = z.attrs.set name (jsonAttr attr) →
      PutNoteDB ro2 s name attr
        = ({ s with attrs := s.attrs.set name (jsonAttr attr) }, none) := by
    intro s hp hs
    have hp2 : s.attrs.put name (jsonAttr attr) = .ok (s.attrs.set name (jsonAttr attr)) := by
      unfold Assoc.put at hp ⊢
      split_ifs at hp ⊢
      rfl
    exact PutNoteDB_same ro2 s name attr hj hp2 (by rw [hs, Assoc.get_set]; simp)
  rcases PutNoteDB_cases ro1 z name attr with ⟨e, hp, h1⟩ | ⟨hp, ⟨e, h1⟩ | ⟨z2, h1, h2⟩⟩
  · have h2 : PutNoteDB ro2 z name attr = (z, some e) := by unfold PutNoteDB; rw [hp]
    rw [h1]; simp only; rw [h2]; exact ⟨rfl, rfl⟩
  · rw [h1]; simp only; rw [key _ hp rfl]; exact ⟨rfl, rfl⟩
  · rw [h1]; simp only; rw [key _ hp h2]; exact ⟨rfl, rfl⟩

theorem C10_rewrite_idempotent_witness :
    (∀ t ∈ [[195, 169], [120]], ValidString t = true)
      ∧ ((PutNoteDB RangeOrder.reversed
            (PutNoteDB RangeOrder.stored demoStore [97] ⟨[[195, 169], [120]], 3, 4⟩).1 [97]
            ⟨[[195, 169], [120]], 3, 4⟩).1.tagBuckets
          = (PutNoteDB RangeOrder.stored demoStore [97] ⟨[[195, 169], [120]], 3, 4⟩).1.tagBuckets
        ∧ (PutNoteDB RangeOrder.reversed
            (PutNoteDB RangeOrder.stored demoStore [97] ⟨[[195, 169], [120]], 3, 4⟩).1 [97]
            ⟨[[195, 169], [120]], 3, 4⟩).1.tagsStats
          = (PutNoteDB RangeOrder.stored demoStore [97] ⟨[[195, 169], [120]], 3, 4⟩).1.tagsStats) :=
  ⟨by decide, C10_rewrite_idempotent RangeOrder.stored RangeOrder.reversed demoStore [97]
    ⟨[[195, 169], [120]], 3, 4⟩ (by decide)⟩

/-- The function `PutNote` on the path that reaches line 116: the store and the error are
those of lines 116-254 with the parsed attribute. -/
theorem PutNote_parsed (h : Host) (ro : RangeOrder) (fs : Assoc GoString) (z : Store)
    (name content : GoString) (attr : NoteAttribute)
    (hm : h.mkdirAll = true) (ho : h.openFile name = true) (hp : h.parse content = .ok attr) :
    PutNote h ro fs z name content
      = (PutNoteFile fs name content, (PutNoteDB ro z name attr).1,
          (PutNoteDB ro z name attr).2.map PutErr.bolt) := by
  unfold PutNote
  rw [hm, ho, hp]
  rfl

/-- The function `PutNote` returns `nil` exactly on the path that reaches line 116 with an
attribute for which lines 116-254 return `nil`; the store is then the one these lines
leave. -/
theorem PutNote_ok_iff (h : Host) (ro : RangeOrder) (fs : Assoc GoString) (z : Store)
    (name content : GoString) :
    (PutNote h ro fs z name content).2.2 = none
      ↔ h.mkdirAll = true ∧ h.openFile name = true
          ∧ ∃ attr, h.parse content = .ok attr ∧ (PutNoteDB ro z name attr).2 = none
              ∧ (PutNote h ro fs z name content).2.1 = (PutNoteDB ro z name attr).1 := by
  constructor
  · intro hn
    unfold PutNote at hn
    cases hm : h.mkdirAll with
    | false => rw [hm] at hn; simp at hn
    | true =>
      cases ho : h.openFile name with
      | false => rw [hm, ho] at hn; simp at hn
      | true =>
        cases hp : h.parse content with
        | error n => rw [hm, ho, hp] at hn; simp at hn
        | ok attr =>
          refine ⟨rfl, rfl, attr, rfl, ?_, ?_⟩
          · rw [hm, ho, hp] at hn
            simpa [PutNoteContent] using hn
          · rw [PutNote_parsed h ro fs z name content attr hm ho hp]
  · rintro ⟨hm, ho, attr, hp, hn, _⟩
    rw [PutNote_parsed h ro fs z name content attr hm ho hp]
    simp [hn]

/-- An error of `os.MkdirAll`, of `os.OpenFile` or of the header parser is returned before
the database is opened: the store is as before the call. -/
theorem PutNote_early_error (h : Host) (ro : RangeOrder) (fs : Assoc GoString) (z : Store)
    (name content : GoString)
    (he : (PutNote h ro fs z name content).2.2 = some PutErr.mkdirAll
      ∨ (PutNote h ro fs z name content).2.2 = some PutErr.openFile
      ∨ (PutNote h ro fs z name content).2.2 = some PutErr.parse) :
    (PutNote h ro fs z name content).2.1 = z := by
  unfold PutNote at he ⊢
  cases hm : h.mkdirAll with
  | false => simp
  | true =>
    cases ho : h.openFile name with
    | false => simp
    | true =>
      cases hp : h.parse content with
      | error n => simp
      | ok attr =>
        rw [hm, ho, hp] at he
        simp only [Bool.true_eq_false, if_false] at he
        cases hq : (PutNoteContent ro fs z name content attr).2.2 with
        | none => rw [hq] at he; simp at he
        | some e => rw [hq] at he; simp at he

/-- Whenever `PutNote` returns an error, every membership bucket and the bucket `tags_stats`
are as before the call: the index transaction is the only writer of these buckets and is
rolled back as a whole. -/
theorem PutNote_error_frame (h : Host) (ro : RangeOrder) (fs : Assoc GoString) (z : Store)
    (name content : GoString) (e : PutErr) (he : (PutNote h ro fs z name content).2.2 = some e) :
    (PutNote h ro fs z name content).2.1.tagBuckets = z.tagBuckets
      ∧ (PutNote h ro fs z name content).2.1.tagsStats = z.tagsStats := by
  unfold PutNote at he ⊢
  cases hm : h.mkdirAll with
  | false => simp
  | true =>
    cases ho : h.openFile name with
    | false => simp
    | true =>
      cases hp : h.parse content with
      | error n => simp
      | ok attr =>
        rw [hm, ho, hp] at he
        simp only [Bool.true_eq_false, if_false, PutNoteContent] at he ⊢
        rcases PutNoteDB_cases ro z name attr with ⟨e1, _, h1⟩ | ⟨_, ⟨e1, h1⟩ | ⟨z2, h1, _⟩⟩
        · rw [h1]; exact ⟨rfl, rfl⟩
        · rw [h1]; exact ⟨rfl, rfl⟩
        · rw [h1] at he; simp at he

/-- C7, counterexample: on the empty store, note `a` is written with the tags `y` and `""`.
The bucket `attrs` has no record for `a` before the call; the index transaction fails on the
`Put` of the count row with the empty key, `PutNote` returns `ErrKeyRequired`, and the
attribute record of `a` is stored all the same: it was committed by the first transaction
without its index update. -/
theorem C7_counterexample :
    (PutNote demoHost RangeOrder.stored [] Store.empty [97] emptyTagContent).2.2
        = some (PutErr.bolt BoltErr.ErrKeyRequired)
      ∧ Store.empty.attrs.get [97] = none
      ∧ (PutNote demoHost RangeOrder.stored [] Store.empty [97] emptyTagContent).2.1.attrs.get
          [97] = some ⟨[[121], []], 0, 0⟩
      ∧ (PutNote demoHost RangeOrder.stored [] Store.empty [97] emptyTagContent).2.1.tagBuckets
          = [] := by
  decide

/-- C7, amended: for every store and every call of `PutNote` that reaches its index
transaction (the directory and the file open, the header parses to `attr`, the attribute
write is committed), if a storage step of the index transaction fails with the error `e`,
then `PutNote` returns `e`, every membership bucket and the bucket `tags_stats` are exactly
as they were before the call, and the bucket `attrs` is the one the first transaction
committed: it holds the new attribute, as its JSON reads back, under the name. -/
theorem C7_failed_write (h : Host) (ro : RangeOrder) (fs : Assoc GoString) (z : Store)
    (name content : GoString) (attr : NoteAttribute) (e : BoltErr)
    (hm : h.mkdirAll = true) (ho : h.openFile name = true) (hp : h.parse content = .ok attr)
    (ha : z.attrs.put name (jsonAttr attr) = .ok (z.attrs.set name (jsonAttr attr)))
    (hi : indexTx ro { z with attrs := z.attrs.set name (jsonAttr attr) } name
      (removedTagsOf (prevTagSet (z.attrs.get name)) (setOf attr.Tags)
        ++ addedTagsOf (prevTagSet (z.attrs.get name)) (setOf attr.Tags))
      (removedTagsOf (prevTagSet (z.attrs.get name)) (setOf attr.Tags))
      (addedTagsOf (prevTagSet (z.attrs.get name)) (setOf attr.Tags)) = .error e) :
    (PutNote h ro fs z name content).2.2 = some (PutErr.bolt e)
      ∧ (PutNote h ro fs z name content).2.1.tagBuckets = z.tagBuckets
      ∧ (PutNote h ro fs z name content).2.1.tagsStats = z.tagsStats
      ∧ (PutNote h ro fs z name content).2.1.attrs = z.attrs.set name (jsonAttr attr)
      ∧ (PutNote h ro fs z name content).2.1.attrs.get name = some (jsonAttr attr) := by
  have hdb : PutNoteDB ro z name attr
      = ({ z with attrs := z.attrs.set name (jsonAttr attr) }, some e) := by
    unfold PutNoteDB
    rw [ha]
    simp only
    rw [hi]
  rw [PutNote_parsed h ro fs z name content attr hm ho hp, hdb]
  refine ⟨rfl, rfl, rfl, rfl, ?_⟩
  simp only [Assoc.get_set, if_true]

theorem C7_failed_write_witness :
    demoHost.mkdirAll = true ∧ demoHost.openFile [99] = true
      ∧ demoHost.parse emptyTagContent = .ok ⟨[[121], []], 0, 0⟩
      ∧ ((PutNote demoHost RangeOrder.stored [] demoStore [99] emptyTagContent).2.2
          = some (PutErr.bolt BoltErr.ErrKeyRequired)
        ∧ (PutNote demoHost RangeOrder.stored [] demoStore [99] emptyTagContent).2.1.tagBuckets
          = demoStore.tagBuckets
        ∧ (PutNote demoHost RangeOrder.stored [] demoStore [99] emptyTagContent).2.1.tagsStats
          = demoStore.tagsStats
        ∧ (PutNote demoHost RangeOrder.stored [] demoStore [99] emptyTagContent).2.1.attrs
          = demoStore.attrs.set [99] (jsonAttr ⟨[[121], []], 0, 0⟩)
        ∧ (PutNote demoHost RangeOrder.stored [] demoStore [99] emptyTagContent).2.1.attrs.get
            [99] = some (jsonAttr ⟨[[121], []], 0, 0⟩)) :=
  ⟨rfl, by decide, rfl,
    C7_failed_write demoHost RangeOrder.stored [] demoStore [99] emptyTagContent
      ⟨[[121], []], 0, 0⟩ BoltErr.ErrKeyRequired rfl (by decide) rfl rfl rfl⟩

end Zettelo

namespace Zettelo

/-! ### The cursor over a table in key order -/

theorem dropWhile_eq_filter {V : Type} (b : Assoc V) (hs : Sorted b) (k : GoString) :
    b.dropWhile (fun e => decide (e.1 < k)) = b.filter (fun e => decide (k ≤ e.1)) := by
  induction b with
  | nil => rfl
  | cons e rest ih =>
    have hp := Assoc.sorted_cons.mp hs
    by_cases h : e.1 < k
    · rw [List.dropWhile_cons_of_pos (by simpa using h),
        List.filter_cons_of_neg (by simpa using h), ih hp.2]
    · have hall : ∀ x ∈ rest, decide (k ≤ x.1) = true := by
        intro x hx
        have h1 : e.1 < x.1 := hp.1 x.1 (List.mem_map_of_mem Prod.fst hx)
        simpa using le_trans (not_lt.mp h) (le_of_lt h1)
      rw [List.dropWhile_cons_of_neg (by simpa using h),
        List.filter_cons_of_pos (by simpa using h), List.filter_eq_self.mpr hall]

theorem filter_nil_le {V : Type} (b : Assoc V) :
    b.filter (fun e => decide (([] : GoString) ≤ e.1)) = b := by
  rw [List.filter_eq_self]
  intro x _
  simp

theorem set_append {V : Type} (b : Assoc V) (k : GoString) (v : V)
    (h : ∀ x ∈ Assoc.keys b, x < k) : b.set k v = b ++ [(k, v)] := by
  induction b with
  | nil => rfl
  | cons e rest ih =>
    obtain ⟨ke, ve⟩ := e
    have h1 : ke < k := h ke (by simp [Assoc.keys])
    have h2 : ∀ x ∈ Assoc.keys rest, x < k := fun x hx =>
      h x (by rw [Assoc.keys_cons]; exact List.mem_cons_of_mem _ hx)
    simp only [Assoc.set, not_lt_of_lt h1, if_false, ne_of_gt h1, ih h2, List.cons_append]

theorem keys_append {V : Type} (a b : Assoc V) :
    Assoc.keys (a ++ b) = Assoc.keys a ++ Assoc.keys b := by
  simp [Assoc.keys]

theorem foldl_set_append {V : Type} (l stats : Assoc V) (hs : Sorted (stats ++ l)) :
    l.foldl (fun s kv => Assoc.set s kv.1 kv.2) stats = stats ++ l := by
  induction l generalizing stats with
  | nil => simp
  | cons e rest ih =>
    have h1 : ∀ x ∈ Assoc.keys stats, x < e.1 := by
      intro x hx
      unfold Sorted at hs
      rw [keys_append, Assoc.keys_cons, List.pairwise_append] at hs
      exact hs.2.2 x hx e.1 (List.mem_cons_self _ _)
    rw [List.foldl_cons, set_append stats e.1 e.2 h1]
    have : stats ++ [(e.1, e.2)] ++ rest = stats ++ e :: rest := by simp
    rw [ih (stats ++ [(e.1, e.2)]) (by rw [this]; exact hs), this]

theorem getLast?_cons_getD {α : Type} (e : α) (l : List α) :
    (e :: l).getLast? = some (l.getLast?.getD e) := by
  rw [List.getLast?_cons]

/-- The iterations of `GetTagsStats` after the first: the cursor moves with `Next`. -/
theorem statsLoop_next (seek : GoString) (fuel i : Nat) (hi : i ≠ 0) (c : Cursor Int)
    (stats : Assoc Int) (last : GoString) :
    statsLoop seek fuel i c stats last
      = ((c.stack.tail.take fuel).foldl (fun s kv => Assoc.set s kv.1 kv.2) stats,
         ((c.stack.tail.take fuel).getLast?.map Prod.fst).getD last) := by
  induction fuel generalizing i c stats last with
  | zero => simp [statsLoop]
  | succ n ih =>
    rw [statsLoop]
    simp only [hi, if_false, Cursor.next]
    cases ht : c.stack.tail with
    | nil => simp
    | cons e t =>
      simp only [List.head?_cons]
      rw [ih (i + 1) (Nat.succ_ne_zero i)]
      simp only [ht, List.tail_cons, List.take_succ_cons, List.foldl_cons, getLast?_cons_getD,
        Option.map_some', Option.getD_some]
      cases (List.take n t).getLast? <;> simp

/-- The first iteration of `GetTagsStats` puts the cursor on `start`, the rows from the seek
position on, and the loop reads `fuel` rows from there. -/
theorem statsLoop_first (seek : GoString) (fuel : Nat) (b : Assoc Int) :
    statsLoop seek fuel 0 ⟨b, []⟩ [] []
      = (((if seek.length > 0 then b.dropWhile (fun e => decide (e.1 < seek)) else b).take
            fuel).foldl (fun s kv => Assoc.set s kv.1 kv.2) [],
         (((if seek.length > 0 then b.dropWhile (fun e => decide (e.1 < seek)) else b).take
            fuel).getLast?.map Prod.fst).getD []) := by
  cases fuel with
  | zero => simp [statsLoop]
  | succ n =>
    rw [statsLoop]
    simp only [if_true]
    have hstack : ∀ S : Assoc Int,
        (match S.head? with
          | none => (([] : Assoc Int), ([] : GoString))
          | some kv => statsLoop seek n (0 + 1) ⟨b, S⟩ (Assoc.set [] kv.1 kv.2) kv.1)
        = ((S.take (n + 1)).foldl (fun s kv => Assoc.set s kv.1 kv.2) [],
           ((S.take (n + 1)).getLast?.map Prod.fst).getD []) := by
      intro S
      cases S with
      | nil => simp
      | cons e t =>
        simp only [List.head?_cons]
        rw [statsLoop_next seek n (0 + 1) (Nat.succ_ne_zero 0)]
        simp only [List.tail_cons, List.take_succ_cons, List.foldl_cons, getLast?_cons_getD,
          Option.map_some', Option.getD_some]
        cases (List.take n t).getLast? <;> simp
    by_cases hsk : seek.length > 0
    · simp only [hsk, if_true, Cursor.seek]
      exact hstack _
    · simp only [hsk, if_false, Cursor.first]
      exact hstack _

end Zettelo

namespace Zettelo

/-! ### `GetTagsStats` -/

theorem sorted_sublist {V : Type} {a b : Assoc V} (h : List.Sublist a b) (hs : Sorted b) :
    Sorted a := by
  unfold Sorted Assoc.keys at *
  exact List.Pairwise.sublist (h.map _) hs

theorem le_lastKeyOf (page : Assoc Int) (hs : Sorted page) :
    ∀ e ∈ page, e.1 ≤ lastKeyOf page := by
  induction page with
  | nil => intro e he; cases he
  | cons e0 t ih =>
    have hp := Assoc.sorted_cons.mp hs
    intro e he
    unfold lastKeyOf at ih ⊢
    rw [getLast?_cons_getD]
    cases hl : t.getLast? with
    | none =>
      rw [List.getLast?_eq_none_iff] at hl
      subst hl
      rw [List.mem_singleton] at he
      subst he
      simp
    | some x =>
      have hx : x ∈ t := List.mem_of_getLast?_eq_some hl
      simp only [Option.getD_some, Option.map_some']
      rw [List.mem_cons] at he
      rcases he with rfl | he
      · exact le_of_lt (hp.1 x.1 (List.mem_map_of_mem Prod.fst hx))
      · have := ih hp.2 e he
        rw [hl] at this
        simpa using this

/-- The page of `GetTagsStats` in closed form, for a table in key order. -/
theorem GetTagsStats_eq (z : Store) (hs : Sorted z.tagsStats) (seek : GoString) (limit : Int) :
    GetTagsStats z seek limit
      = ((rowsFrom z seek).take limit.toNat, lastKeyOf ((rowsFrom z seek).take limit.toNat)) := by
  have hstart : (if seek.length > 0 then
        z.tagsStats.dropWhile (fun e => decide (e.1 < seek)) else z.tagsStats)
      = rowsFrom z seek := by
    unfold rowsFrom
    by_cases h : seek.length > 0
    · rw [if_pos h, dropWhile_eq_filter _ hs]
    · have h0 : seek = [] := List.length_eq_zero.mp (by omega)
      rw [if_neg h, h0, filter_nil_le]
  have hsub : List.Sublist ((rowsFrom z seek).take limit.toNat) z.tagsStats :=
    (List.take_sublist _ _).trans (List.filter_sublist _)
  unfold GetTagsStats
  rw [statsLoop_first, hstart, foldl_set_append _ _ (by simpa using sorted_sublist hsub hs)]
  rfl

/-- C9 (stats page content): for a counts table in key order, `GetTagsStats(seek, limit)`
returns exactly the first `limit` rows, in key order and with the stored counts, among the
rows whose key is at or after `seek` (every row when `seek` is empty), and all of them when
there are fewer; it returns at most `limit` rows (none for a `limit` below 1), `lastSeek` is
the key of the last row returned, which is the greatest key returned, and `lastSeek` is the
empty string when no row was read. -/
theorem C9_stats_page (z : Store) (hs : Sorted z.tagsStats) (seek : GoString) (limit : Int) :
    (GetTagsStats z seek limit).1 = (rowsFrom z seek).take limit.toNat
      ∧ (GetTagsStats z seek limit).1.length = min limit.toNat (rowsFrom z seek).length
      ∧ rowsFrom z [] = z.tagsStats
      ∧ (GetTagsStats z seek limit).2 = lastKeyOf (GetTagsStats z seek limit).1
      ∧ (∀ e ∈ (GetTagsStats z seek limit).1, e.1 ≤ (GetTagsStats z seek limit).2)
      ∧ ((GetTagsStats z seek limit).1 = [] → (GetTagsStats z seek limit).2 = []) := by
  have hsub : List.Sublist ((rowsFrom z seek).take limit.toNat) z.tagsStats :=
    (List.take_sublist _ _).trans (List.filter_sublist _)
  rw [GetTagsStats_eq z hs]
  refine ⟨rfl, by simp, filter_nil_le _, rfl, le_lastKeyOf _ (sorted_sublist hsub hs), ?_⟩
  intro h
  simp only at h ⊢
  rw [h]; rfl

theorem C9_stats_page_witness :
    Sorted demoStats.tagsStats
      ∧ ((GetTagsStats demoStats [121] 5).1 = (rowsFrom demoStats [121]).take (5 : Int).toNat
      ∧ (GetTagsStats demoStats [121] 5).1.length
          = min (5 : Int).toNat (rowsFrom demoStats [121]).length
      ∧ rowsFrom demoStats [] = demoStats.tagsStats
      ∧ (GetTagsStats demoStats [121] 5).2 = lastKeyOf (GetTagsStats demoStats [121] 5).1
      ∧ (∀ e ∈ (GetTagsStats demoStats [121] 5).1, e.1 ≤ (GetTagsStats demoStats [121] 5).2)
      ∧ ((GetTagsStats demoStats [121] 5).1 = [] → (GetTagsStats demoStats [121] 5).2 = [])) :=
  ⟨by decide, C9_stats_page demoStats (by decide) [121] 5⟩

end Zettelo

namespace Zettelo

/-! ### Paging through `GetTagsStats` -/

theorem statsPages_stuck (n : Nat) :
    statsPages demoStats 1 n [120] = List.replicate n [([120], 2)] := by
  induction n with
  | zero => rfl
  | succ n ih =>
    rw [statsPages]
    have h : GetTagsStats demoStats [120] 1 = ([([120], 2)], [120]) := by decide
    rw [h, ih]; rfl

/-- C8, counterexample: on the counts table `x: 2, y: 1, z: 1`, the chain of calls with
`limit = 1` returns the page `x` at every call, so tag `y` is on no page however long the
chain; and with `limit = 2` the first two pages are `x, y` and `y, z`, so `y` comes twice in
their concatenation. -/
theorem C8_counterexample :
    (∀ n, ∀ page ∈ statsPages demoStats 1 n [], page = [([120], 2)])
      ∧ (statsPages demoStats 2 2 []).flatten = [([120], 2), ([121], 1), ([121], 1), ([122], 1)]
      ∧ (GetTagsStats demoStats [] 3).1 = [([120], 2), ([121], 1), ([122], 1)] := by
  refine ⟨?_, by decide, by decide⟩
  intro n page hp
  cases n with
  | zero => cases hp
  | succ n =>
    rw [statsPages] at hp
    have h : GetTagsStats demoStats [] 1 = ([([120], 2)], [120]) := by decide
    rw [h, statsPages_stuck, List.mem_cons] at hp
    rcases hp with hp | hp
    · exact hp
    · exact List.eq_of_mem_replicate hp

theorem rowsFrom_split (z : Store) (pre rest : Assoc Int) (e : GoString × Int)
    (hz : z.tagsStats = pre ++ e :: rest) (hs : Sorted z.tagsStats) :
    rowsFrom z e.1 = e :: rest := by
  unfold rowsFrom
  rw [hz] at hs ⊢
  unfold Sorted at hs
  rw [keys_append, Assoc.keys_cons, List.pairwise_append, List.pairwise_cons] at hs
  rw [List.filter_append, List.filter_cons_of_pos (by simp)]
  have h1 : pre.filter (fun x => decide (e.1 ≤ x.1)) = [] := by
    rw [List.filter_eq_nil_iff]
    intro x hx
    have := hs.2.2 x.1 (List.mem_map_of_mem Prod.fst hx) e.1 (List.mem_cons_self _ _)
    simpa using this
  have h2 : rest.filter (fun x => decide (e.1 ≤ x.1)) = rest := by
    rw [List.filter_eq_self]
    intro x hx
    have := hs.2.1.1 x.1 (List.mem_map_of_mem Prod.fst hx)
    simpa using le_of_lt this
  rw [h1, h2]; rfl

theorem lastKeyOf_append_singleton (l : Assoc Int) (e : GoString × Int) :
    lastKeyOf (l ++ [e]) = e.1 := by
  simp [lastKeyOf]

/-- A chain of resumed calls that starts at the row `e` reads, beyond `e`, all the rows after
`e`, provided a page holds at least two rows. -/
theorem resumedRows_complete (z : Store) (hs : Sorted z.tagsStats) (limit : Int)
    (hl : 2 ≤ limit) (m : Nat) :
    ∀ (rest pre : Assoc Int) (e : GoString × Int), rest.length ≤ m →
      z.tagsStats = pre ++ e :: rest →
      ∃ N, ∀ n, N ≤ n → resumedRows z limit n e.1 = rest := by
  obtain ⟨L, hL⟩ : ∃ L : Nat, limit.toNat = L + 2 := ⟨limit.toNat - 2, by omega⟩
  induction m with
  | zero =>
    intro rest pre e hlen hz
    have hr : rest = [] := List.length_eq_zero.mp (by omega)
    subst hr
    have hall : ∀ n, resumedRows z limit n e.1 = [] := by
      intro n
      induction n with
      | zero => rfl
      | succ n ih =>
        rw [resumedRows, GetTagsStats_eq z hs, rowsFrom_split z pre [] e hz hs]
        simp only [hL, List.take_succ_cons, List.take_nil, List.tail_cons, List.nil_append]
        have : lastKeyOf [e] = e.1 := by simp [lastKeyOf]
        rw [this, ih]
    exact ⟨0, fun n _ => hall n⟩
  | succ m ih =>
    intro rest pre e hlen hz
    cases rest with
    | nil => exact ih [] pre e (by simp) hz
    | cons e1 r1 =>
      have hne : (e1 :: r1).take (L + 1) ≠ [] := by simp
      obtain ⟨init, last, hinit⟩ : ∃ init last, (e1 :: r1).take (L + 1) = init ++ [last] :=
        ⟨_, _, (List.dropLast_append_getLast hne).symm⟩
      have hlen2 : ((e1 :: r1).drop (L + 1)).length ≤ m := by
        rw [List.length_drop]
        simp only [List.length_cons] at hlen ⊢
        omega
      have htd := List.take_append_drop (L + 1) (e1 :: r1)
      rw [hinit] at htd
      have hz2 : z.tagsStats = (pre ++ e :: init) ++ last :: (e1 :: r1).drop (L + 1) := by
        rw [hz]
        conv_lhs => rw [← htd]
        simp
      obtain ⟨N, hN⟩ := ih _ _ last hlen2 hz2
      refine ⟨N + 1, fun n hn => ?_⟩
      obtain ⟨k, rfl⟩ : ∃ k, n = k + 1 := ⟨n - 1, by omega⟩
      rw [resumedRows, GetTagsStats_eq z hs, rowsFrom_split z pre (e1 :: r1) e hz hs]
      simp only [hL]
      have ht : (e :: e1 :: r1).take (L + 2) = e :: (init ++ [last]) := by
        rw [List.take_succ_cons, hinit]
      rw [ht]
      have hk : lastKeyOf (e :: (init ++ [last])) = last.1 := by
        rw [← List.cons_append]; exact lastKeyOf_append_singleton _ _
      rw [hk, hN k (by omega), List.tail_cons, ← hinit, List.take_append_drop]

/-- A chain of calls with a page of at least two rows, resumed each time from the `lastSeek`
of the call before, reads every row of the table from some call on. -/
theorem pagedRows_complete (z : Store) (hs : Sorted z.tagsStats) (limit : Int)
    (hl : 2 ≤ limit) : ∃ N, ∀ n, N ≤ n → pagedRows z limit n = z.tagsStats := by
  obtain ⟨L, hL⟩ : ∃ L : Nat, limit.toNat = L + 2 := ⟨limit.toNat - 2, by omega⟩
  cases hz : z.tagsStats with
  | nil =>
    refine ⟨0, fun n _ => ?_⟩
    have hg : GetTagsStats z [] limit = ([], []) := by
      rw [GetTagsStats_eq z hs]
      simp [rowsFrom, hz, lastKeyOf]
    have hres : ∀ k, resumedRows z limit k [] = [] := by
      intro k
      induction k with
      | zero => rfl
      | succ k ih => rw [resumedRows, hg]; simpa using ih
    cases n with
    | zero => rfl
    | succ n => rw [pagedRows, hg]; simpa using hres n
  | cons e0 t =>
    have hne : (e0 :: t).take (L + 2) ≠ [] := by simp
    obtain ⟨init, last, hinit⟩ : ∃ init last, (e0 :: t).take (L + 2) = init ++ [last] :=
      ⟨_, _, (List.dropLast_append_getLast hne).symm⟩
    have htd := List.take_append_drop (L + 2) (e0 :: t)
    rw [hinit] at htd
    have hz2 : z.tagsStats = init ++ last :: (e0 :: t).drop (L + 2) := by
      rw [hz]
      conv_lhs => rw [← htd]
      simp
    obtain ⟨N, hN⟩ := resumedRows_complete z hs limit hl _ _ init last (le_refl _) hz2
    refine ⟨N + 1, fun n hn => ?_⟩
    obtain ⟨k, rfl⟩ : ∃ k, n = k + 1 := ⟨n - 1, by omega⟩
    have hrows : rowsFrom z [] = e0 :: t := by
      unfold rowsFrom; rw [filter_nil_le, hz]
    rw [pagedRows, GetTagsStats_eq z hs, hrows]
    simp only [hL]
    rw [hinit, lastKeyOf_append_singleton, hN k (by omega), ← hinit, List.take_append_drop]

end Zettelo

namespace Zettelo

/-! ### `Filter` on concrete stores -/

theorem dupStore_reachable : runPuts Store.empty dupCalls = some dupStore := by decide

/-- C4, failing input: with note `a` tagged `x` and note `b` tagged `x, y`, the query
`x | y` with an empty seek and `max = 100` returns `a, b, b`: the cursor of `y` reads `b` in
the first round and the cursor of `x` reads it in the second, and the set `temp` that keeps a
name from being appended twice is made anew in every round.  The name `b` is returned twice
in either visiting order of the maps. -/
theorem C4_duplicate_result :
    (Filter RangeOrder.stored dupStore [[[120]], [[121]]] [] 100).1 = [[97], [98], [98]]
      ∧ (Filter RangeOrder.reversed dupStore [[[120]], [[121]]] [] 100).1 = [[97], [98], [98]] := by
  decide

/-- C6, failing input: on the table `y = a, b` the query `y` with an empty seek and
`max = 100` reads `a`, `b` and then runs out; `lastPositions["y"]` is the empty string, not
`b`, the last name the cursor read. -/
theorem C6_exhausted_position :
    (Filter RangeOrder.stored demoStore [[[121]]] [] 100).1 = [[97], [98]]
      ∧ (Filter RangeOrder.stored demoStore [[[121]]] [] 100).2.1 = [([121], [])] := by
  decide

theorem filterChain_stuck (n : Nat) :
    filterChain (fun _ => RangeOrder.stored) [[[121]]] 1 n [([121], [97])] demoStore
      = (List.replicate n [[97]]).flatten := by
  induction n with
  | zero => rfl
  | succ n ih =>
    rw [filterChain]
    have h : Filter RangeOrder.stored demoStore [[[121]]] [([121], [97])] 1
        = ([[97]], [([121], [97])], demoStore) := by decide
    simp only [h, ih]
    rfl

/-- C5, counterexample: on the table `y = a, b` the chain of calls for the query `y` with
`max = 1` returns `a` at every call (each call seeks to the position `a` of the call before
and reads one name), so `b` is never returned, while one call with `max = 3`, which runs the
cursor to its end, returns `a, b`. -/
theorem C5_counterexample :
    (∀ n, ∀ x ∈ filterChain (fun _ => RangeOrder.stored) [[[121]]] 1 n [] demoStore, x = [97])
      ∧ (Filter RangeOrder.stored demoStore [[[121]]] [] 3).1 = [[97], [98]] := by
  refine ⟨?_, by decide⟩
  intro n x hx
  cases n with
  | zero => cases hx
  | succ n =>
    rw [filterChain] at hx
    have h : Filter RangeOrder.stored demoStore [[[121]]] [] 1
        = ([[97]], [([121], [97])], demoStore) := by decide
    simp only [h, filterChain_stuck, List.mem_append, List.mem_singleton, List.mem_flatten,
      List.mem_replicate] at hx
    rcases hx with hx | ⟨l, ⟨_, hl⟩, hx⟩
    · exact hx
    · subst hl; simpa using hx

end Zettelo

namespace Zettelo

/-! ### One round of `Filter` -/

theorem isAll_iff (tb : Assoc (Assoc GoString)) (x : GoString) (v : List GoString) :
    isAll tb x v = true ↔ ∀ t ∈ v, x ∈ Assoc.keys (bucketOf tb t) := by
  unfold isAll
  rw [List.all_eq_true]
  constructor
  · intro h t ht
    exact (Assoc.get_isSome_iff _ _).mp (h t ht)
  · intro h t ht
    exact (Assoc.get_isSome_iff _ _).mpr (h t ht)

theorem matchClauses_spec (tb : Assoc (Assoc GoString)) (name : GoString)
    (query : List (List GoString)) (acc : List GoString × List GoString)
    (hinv : ∀ y ∈ acc.2, y ∈ acc.1) :
    (∀ y ∈ (matchClauses tb query acc name).2, y ∈ (matchClauses tb query acc name).1)
      ∧ ∀ x, x ∈ (matchClauses tb query acc name).1
          ↔ x ∈ acc.1 ∨ (x = name ∧ ∃ v ∈ query, isAll tb name v = true) := by
  unfold matchClauses
  induction query generalizing acc with
  | nil => exact ⟨hinv, fun x => by simp⟩
  | cons v vs ih =>
    rw [List.foldl_cons]
    by_cases hc : name ∉ acc.2 ∧ isAll tb name v = true
    · rw [if_pos hc]
      have hinv1 : ∀ y ∈ (acc.1 ++ [name], setInsert acc.2 name).2,
          y ∈ (acc.1 ++ [name], setInsert acc.2 name).1 := by
        intro y hy
        rcases (mem_setInsert _ _ _).mp hy with rfl | hy
        · simp
        · exact List.mem_append_left _ (hinv y hy)
      obtain ⟨h1, h2⟩ := ih _ hinv1
      refine ⟨h1, fun x => ?_⟩
      rw [h2]
      simp only [List.mem_append, List.mem_cons, List.not_mem_nil, or_false, exists_eq_or_imp]
      constructor
      · rintro ((h | h) | ⟨h, v1, hv1, hall⟩)
        · exact Or.inl h
        · exact Or.inr ⟨h, Or.inl hc.2⟩
        · exact Or.inr ⟨h, Or.inr ⟨v1, hv1, hall⟩⟩
      · rintro (h | ⟨h, _⟩)
        · exact Or.inl (Or.inl h)
        · exact Or.inl (Or.inr h)
    · rw [if_neg hc]
      obtain ⟨h1, h2⟩ := ih _ hinv
      refine ⟨h1, fun x => ?_⟩
      rw [h2]
      simp only [List.mem_cons, exists_eq_or_imp]
      constructor
      · rintro (h | ⟨h, v1, hv1, hall⟩)
        · exact Or.inl h
        · exact Or.inr ⟨h, Or.inr ⟨v1, hv1, hall⟩⟩
      · rintro (h | ⟨h, hall | ⟨v1, hv1, hall⟩⟩)
        · exact Or.inl h
        · by_cases hm : name ∈ acc.2
          · exact Or.inl (h ▸ hinv name hm)
          · exact absurd ⟨hm, hall⟩ hc
        · exact Or.inr ⟨h, v1, hv1, hall⟩

theorem foldl_matchClauses_spec (tb : Assoc (Assoc GoString)) (query : List (List GoString))
    (l : List GoString) (acc : List GoString × List GoString)
    (hinv : ∀ y ∈ acc.2, y ∈ acc.1) :
    (∀ y ∈ (l.foldl (matchClauses tb query) acc).2, y ∈ (l.foldl (matchClauses tb query) acc).1)
      ∧ ∀ x, x ∈ (l.foldl (matchClauses tb query) acc).1
          ↔ x ∈ acc.1 ∨ (x ∈ l ∧ ∃ v ∈ query, isAll tb x v = true) := by
  induction l generalizing acc with
  | nil => exact ⟨hinv, fun x => by simp⟩
  | cons name rest ih =>
    rw [List.foldl_cons]
    obtain ⟨h1, h2⟩ := matchClauses_spec tb name query acc hinv
    obtain ⟨h3, h4⟩ := ih _ h1
    refine ⟨h3, fun x => ?_⟩
    rw [h4, h2, List.mem_cons]
    constructor
    · rintro ((h | ⟨h, hs⟩) | ⟨h, hs⟩)
      · exact Or.inl h
      · exact Or.inr ⟨Or.inl h, h ▸ hs⟩
      · exact Or.inr ⟨Or.inr h, hs⟩
    · rintro (h | ⟨h | h, hs⟩)
      · exact Or.inl (Or.inl h)
      · exact Or.inl (Or.inr ⟨h, h ▸ hs⟩)
      · exact Or.inr ⟨h, hs⟩

theorem mem_foldl_items {α : Type} (f : α → GoString) (l : List α) (acc : List GoString)
    (x : GoString) :
    x ∈ l.foldl (fun s r => setInsert s (f r)) acc ↔ x ∈ acc ∨ ∃ r ∈ l, f r = x := by
  induction l generalizing acc with
  | nil => simp
  | cons r rest ih =>
    rw [List.foldl_cons, ih, mem_setInsert]
    simp only [List.mem_cons, exists_eq_or_imp]
    constructor
    · rintro ((h | h) | h)
      · exact Or.inr (Or.inl h.symm)
      · exact Or.inl h
      · exact Or.inr (Or.inr h)
    · rintro (h | h | h)
      · exact Or.inl (Or.inr h)
      · exact Or.inl (Or.inl h.symm)
      · exact Or.inr h

theorem foldl_set_get {α : Type} (key : α → GoString) (val : α → GoString) (l : List α)
    (hn : (l.map key).Nodup) (lp : Assoc GoString) :
    (∀ r ∈ l, (l.foldl (fun m r => Assoc.set m (key r) (val r)) lp).get (key r)
        = some (val r))
      ∧ ∀ k, k ∉ l.map key →
          (l.foldl (fun m r => Assoc.set m (key r) (val r)) lp).get k = lp.get k := by
  induction l generalizing lp with
  | nil => exact ⟨fun r hr => (by cases hr), fun k _ => rfl⟩
  | cons r rest ih =>
    rw [List.map_cons, List.nodup_cons] at hn
    obtain ⟨h1, h2⟩ := ih hn.2 (Assoc.set lp (key r) (val r))
    rw [List.foldl_cons]
    constructor
    · intro r1 hr1
      rw [List.mem_cons] at hr1
      rcases hr1 with rfl | hr1
      · rw [h2 _ hn.1, Assoc.get_set]; simp
      · exact h1 r1 hr1
    · intro k hk
      rw [List.map_cons, List.mem_cons, not_or] at hk
      rw [h2 k hk.2, Assoc.get_set]; simp [hk.1]

theorem readCursor_eq (seeks : Assoc GoString) (i : Nat) (kc : GoString × Cursor GoString) :
    readCursor seeks i kc.1 kc.2
      = (⟨kc.2.bucket, pending seeks i kc⟩, (pending seeks i kc).head?.map Prod.fst) := by
  unfold readCursor pending
  by_cases hi : i = 0
  · simp only [hi, if_true]
    cases seeks.get kc.1 with
    | none => rfl
    | some v => rfl
  · simp only [hi, if_false]; rfl

/-- The name a cursor reads from the rows `s` ahead of it: the key of the first row, the
empty string (the conversion of `nil`) when there is none. -/
theorem headName_cases (s : Assoc GoString) :
    (s = [] ∧ (s.head?.map Prod.fst).getD [] = [] ∧ (s.head?.map Prod.fst).isSome = false)
      ∨ (∃ e t, s = e :: t ∧ (s.head?.map Prod.fst).getD [] = e.1
          ∧ (s.head?.map Prod.fst).isSome = true) := by
  cases s with
  | nil => exact Or.inl ⟨rfl, rfl, rfl⟩
  | cons e t => exact Or.inr ⟨e, t, rfl, rfl, rfl⟩

end Zettelo

namespace Zettelo

/-! ### The rounds of `Filter` -/

theorem keys_filterMap_sublist {α : Type} (f : α → Option (GoString × Cursor GoString))
    (key : α → GoString) (hf : ∀ r kc, f r = some kc → kc.1 = key r) (l : List α) :
    List.Sublist (Assoc.keys (l.filterMap f)) (l.map key) := by
  induction l with
  | nil => simp [Assoc.keys]
  | cons r rest ih =>
    cases h : f r with
    | none =>
      rw [List.filterMap_cons_none h, List.map_cons]
      exact List.Sublist.cons _ ih
    | some kc =>
      rw [List.filterMap_cons_some h, List.map_cons, Assoc.keys_cons, hf r kc h]
      exact List.Sublist.cons₂ _ ih

theorem filterRound_results (ro : RangeOrder) (tb : Assoc (Assoc GoString))
    (query : List (List GoString)) (seeks : Assoc GoString) (i : Nat) (st : FilterState)
    (x : GoString) :
    x ∈ (filterRound ro tb query seeks i st).results
      ↔ x ∈ st.results
        ∨ ((∃ kc ∈ st.cursors, ((pending seeks i kc).head?.map Prod.fst).getD [] = x)
          ∧ ∃ v ∈ query, isAll tb x v = true) := by
  unfold filterRound
  simp only
  rw [(foldl_matchClauses_spec tb query _ (st.results, []) (fun y hy => by cases hy)).2]
  simp only [(ro.perm _ _ _).mem_iff, mem_foldl_items, List.not_mem_nil, false_or,
    List.mem_map, readCursor_eq]
  constructor
  · rintro (h | ⟨⟨r, ⟨kc, hkc, rfl⟩, hr⟩, hs⟩)
    · exact Or.inl h
    · exact Or.inr ⟨⟨kc, hkc, hr⟩, hs⟩
  · rintro (h | ⟨⟨kc, hkc, hr⟩, hs⟩)
    · exact Or.inl h
    · exact Or.inr ⟨⟨_, ⟨kc, hkc, rfl⟩, hr⟩, hs⟩

theorem filterRound_cursors (ro : RangeOrder) (tb : Assoc (Assoc GoString))
    (query : List (List GoString)) (seeks : Assoc GoString) (i : Nat) (st : FilterState)
    (kc1 : GoString × Cursor GoString) :
    kc1 ∈ (filterRound ro tb query seeks i st).cursors
      ↔ ∃ kc ∈ st.cursors, pending seeks i kc ≠ []
          ∧ kc1 = (kc.1, ⟨kc.2.bucket, pending seeks i kc⟩) := by
  unfold filterRound
  simp only [List.mem_filterMap, List.mem_map, (ro.perm _ _ _).mem_iff, readCursor_eq]
  constructor
  · rintro ⟨r, ⟨kc, hkc, rfl⟩, hr⟩
    refine ⟨kc, hkc, ?_⟩
    rcases headName_cases (pending seeks i kc) with ⟨h1, _, h3⟩ | ⟨e, t, h1, _, h3⟩
    · simp only [h3] at hr
      simp at hr
    · simp only [h3, if_true, Option.some.injEq] at hr
      exact ⟨by rw [h1]; simp, hr.symm⟩
  · rintro ⟨kc, hkc, hne, rfl⟩
    refine ⟨_, ⟨kc, hkc, rfl⟩, ?_⟩
    rcases headName_cases (pending seeks i kc) with ⟨h1, _, _⟩ | ⟨e, t, _, _, h3⟩
    · exact absurd h1 hne
    · simp only [h3, if_true]

theorem filterRound_keys (ro : RangeOrder) (tb : Assoc (Assoc GoString))
    (query : List (List GoString)) (seeks : Assoc GoString) (i : Nat) (st : FilterState)
    (hn : (Assoc.keys st.cursors).Nodup) :
    (Assoc.keys (filterRound ro tb query seeks i st).cursors).Nodup := by
  unfold filterRound
  simp only
  refine List.Nodup.sublist (keys_filterMap_sublist _ (fun r => r.1) ?_ _) ?_
  · intro r kc h
    split_ifs at h
    simp only [Option.some.injEq] at h
    rw [← h]
  · rw [List.map_map]
    exact (((ro.perm _ _ st.cursors).map Prod.fst).nodup_iff).mpr hn

theorem filterRound_lastPositions (ro : RangeOrder) (tb : Assoc (Assoc GoString))
    (query : List (List GoString)) (seeks : Assoc GoString) (i : Nat) (st : FilterState)
    (hn : (Assoc.keys st.cursors).Nodup) :
    (∀ kc ∈ st.cursors, (filterRound ro tb query seeks i st).lastPositions.get kc.1
        = some (((pending seeks i kc).head?.map Prod.fst).getD []))
      ∧ ∀ k, k ∉ Assoc.keys st.cursors →
          (filterRound ro tb query seeks i st).lastPositions.get k
            = st.lastPositions.get k := by
  unfold filterRound
  simp only
  have hkeys : (((ro.order _ (3 + 2 * i) st.cursors).map
      (fun kc => (kc.1, readCursor seeks i kc.1 kc.2))).map (fun r => r.1))
        = (ro.order _ (3 + 2 * i) st.cursors).map Prod.fst := by
    rw [List.map_map]; rfl
  have hp := (ro.perm _ (3 + 2 * i) st.cursors)
  obtain ⟨h1, h2⟩ := foldl_set_get (fun r : GoString × Cursor GoString × Option GoString => r.1)
    (fun r => r.2.2.getD [])
    ((ro.order _ (3 + 2 * i) st.cursors).map (fun kc => (kc.1, readCursor seeks i kc.1 kc.2)))
    (by rw [hkeys]; exact ((hp.map Prod.fst).nodup_iff).mpr hn) st.lastPositions
  constructor
  · intro kc hkc
    have := h1 (kc.1, readCursor seeks i kc.1 kc.2)
      (List.mem_map_of_mem _ (hp.mem_iff.mpr hkc))
    simp only [readCursor_eq] at this
    simp only [readCursor_eq]
    exact this
  · intro k hk
    apply h2
    rw [hkeys]
    intro h3
    exact hk ((hp.map Prod.fst).mem_iff.mp h3)

theorem surfaced_succ (n : Nat) (s : Assoc GoString) (x : GoString) :
    surfaced (n + 1) s x
      ↔ ((s.head?.map Prod.fst).getD [] = x) ∨ (s ≠ [] ∧ surfaced n s.tail x) := by
  unfold surfaced
  cases s with
  | nil =>
    simp only [List.take_nil, Assoc.keys, List.map_nil, List.not_mem_nil, false_or,
      List.length_nil, Nat.zero_lt_succ, and_true, List.head?_nil, Option.map_none',
      Option.getD_none, ne_eq, not_true_eq_false, false_and, or_false]
    exact eq_comm
  | cons e t =>
    simp only [List.take_succ_cons, Assoc.keys_cons, List.mem_cons, List.length_cons,
      Nat.add_lt_add_iff_right, List.head?_cons, Option.map_some', Option.getD_some, ne_eq,
      reduceCtorEq, not_false_eq_true, List.tail_cons, true_and]
    constructor
    · rintro ((h | h) | h)
      · exact Or.inl h.symm
      · exact Or.inr (Or.inl h)
      · exact Or.inr (Or.inr h)
    · rintro (h | h | h)
      · exact Or.inl (Or.inl h.symm)
      · exact Or.inl (Or.inr h)
      · exact Or.inr h

/-- The names of `results` after the rounds `i, i + 1, ...` of the loop: those that were
there, and the names brought up by a cursor that satisfy a clause of the query. -/
theorem filterLoop_results (ro : RangeOrder) (tb : Assoc (Assoc GoString))
    (query : List (List GoString)) (seeks : Assoc GoString) (fuel : Nat) :
    ∀ (i : Nat) (st : FilterState) (x : GoString),
      x ∈ (filterLoop ro tb query seeks fuel i st).results
        ↔ x ∈ st.results
          ∨ ((∃ v ∈ query, isAll tb x v = true)
            ∧ ∃ kc ∈ st.cursors, surfaced fuel (pending seeks i kc) x) := by
  induction fuel with
  | zero =>
    intro i st x
    simp [filterLoop, surfaced, Assoc.keys]
  | succ n ih =>
    intro i st x
    rw [filterLoop]
    by_cases hc : 0 < st.cursors.length
    · rw [if_pos hc, ih, filterRound_results]
      simp only [filterRound_cursors, surfaced_succ]
      constructor
      · rintro ((h | ⟨⟨kc, hkc, hr⟩, hs⟩) | ⟨hs, kc1, ⟨kc, hkc, hne, rfl⟩, hsf⟩)
        · exact Or.inl h
        · exact Or.inr ⟨hs, kc, hkc, Or.inl hr⟩
        · refine Or.inr ⟨hs, kc, hkc, Or.inr ⟨hne, ?_⟩⟩
          simpa [pending] using hsf
      · rintro (h | ⟨hs, kc, hkc, hr | ⟨hne, hsf⟩⟩)
        · exact Or.inl (Or.inl h)
        · exact Or.inl (Or.inr ⟨⟨kc, hkc, hr⟩, hs⟩)
        · refine Or.inr ⟨hs, _, ⟨kc, hkc, hne, rfl⟩, ?_⟩
          simpa [pending] using hsf
    · rw [if_neg hc]
      have : st.cursors = [] := List.length_eq_zero.mp (by omega)
      simp [this]

end Zettelo

namespace Zettelo

theorem mem_keys_of_mem {V : Type} {b : Assoc V} {e : GoString × V} (h : e ∈ b) :
    e.1 ∈ Assoc.keys b := List.mem_map_of_mem Prod.fst h

/-- The entries of `lastPositions` after the rounds `i, i + 1, ...` of the loop. -/
theorem filterLoop_lastPositions (ro : RangeOrder) (tb : Assoc (Assoc GoString))
    (query : List (List GoString)) (seeks : Assoc GoString) (fuel : Nat) :
    ∀ (i : Nat) (st : FilterState), (Assoc.keys st.cursors).Nodup →
      (∀ kc ∈ st.cursors, (filterLoop ro tb query seeks fuel i st).lastPositions.get kc.1
          = lastRead fuel (pending seeks i kc) (st.lastPositions.get kc.1))
        ∧ ∀ k, k ∉ Assoc.keys st.cursors →
            (filterLoop ro tb query seeks fuel i st).lastPositions.get k
              = st.lastPositions.get k := by
  induction fuel with
  | zero =>
    intro i st _
    exact ⟨fun kc _ => rfl, fun k _ => rfl⟩
  | succ n ih =>
    intro i st hn
    rw [filterLoop]
    by_cases hc : 0 < st.cursors.length
    · rw [if_pos hc]
      obtain ⟨h1, h2⟩ := ih (i + 1) _ (filterRound_keys ro tb query seeks i st hn)
      obtain ⟨r1, r2⟩ := filterRound_lastPositions ro tb query seeks i st hn
      have hsub : ∀ k, k ∈ Assoc.keys (filterRound ro tb query seeks i st).cursors →
          ∃ kc ∈ st.cursors, kc.1 = k ∧ pending seeks i kc ≠ [] := by
        intro k hk
        obtain ⟨kc1, hkc1, rfl⟩ := List.mem_map.mp hk
        obtain ⟨kc, hkc, hne, rfl⟩ := (filterRound_cursors _ _ _ _ _ _ _).mp hkc1
        exact ⟨kc, hkc, rfl, hne⟩
      constructor
      · intro kc hkc
        cases hp : pending seeks i kc with
        | nil =>
          have hnot : kc.1 ∉ Assoc.keys (filterRound ro tb query seeks i st).cursors := by
            intro hk
            obtain ⟨kc2, hkc2, heq, hne⟩ := hsub _ hk
            have := List.inj_on_of_nodup_map hn hkc2 hkc heq
            rw [this] at hne
            exact hne hp
          rw [h2 _ hnot, r1 kc hkc, hp]
          rfl
        | cons e t =>
          have hmem : (kc.1, (⟨kc.2.bucket, pending seeks i kc⟩ : Cursor GoString))
              ∈ (filterRound ro tb query seeks i st).cursors :=
            (filterRound_cursors _ _ _ _ _ _ _).mpr ⟨kc, hkc, by rw [hp]; simp, rfl⟩
          have := h1 _ hmem
          simp only at this
          rw [this, r1 kc hkc, hp]
          simp [pending, lastRead, hp]
      · intro k hk
        have hnot : k ∉ Assoc.keys (filterRound ro tb query seeks i st).cursors := by
          intro h3
          obtain ⟨kc2, hkc2, heq, _⟩ := hsub _ h3
          exact hk (heq ▸ mem_keys_of_mem hkc2)
        rw [h2 _ hnot, r2 k hk]
    · rw [if_neg hc]
      have : st.cursors = [] := List.length_eq_zero.mp (by omega)
      refine ⟨fun kc hkc => ?_, fun k _ => rfl⟩
      rw [this] at hkc; cases hkc

/-! ### The cursors `Filter` opens -/

theorem mem_set {V : Type} (b : Assoc V) (k : GoString) (v : V) (e : GoString × V)
    (h : e ∈ b.set k v) : e = (k, v) ∨ e ∈ b := by
  induction b with
  | nil =>
    simp only [Assoc.set, List.mem_singleton] at h
    exact Or.inl h
  | cons e0 rest ih =>
    simp only [Assoc.set] at h
    split_ifs at h
    · rw [List.mem_cons] at h
      exact h
    · rw [List.mem_cons] at h
      rcases h with h | h
      · exact Or.inl h
      · exact Or.inr (List.mem_cons_of_mem _ h)
    · rw [List.mem_cons] at h
      rcases h with h | h
      · exact Or.inr (h ▸ List.mem_cons_self _ _)
      · rcases ih h with h | h
        · exact Or.inl h
        · exact Or.inr (List.mem_cons_of_mem _ h)

theorem mem_of_get {V : Type} {b : Assoc V} {k : GoString} {v : V} (h : b.get k = some v) :
    (k, v) ∈ b := by
  induction b with
  | nil => simp [Assoc.get] at h
  | cons e rest ih =>
    simp only [Assoc.get] at h
    split_ifs at h with h1
    · simp only [Option.some.injEq] at h
      rw [← h1, ← h]
      exact List.mem_cons_self _ _
    · exact List.mem_cons_of_mem _ (ih h)

theorem cursors0_ok (tb : Assoc (Assoc GoString)) (prims : List GoString) :
    ∀ (cs : Assoc (Cursor GoString)) (Q : List GoString), CursorsOK tb Q cs →
      CursorsOK tb (prims ++ Q)
        (prims.foldl (fun cs k => Assoc.set cs k ⟨bucketOf tb k, []⟩) cs) := by
  induction prims with
  | nil => intro cs Q h; simpa using h
  | cons p rest ih =>
    intro cs Q h
    rw [List.foldl_cons]
    have h1 : CursorsOK tb (p :: Q) (Assoc.set cs p ⟨bucketOf tb p, []⟩) := by
      refine ⟨Assoc.sorted_set h.sorted _ _, ?_, ?_⟩
      · intro kc hkc
        rcases mem_set _ _ _ _ hkc with rfl | hkc
        · rfl
        · exact h.bucket kc hkc
      · intro k
        rw [Assoc.mem_keys_set, h.keys, List.mem_cons]
    have h2 := ih _ _ h1
    refine ⟨h2.sorted, h2.bucket, fun k => ?_⟩
    rw [h2.keys]
    simp only [List.mem_append, List.mem_cons]
    tauto

theorem cursors1_ok (tb : Assoc (Assoc GoString)) (P : List GoString)
    (sk : List (GoString × GoString)) :
    ∀ (cs : Assoc (Cursor GoString)), CursorsOK tb P cs →
      CursorsOK tb P (sk.foldl (fun cs tk =>
        match Assoc.get cs tk.1 with
        | some c => Assoc.set cs tk.1 (c.seek tk.2).1
        | none => cs) cs) := by
  induction sk with
  | nil => intro cs h; exact h
  | cons tk rest ih =>
    intro cs h
    rw [List.foldl_cons]
    apply ih
    cases hg : Assoc.get cs tk.1 with
    | none => exact h
    | some c =>
      simp only
      have hc := mem_of_get hg
      refine ⟨Assoc.sorted_set h.sorted _ _, ?_, ?_⟩
      · intro kc hkc
        rcases mem_set _ _ _ _ hkc with rfl | hkc
        · exact h.bucket (tk.1, c) hc
        · exact h.bucket kc hkc
      · intro k
        rw [Assoc.mem_keys_set, ← h.keys]
        constructor
        · rintro (rfl | h1)
          · exact mem_keys_of_mem hc
          · exact h1
        · exact Or.inr

end Zettelo

namespace Zettelo

/-! ### The primary tags -/

theorem mem_primarySet_foldl (tags : Assoc Int) (query : List (List GoString))
    (acc : List GoString) (p : GoString) :
    p ∈ query.foldl (fun temp v => if (maxKeyOf tags v).2 ≥ 0
        then setInsert temp (maxKeyOf tags v).1 else temp) acc
      ↔ p ∈ acc ∨ ∃ v ∈ query, 0 ≤ (maxKeyOf tags v).2 ∧ (maxKeyOf tags v).1 = p := by
  induction query generalizing acc with
  | nil => simp
  | cons v vs ih =>
    rw [List.foldl_cons, ih]
    simp only [List.mem_cons, exists_eq_or_imp]
    by_cases h : (maxKeyOf tags v).2 ≥ 0
    · rw [if_pos h, mem_setInsert]
      constructor
      · rintro ((h1 | h1) | h1)
        · exact Or.inr (Or.inl ⟨h, h1.symm⟩)
        · exact Or.inl h1
        · exact Or.inr (Or.inr h1)
      · rintro (h1 | ⟨_, h1⟩ | h1)
        · exact Or.inl (Or.inr h1)
        · exact Or.inl (Or.inl h1.symm)
        · exact Or.inr h1
    · rw [if_neg h]
      constructor
      · rintro (h1 | h1)
        · exact Or.inl h1
        · exact Or.inr (Or.inr h1)
      · rintro (h1 | ⟨h2, _⟩ | h1)
        · exact Or.inl h1
        · exact absurd h2 h
        · exact Or.inr h1

theorem mem_primarySet (tags : Assoc Int) (query : List (List GoString)) (p : GoString) :
    p ∈ primarySet tags query
      ↔ ∃ v ∈ query, 0 ≤ (maxKeyOf tags v).2 ∧ (maxKeyOf tags v).1 = p := by
  unfold primarySet
  rw [mem_primarySet_foldl]
  simp

theorem maxKeyOf_foldl_mem (tags : Assoc Int) (v : List GoString) (acc : GoString × Int) :
    (v.foldl (fun m k => if m.2 ≤ tags.getD k 0 then (k, tags.getD k 0) else m) acc).1 ∈ v
      ∨ v.foldl (fun m k => if m.2 ≤ tags.getD k 0 then (k, tags.getD k 0) else m) acc
          = acc := by
  induction v generalizing acc with
  | nil => exact Or.inr rfl
  | cons k ks ih =>
    rw [List.foldl_cons]
    rcases ih (if acc.2 ≤ tags.getD k 0 then (k, tags.getD k 0) else acc) with h | h
    · exact Or.inl (List.mem_cons_of_mem _ h)
    · rw [h]
      by_cases hc : acc.2 ≤ tags.getD k 0
      · rw [if_pos hc]; exact Or.inl (List.mem_cons_self _ _)
      · rw [if_neg hc]; exact Or.inr rfl

/-- The primary tag `Filter` picks for a clause is a tag of the clause. -/
theorem maxKeyOf_mem (tags : Assoc Int) (v : List GoString) (h : 0 ≤ (maxKeyOf tags v).2) :
    (maxKeyOf tags v).1 ∈ v := by
  unfold maxKeyOf at h ⊢
  rcases maxKeyOf_foldl_mem tags v ([], -1) with h1 | h1
  · exact h1
  · rw [h1] at h; simp at h

theorem getD_countTags_nonneg (query : List (List GoString)) (k : GoString) :
    0 ≤ (countTags query).getD k 0 := by
  unfold countTags
  have inner : ∀ (v : List GoString) (tags : Assoc Int), (∀ k, 0 ≤ tags.getD k 0) →
      ∀ k, 0 ≤ (v.foldl (fun tags k => Assoc.set tags k (tags.getD k 0 + 1)) tags).getD k 0 := by
    intro v
    induction v with
    | nil => intro tags h; exact h
    | cons k0 ks ih =>
      intro tags h
      rw [List.foldl_cons]
      apply ih
      intro k
      rw [getD_set]
      split_ifs
      · have := h k0; omega
      · exact h k
  have outer : ∀ (q : List (List GoString)) (tags : Assoc Int), (∀ k, 0 ≤ tags.getD k 0) →
      ∀ k, 0 ≤ (q.foldl (fun tags v =>
        v.foldl (fun tags k => Assoc.set tags k (tags.getD k 0 + 1)) tags) tags).getD k 0 := by
    intro q
    induction q with
    | nil => intro tags h; exact h
    | cons v vs ih =>
      intro tags h
      rw [List.foldl_cons]
      exact ih _ (inner v tags h)
  exact outer query [] (fun k => by simp [Assoc.getD, Assoc.get]) k

theorem maxKeyOf_foldl_nonneg (tags : Assoc Int) (ht : ∀ k, 0 ≤ tags.getD k 0)
    (v : List GoString) (acc : GoString × Int) (h : 0 ≤ acc.2) :
    0 ≤ (v.foldl (fun m k => if m.2 ≤ tags.getD k 0 then (k, tags.getD k 0) else m) acc).2 := by
  induction v generalizing acc with
  | nil => exact h
  | cons k ks ih =>
    rw [List.foldl_cons]
    apply ih
    split_ifs
    · exact ht k
    · exact h

/-- A non-empty clause has a primary tag. -/
theorem maxKeyOf_nonneg (tags : Assoc Int) (ht : ∀ k, 0 ≤ tags.getD k 0)
    (v : List GoString) (hv : v ≠ []) : 0 ≤ (maxKeyOf tags v).2 := by
  unfold maxKeyOf
  cases v with
  | nil => exact absurd rfl hv
  | cons k ks =>
    rw [List.foldl_cons]
    apply maxKeyOf_foldl_nonneg tags ht
    have : (-1 : Int) ≤ tags.getD k 0 := by have := ht k; omega
    simp only [this, if_true]
    exact ht k

/-! ### `Filter` in closed form -/

theorem bucketOf_openBuckets (ro : RangeOrder) (z : Store) (query : List (List GoString))
    (t : GoString) : bucketOf (openBuckets ro z query) t = bucketOf z.tagBuckets t :=
  bucketOf_foldl_create _ _ _

theorem openCursors_ok (ro : RangeOrder) (tb : Assoc (Assoc GoString))
    (query : List (List GoString)) (seeks : Assoc GoString) :
    CursorsOK tb (primarySet (countTags query) query) (openCursors ro tb query seeks) := by
  unfold openCursors
  apply cursors1_ok
  have h0 : CursorsOK tb [] ([] : Assoc (Cursor GoString)) :=
    ⟨Assoc.sorted_nil, fun kc hkc => (by cases hkc), fun k => (by simp [Assoc.keys])⟩
  have h1 := cursors0_ok tb (ro.order _ 0 (primarySet (countTags query) query)) [] [] h0
  refine ⟨h1.sorted, h1.bucket, fun k => ?_⟩
  rw [h1.keys, List.append_nil, (ro.perm _ _ _).mem_iff]

theorem pending_zero (ro : RangeOrder) (z : Store) (query : List (List GoString))
    (seeks : Assoc GoString) (kc : GoString × Cursor GoString)
    (h : kc ∈ openCursors ro (openBuckets ro z query) query seeks) :
    pending seeks 0 kc = startStack z seeks kc.1 := by
  unfold pending startStack
  rw [(openCursors_ok ro _ query seeks).bucket kc h, bucketOf_openBuckets]
  simp

/-- The names `Filter` returns: the names that satisfy a clause of the query among those a
cursor of a primary tag brings up in `max` rounds from its start position. -/
theorem Filter_results (ro : RangeOrder) (z : Store) (query : List (List GoString))
    (seeks : Assoc GoString) (max : Int) (x : GoString) :
    x ∈ (Filter ro z query seeks max).1
      ↔ satisfies z query x
        ∧ ∃ k ∈ primarySet (countTags query) query,
            surfaced max.toNat (startStack z seeks k) x := by
  unfold Filter
  simp only
  rw [filterLoop_results]
  simp only [List.not_mem_nil, false_or, isAll_iff, bucketOf_openBuckets]
  have hok := openCursors_ok ro (openBuckets ro z query) query seeks
  unfold satisfies members
  constructor
  · rintro ⟨hs, kc, hkc, hsf⟩
    refine ⟨hs, kc.1, (hok.keys _).mp (mem_keys_of_mem hkc), ?_⟩
    rw [← pending_zero ro z query seeks kc hkc]
    exact hsf
  · rintro ⟨hs, k, hk, hsf⟩
    obtain ⟨kc, hkc, rfl⟩ := List.mem_map.mp ((hok.keys k).mpr hk)
    refine ⟨hs, kc, hkc, ?_⟩
    rw [pending_zero ro z query seeks kc hkc]
    exact hsf

/-- The map `lastPositions` that `Filter` returns: an entry for every primary tag when
`max` is positive, and no other entry. -/
theorem Filter_lastPositions (ro : RangeOrder) (z : Store) (query : List (List GoString))
    (seeks : Assoc GoString) (max : Int) (k : GoString) :
    (Filter ro z query seeks max).2.1.get k
      = if k ∈ primarySet (countTags query) query
        then lastRead max.toNat (startStack z seeks k) none else none := by
  unfold Filter
  simp only
  have hok := openCursors_ok ro (openBuckets ro z query) query seeks
  obtain ⟨h1, h2⟩ := filterLoop_lastPositions ro (openBuckets ro z query) query seeks
    max.toNat 0 ⟨openCursors ro (openBuckets ro z query) query seeks, [], []⟩
    (Assoc.nodup_keys hok.sorted)
  by_cases hk : k ∈ primarySet (countTags query) query
  · rw [if_pos hk]
    obtain ⟨kc, hkc, rfl⟩ := List.mem_map.mp ((hok.keys k).mpr hk)
    rw [h1 kc hkc, pending_zero ro z query seeks kc hkc]
    rfl
  · rw [if_neg hk, h2 k (fun h => hk ((hok.keys k).mp h))]
    rfl

theorem Filter_store (ro : RangeOrder) (z : Store) (query : List (List GoString))
    (seeks : Assoc GoString) (max : Int) :
    (Filter ro z query seeks max).2.2.attrs = z.attrs
      ∧ (Filter ro z query seeks max).2.2.tagsStats = z.tagsStats
      ∧ ∀ t, bucketOf (Filter ro z query seeks max).2.2.tagBuckets t
          = bucketOf z.tagBuckets t :=
  ⟨rfl, rfl, fun t => bucketOf_openBuckets ro z query t⟩

end Zettelo

namespace Zettelo

/-! ### Query correctness -/

theorem primary_of_clause (query : List (List GoString)) (v : List GoString) (hv : v ∈ query)
    (hne : v ≠ []) :
    ∃ p ∈ primarySet (countTags query) query, p ∈ v :=
  ⟨(maxKeyOf (countTags query) v).1,
    (mem_primarySet _ _ _).mpr
      ⟨v, hv, maxKeyOf_nonneg _ (getD_countTags_nonneg query) v hne, rfl⟩,
    maxKeyOf_mem _ v (maxKeyOf_nonneg _ (getD_countTags_nonneg query) v hne)⟩

theorem primary_is_tag (query : List (List GoString)) (p : GoString)
    (hp : p ∈ primarySet (countTags query) query) : ∃ v ∈ query, p ∈ v := by
  obtain ⟨v, hv, h0, rfl⟩ := (mem_primarySet _ _ _).mp hp
  exact ⟨v, hv, maxKeyOf_mem _ v h0⟩

theorem startStack_nil (z : Store) (k : GoString) :
    startStack z [] k = bucketOf z.tagBuckets k := rfl

theorem surfaced_of_mem_short (fuel : Nat) (s : Assoc GoString) (x : GoString)
    (hx : x ∈ Assoc.keys s) (hl : s.length ≤ fuel) : surfaced fuel s x :=
  Or.inl (by rw [List.take_of_length_le hl]; exact hx)

/-- C3 (query correctness): for a query whose clauses are all non-empty, an empty seek and a
`max` at least the number of rows of the membership table of every tag of the query, a name
is in the results of `Filter` if and only if some clause of the query has the name as a key of
the membership table of every one of its tags, whatever the visiting order of the maps. -/
theorem C3_query_correct (ro : RangeOrder) (z : Store) (query : List (List GoString))
    (hq : ∀ v ∈ query, v ≠ []) (max : Int)
    (hmax : ∀ v ∈ query, ∀ t ∈ v, ((members z t).length : Int) ≤ max) (x : GoString) :
    x ∈ (Filter ro z query [] max).1 ↔ satisfies z query x := by
  rw [Filter_results]
  constructor
  · exact fun h => h.1
  · intro hs
    refine ⟨hs, ?_⟩
    obtain ⟨v, hv, hall⟩ := hs
    obtain ⟨p, hp, hpv⟩ := primary_of_clause query v hv (hq v hv)
    refine ⟨p, hp, surfaced_of_mem_short _ _ _ (hall p hpv) ?_⟩
    have := hmax v hv p hpv
    rw [startStack_nil]
    unfold members at this
    rw [Assoc.length_keys] at this
    omega

theorem C3_query_correct_witness :
    (∀ v ∈ [[[120]], [[121]]], v ≠ ([] : List GoString))
      ∧ (∀ v ∈ [[[120]], [[121]]], ∀ t ∈ v, ((members dupStore t).length : Int) ≤ 2)
      ∧ ([98] ∈ (Filter RangeOrder.reversed dupStore [[[120]], [[121]]] [] 2).1
          ↔ satisfies dupStore [[[120]], [[121]]] [98]) :=
  ⟨by decide, by decide,
    C3_query_correct RangeOrder.reversed dupStore [[[120]], [[121]]] (by decide) 2 (by decide)
      [98]⟩

end Zettelo

namespace Zettelo

/-- C8, amended: for a counts table in key order and a `limit` of at least 2, take the chain
of `GetTagsStats` calls that starts with the empty seek and resumes each call from the
`lastSeek` of the call before; every resumed page starts with the row it resumes from, and
the first page followed by the resumed pages without that first row is, from some call on,
the full enumeration of one call with a limit of at least the table size: every row of the
table once, the tags in strictly increasing byte order. -/
theorem C8_paged_enumeration (z : Store) (hs : Sorted z.tagsStats) (limit : Int)
    (hl : 2 ≤ limit) (full : Int) (hfull : (z.tagsStats.length : Int) ≤ full) :
    ∃ N, ∀ n, N ≤ n →
      pagedRows z limit n = (GetTagsStats z [] full).1
        ∧ pagedRows z limit n = z.tagsStats
        ∧ Sorted (pagedRows z limit n) := by
  obtain ⟨N, hN⟩ := pagedRows_complete z hs limit hl
  refine ⟨N, fun n hn => ?_⟩
  have hfullrows : (GetTagsStats z [] full).1 = z.tagsStats := by
    rw [GetTagsStats_eq z hs]
    simp only [rowsFrom, filter_nil_le]
    exact List.take_of_length_le (by omega)
  rw [hN n hn, hfullrows]
  exact ⟨rfl, rfl, hs⟩

theorem C8_paged_enumeration_witness :
    Sorted demoStats.tagsStats ∧ (2 : Int) ≤ 2 ∧ (demoStats.tagsStats.length : Int) ≤ 3
      ∧ ∃ N, ∀ n, N ≤ n →
        pagedRows demoStats 2 n = (GetTagsStats demoStats [] 3).1
          ∧ pagedRows demoStats 2 n = demoStats.tagsStats
          ∧ Sorted (pagedRows demoStats 2 n) :=
  ⟨by decide, by decide, by decide,
    C8_paged_enumeration demoStats (by decide) 2 (by decide) 3 (by decide)⟩

end Zettelo

namespace Zettelo

/-! ### Resuming `Filter` -/

theorem dropWhile_split {V : Type} (pre rest : Assoc V) (e : GoString × V)
    (hs : Sorted (pre ++ e :: rest)) :
    (pre ++ e :: rest).dropWhile (fun r => decide (r.1 < e.1)) = e :: rest := by
  induction pre with
  | nil =>
    rw [List.nil_append, List.dropWhile_cons_of_neg (by simp)]
  | cons p ps ih =>
    rw [List.cons_append] at hs ⊢
    have hp := Assoc.sorted_cons.mp hs
    have hlt : p.1 < e.1 := hp.1 e.1 (by rw [keys_append, Assoc.keys_cons]; simp)
    rw [List.dropWhile_cons_of_pos (by simpa using hlt), ih hp.2]

theorem lastRead_split (S1 S2 : Assoc GoString) (e : GoString × GoString)
    (prev : Option GoString) :
    lastRead (S1.length + 1) (S1 ++ e :: S2) prev = some e.1 := by
  induction S1 generalizing prev with
  | nil => simp [lastRead]
  | cons a t ih =>
    rw [List.length_cons, List.cons_append, lastRead, ih]

theorem lastRead_short (M : Nat) (S : Assoc GoString) (prev : Option GoString)
    (h : S.length < M) : lastRead M S prev = some [] := by
  induction S generalizing M prev with
  | nil =>
    cases M with
    | zero => simp at h
    | succ n => rfl
  | cons a t ih =>
    cases M with
    | zero => simp at h
    | succ n =>
      rw [lastRead]
      exact ih n _ (by simpa using h)

theorem mem_filterChain_succ (ros : Nat → RangeOrder) (query : List (List GoString))
    (max : Int) (n : Nat) (seeks : Assoc GoString) (z : Store) (x : GoString) :
    x ∈ filterChain ros query max (n + 1) seeks z
      ↔ x ∈ (Filter (ros n) z query seeks max).1
        ∨ x ∈ filterChain ros query max n (Filter (ros n) z query seeks max).2.1
            (Filter (ros n) z query seeks max).2.2 := by
  rw [filterChain, List.mem_append]

theorem satisfies_congr (z z1 : Store) (h : ∀ t, bucketOf z1.tagBuckets t = bucketOf z.tagBuckets t)
    (query : List (List GoString)) (x : GoString) :
    satisfies z1 query x ↔ satisfies z query x := by
  unfold satisfies members
  simp only [h]

theorem startStack_sublist (z : Store) (seeks : Assoc GoString) (k : GoString) :
    List.Sublist (startStack z seeks k) (bucketOf z.tagBuckets k) := by
  unfold startStack
  cases seeks.get k with
  | none => exact List.Sublist.refl _
  | some v => exact (List.dropWhile_suffix _).sublist

theorem surfaced_sound (fuel : Nat) (z : Store) (seeks : Assoc GoString) (k x : GoString)
    (h : surfaced fuel (startStack z seeks k) x) : x ∈ members z k ∨ x = [] := by
  rcases h with h | h
  · left
    have hsub : List.Sublist ((startStack z seeks k).take fuel) (bucketOf z.tagBuckets k) :=
      (List.take_sublist _ _).trans (startStack_sublist z seeks k)
    exact (hsub.map Prod.fst).subset h
  · exact Or.inr h.1

/-- Every name a chain of calls returns satisfies the query and is a key of the table of a
primary tag, or the empty string. -/
theorem filterChain_sound (ros : Nat → RangeOrder) (query : List (List GoString)) (max : Int)
    (z : Store) (n : Nat) :
    ∀ (seeks : Assoc GoString) (z1 : Store),
      (∀ t, bucketOf z1.tagBuckets t = bucketOf z.tagBuckets t) →
      ∀ x, x ∈ filterChain ros query max n seeks z1 →
        satisfies z query x
          ∧ ∃ p ∈ primarySet (countTags query) query, (x ∈ members z p ∨ x = []) := by
  induction n with
  | zero => intro seeks z1 _ x hx; cases hx
  | succ n ih =>
    intro seeks z1 hb x hx
    rcases (mem_filterChain_succ _ _ _ _ _ _ _).mp hx with h | h
    · obtain ⟨hs, p, hp, hsf⟩ := (Filter_results _ _ _ _ _ _).mp h
      refine ⟨(satisfies_congr z z1 hb query x).mp hs, p, hp, ?_⟩
      have := surfaced_sound _ _ _ _ _ hsf
      unfold members at this ⊢
      rwa [hb] at this
    · refine ih _ _ (fun t => ?_) x h
      rw [(Filter_store _ _ _ _ _).2.2 t, hb]

theorem filterChain_mono (ros : Nat → RangeOrder) (query : List (List GoString)) (max : Int)
    (n : Nat) (seeks : Assoc GoString) (z1 : Store) (x : GoString)
    (h : x ∈ (Filter (ros n) z1 query seeks max).1) :
    x ∈ filterChain ros query max (n + 1) seeks z1 :=
  (mem_filterChain_succ _ _ _ _ _ _ _).mpr (Or.inl h)

/-- A chain of calls with at least two rounds a call brings up every row that the cursor of
a primary tag has ahead of it, and the empty string, within one call more than there are rows
ahead. -/
theorem filterChain_complete (ros : Nat → RangeOrder) (query : List (List GoString))
    (max : Int) (hmax : 2 ≤ max) (z : Store) (p : GoString)
    (hp : p ∈ primarySet (countTags query) query) (hs : Sorted (bucketOf z.tagBuckets p))
    (m : Nat) :
    ∀ (S pre : Assoc GoString) (seeks : Assoc GoString) (z1 : Store), S.length ≤ m →
      bucketOf z.tagBuckets p = pre ++ S → startStack z1 seeks p = S →
      (∀ t, bucketOf z1.tagBuckets t = bucketOf z.tagBuckets t) →
      ∀ n, m + 1 ≤ n → ∀ x, (x ∈ Assoc.keys S ∨ x = []) → satisfies z query x →
        x ∈ filterChain ros query max n seeks z1 := by
  obtain ⟨L, hL⟩ : ∃ L : Nat, max.toNat = L + 2 := ⟨max.toNat - 2, by omega⟩
  have hshortcase : ∀ (S : Assoc GoString) (seeks : Assoc GoString) (z1 : Store),
      S.length < max.toNat → startStack z1 seeks p = S →
      (∀ t, bucketOf z1.tagBuckets t = bucketOf z.tagBuckets t) →
      ∀ n, 1 ≤ n → ∀ x, (x ∈ Assoc.keys S ∨ x = []) → satisfies z query x →
        x ∈ filterChain ros query max n seeks z1 := by
    intro S seeks z1 hshort hst hz n hn x hx hsat
    obtain ⟨k, rfl⟩ : ∃ k, n = k + 1 := ⟨n - 1, by omega⟩
    apply filterChain_mono
    rw [Filter_results]
    refine ⟨(satisfies_congr z z1 hz query x).mpr hsat, p, hp, ?_⟩
    rw [hst]
    rcases hx with hx | hx
    · exact surfaced_of_mem_short _ _ _ hx (by omega)
    · exact Or.inr ⟨hx, hshort⟩
  induction m with
  | zero =>
    intro S pre seeks z1 hlen hb hst hz n hn
    exact hshortcase S seeks z1 (by omega) hst hz n hn
  | succ m ih =>
    intro S pre seeks z1 hlen hb hst hz n hn
    by_cases hshort : S.length < max.toNat
    · exact hshortcase S seeks z1 hshort hst hz n (by omega)
    · have hlong : L + 2 ≤ S.length := by omega
      have hne : (S.drop (L + 1)) ≠ [] := by
        intro h
        have := congrArg List.length h
        rw [List.length_drop, List.length_nil] at this
        omega
      obtain ⟨e, S2, hdrop⟩ : ∃ e S2, S.drop (L + 1) = e :: S2 :=
        List.exists_cons_of_ne_nil hne
      have hsplit : S = S.take (L + 1) ++ e :: S2 := by
        rw [← hdrop, List.take_append_drop]
      have hlen1 : (S.take (L + 1)).length = L + 1 := by
        rw [List.length_take]; omega
      have hb2 : bucketOf z.tagBuckets p = (pre ++ S.take (L + 1)) ++ e :: S2 := by
        rw [hb, List.append_assoc, ← hsplit]
      have hlen2 : (e :: S2).length ≤ m := by
        rw [← hdrop, List.length_drop]; omega
      obtain ⟨k, rfl⟩ : ∃ k, n = k + 1 := ⟨n - 1, by omega⟩
      have hlast : (Filter (ros k) z1 query seeks max).2.1.get p = some e.1 := by
        rw [Filter_lastPositions, if_pos hp, hst, hL]
        have := lastRead_split (S.take (L + 1)) S2 e none
        rw [hlen1, ← hsplit] at this
        exact this
      have hz2 : ∀ t, bucketOf (Filter (ros k) z1 query seeks max).2.2.tagBuckets t
          = bucketOf z.tagBuckets t :=
        fun t => by rw [(Filter_store _ _ _ _ _).2.2 t, hz]
      have hst2 : startStack (Filter (ros k) z1 query seeks max).2.2
          (Filter (ros k) z1 query seeks max).2.1 p = e :: S2 := by
        unfold startStack
        rw [hlast, hz2 p]
        simp only
        rw [hb2]
        exact dropWhile_split _ _ _ (hb2 ▸ hs)
      have hrest := ih (e :: S2) _ _ _ hlen2 hb2 hst2 hz2 k (by omega)
      intro x hx hsat
      rw [mem_filterChain_succ]
      rcases hx with hx | hx
      · rw [hsplit, keys_append, List.mem_append] at hx
        rcases hx with hx | hx
        · left
          rw [Filter_results]
          refine ⟨(satisfies_congr z z1 hz query x).mpr hsat, p, hp, Or.inl ?_⟩
          rw [hst, hL]
          exact ((List.take_sublist_take_left S (Nat.le_succ (L + 1))).map Prod.fst).subset hx
        · exact Or.inr (hrest x (Or.inl hx) hsat)
      · exact Or.inr (hrest x (Or.inr hx) hsat)

/-- The names one call returns when it runs every cursor to its end: the names that satisfy
the query among the keys of the tables of the primary tags and the empty string. -/
theorem Filter_exhaustive (ro : RangeOrder) (z : Store) (query : List (List GoString))
    (full : Int) (hfull : ∀ v ∈ query, ∀ t ∈ v, ((members z t).length : Int) < full)
    (x : GoString) :
    x ∈ (Filter ro z query [] full).1
      ↔ satisfies z query x
        ∧ ∃ p ∈ primarySet (countTags query) query, (x ∈ members z p ∨ x = []) := by
  rw [Filter_results]
  constructor
  · rintro ⟨hs, p, hp, hsf⟩
    exact ⟨hs, p, hp, surfaced_sound _ _ _ _ _ hsf⟩
  · rintro ⟨hs, p, hp, hx⟩
    refine ⟨hs, p, hp, ?_⟩
    obtain ⟨v, hv, hpv⟩ := primary_is_tag query p hp
    have hlen := hfull v hv p hpv
    unfold members at hlen hx
    rw [Assoc.length_keys] at hlen
    rw [startStack_nil]
    rcases hx with hx | hx
    · exact surfaced_of_mem_short _ _ _ hx (by omega)
    · exact Or.inr ⟨hx, by omega⟩

/-- C5, amended: for a membership state in key order and every `max` of at least 2, the
chain of `Filter` calls that starts with an empty seek and passes the `lastPositions` of each
call as the seek of the next returns, from some call on, the names of one exhaustive call
(empty seek, `max` above the size of every table of the query) and no other name: the union
of the results of the chain and the results of the exhaustive call are the same set,
whatever the visiting orders of the maps in each call. -/
theorem C5_resumable (ros : Nat → RangeOrder) (ro : RangeOrder) (z : Store)
    (query : List (List GoString))
    (hs : ∀ v ∈ query, ∀ t ∈ v, Sorted (bucketOf z.tagBuckets t))
    (max : Int) (hmax : 2 ≤ max) (full : Int)
    (hfull : ∀ v ∈ query, ∀ t ∈ v, ((members z t).length : Int) < full) :
    ∃ N, ∀ n, N ≤ n → ∀ x,
      x ∈ filterChain ros query max n [] z ↔ x ∈ (Filter ro z query [] full).1 := by
  refine ⟨full.toNat, fun n hn x => ?_⟩
  rw [Filter_exhaustive ro z query full hfull]
  constructor
  · exact filterChain_sound ros query max z n [] z (fun _ => rfl) x
  · rintro ⟨hsat, p, hp, hx⟩
    obtain ⟨v, hv, hpv⟩ := primary_is_tag query p hp
    have hlen := hfull v hv p hpv
    unfold members at hlen hx
    rw [Assoc.length_keys] at hlen
    exact filterChain_complete ros query max hmax z p hp (hs v hv p hpv)
      (bucketOf z.tagBuckets p).length (bucketOf z.tagBuckets p) [] [] z (le_refl _) rfl
      (startStack_nil z p) (fun _ => rfl) n (by omega) x hx hsat

theorem C5_resumable_witness :
    (∀ v ∈ [[[120]], [[121]]], ∀ t ∈ v, Sorted (bucketOf dupStore.tagBuckets t))
      ∧ (2 : Int) ≤ 2
      ∧ (∀ v ∈ [[[120]], [[121]]], ∀ t ∈ v, ((members dupStore t).length : Int) < 3)
      ∧ ∃ N, ∀ n, N ≤ n → ∀ x,
          x ∈ filterChain (fun _ => RangeOrder.stored) [[[120]], [[121]]] 2 n [] dupStore
            ↔ x ∈ (Filter RangeOrder.reversed dupStore [[[120]], [[121]]] [] 3).1 :=
  ⟨by decide, by decide, by decide,
    C5_resumable (fun _ => RangeOrder.stored) RangeOrder.reversed dupStore [[[120]], [[121]]]
      (by decide) 2 (by decide) 3 (by decide)⟩

end Zettelo

namespace Zettelo

/-! ### The tables of a store reached by writes are in key order -/

theorem putStats_sorted (ds : List (GoString × Int)) (st st1 : Assoc Int) (hs : Sorted st)
    (h : putStats ds st = .ok st1) : Sorted st1 := by
  induction ds generalizing st with
  | nil =>
    simp only [putStats, Except.ok.injEq] at h
    subst h; exact hs
  | cons kd rest ih =>
    simp only [putStats] at h
    split_ifs at h
    · exact ih _ (Assoc.sorted_del hs _) h
    · cases hp : st.put kd.1 (clamp0 (st.getD kd.1 0 + kd.2)) with
      | error e => rw [hp] at h; cases h
      | ok st2 =>
        rw [hp] at h
        obtain ⟨h1, _, _⟩ := put_ok hp
        subst h1
        exact ih _ (Assoc.sorted_set hs _ _) h

theorem indexTx_sorted_stats (ro : RangeOrder) (z z2 : Store) (name : GoString)
    (M R A : List GoString) (hs : Sorted z.tagsStats)
    (h : indexTx ro z name M R A = .ok z2) : Sorted z2.tagsStats := by
  unfold indexTx at h
  simp only at h
  split at h
  · cases h
  · split at h
    · cases h
    · rename_i st hst
      simp only [Except.ok.injEq] at h
      subst h
      exact putStats_sorted _ _ _ hs hst

/-- After every sequence of successful `PutNote` calls on the empty store the bucket
`tags_stats` and every membership bucket are in key order: the stores the paging and query
theorems are about include every store the program builds. -/
theorem runPuts_sorted (calls : List PutCall) (z : Store)
    (h : runPuts Store.empty calls = some z) :
    Sorted z.tagsStats ∧ ∀ t, Sorted (bucketOf z.tagBuckets t) := by
  refine ⟨?_, runPuts_buckets_sorted calls _ z h IndexInv_empty.sorted⟩
  have gen : ∀ (cs : List PutCall) (z0 z1 : Store), Sorted z0.tagsStats →
      runPuts z0 cs = some z1 → Sorted z1.tagsStats := by
    intro cs
    induction cs with
    | nil =>
      intro z0 z1 hs h
      simp only [runPuts, Option.some.injEq] at h
      subst h; exact hs
    | cons c cs ih =>
      intro z0 z1 hs h
      rw [runPuts] at h
      cases hp : PutNoteDB c.ro z0 c.name c.attr with
      | mk z2 e =>
        rw [hp] at h
        cases e with
        | some e => simp at h
        | none =>
          refine ih z2 z1 ?_ h
          obtain ⟨_, htx⟩ := PutNoteDB_ok _ _ _ _ _ hp
          exact indexTx_sorted_stats _ { z0 with attrs := z0.attrs.set c.name (jsonAttr c.attr) } _ _ _ _ _
            hs htx
  exact gen calls _ z Assoc.sorted_nil h

end Zettelo

namespace Zettelo

/-- In every call, for every visiting order: when the cursor of a primary tag has fewer rows
ahead of its start position than the call has rounds, the entry of the tag in `lastPositions`
is the empty string, and otherwise the entry is the key of the row read in the last round. -/
theorem Filter_position_of_cursor (ro : RangeOrder) (z : Store) (query : List (List GoString))
    (seeks : Assoc GoString) (max : Int) (k : GoString)
    (hk : k ∈ primarySet (countTags query) query) :
    ((startStack z seeks k).length < max.toNat →
        (Filter ro z query seeks max).2.1.get k = some [])
      ∧ ∀ (S1 S2 : Assoc GoString) (e : GoString × GoString),
          startStack z seeks k = S1 ++ e :: S2 → max.toNat = S1.length + 1 →
          (Filter ro z query seeks max).2.1.get k = some e.1 := by
  rw [Filter_lastPositions, if_pos hk]
  constructor
  · exact fun h => lastRead_short _ _ _ h
  · intro S1 S2 e hS hm
    rw [hS, hm]
    exact lastRead_split S1 S2 e none

end Zettelo

namespace Zettelo

/-! ### No stale count rows -/

theorem clamp0_pos {c : Int} (h : clamp0 c ≠ 0) : 0 < clamp0 c := by
  unfold clamp0 at h ⊢
  split_ifs at h ⊢ with h1
  · exact absurd rfl h
  · omega

theorem putStats_pos (ds : List (GoString × Int)) (st st1 : Assoc Int)
    (hs : ∀ e ∈ st, 0 < e.2) (h : putStats ds st = .ok st1) : ∀ e ∈ st1, 0 < e.2 := by
  induction ds generalizing st with
  | nil =>
    simp only [putStats, Except.ok.injEq] at h
    subst h; exact hs
  | cons kd rest ih =>
    simp only [putStats] at h
    split_ifs at h with hz
    · exact ih _ (fun e he => hs e ((Assoc.del_sublist st kd.1).subset he)) h
    · cases hp : st.put kd.1 (clamp0 (st.getD kd.1 0 + kd.2)) with
      | error e => rw [hp] at h; cases h
      | ok st2 =>
        rw [hp] at h
        obtain ⟨h1, _, _⟩ := put_ok hp
        subst h1
        refine ih _ (fun e he => ?_) h
        rcases mem_set _ _ _ _ he with rfl | he
        · exact clamp0_pos hz
        · exact hs e he

theorem indexTx_pos (ro : RangeOrder) (z z2 : Store) (name : GoString)
    (M R A : List GoString) (hs : ∀ e ∈ z.tagsStats, 0 < e.2)
    (h : indexTx ro z name M R A = .ok z2) : ∀ e ∈ z2.tagsStats, 0 < e.2 := by
  unfold indexTx at h
  simp only at h
  split at h
  · cases h
  · split at h
    · cases h
    · rename_i st hst
      simp only [Except.ok.injEq] at h
      subst h
      exact putStats_pos _ _ _ hs hst

theorem runPuts_pos (calls : List PutCall) (z0 z1 : Store)
    (hs : ∀ e ∈ z0.tagsStats, 0 < e.2) (h : runPuts z0 calls = some z1) :
    ∀ e ∈ z1.tagsStats, 0 < e.2 := by
  induction calls generalizing z0 with
  | nil =>
    simp only [runPuts, Option.some.injEq] at h
    subst h; exact hs
  | cons c cs ih =>
    rw [runPuts] at h
    cases hp : PutNoteDB c.ro z0 c.name c.attr with
    | mk z2 e =>
      rw [hp] at h
      cases e with
      | some e => simp at h
      | none =>
        refine ih z2 ?_ h
        obtain ⟨_, htx⟩ := PutNoteDB_ok _ _ _ _ _ hp
        exact indexTx_pos _ { z0 with attrs := z0.attrs.set c.name (jsonAttr c.attr) } _ _ _ _ _ hs htx

theorem mem_keys_get {V : Type} (b : Assoc V) (k : GoString) (v : V) (h : b.get k = some v) :
    k ∈ Assoc.keys b := by
  rw [← Assoc.get_isSome_iff, h]; rfl

/-- A successful write keeps what holds of the index for arbitrary tags. -/
theorem PutNoteDB_storeInv (ro : RangeOrder) (z z2 : Store) (name : GoString)
    (attr : NoteAttribute) (h : PutNoteDB ro z name attr = (z2, none)) (inv : StoreInv z) :
    StoreInv z2 := by
  obtain ⟨hattrs, hb, hc⟩ := PutNoteDB_tables ro z z2 name attr h
  have hget : ∀ n, z2.attrs.get n = if n = name then some (jsonAttr attr) else z.attrs.get n := by
    intro n; rw [hattrs]; exact Assoc.get_set _ _ _ _
  have memP : ∀ t, t ∈ prevTagSet (z.attrs.get name)
      ↔ ∃ a, z.attrs.get name = some a ∧ t ∈ a.Tags := mem_prevTagSet z name
  have validP : ∀ t, t ∈ prevTagSet (z.attrs.get name) → ValidString t = true := by
    intro t ht
    obtain ⟨a, ha, hta⟩ := (memP t).mp ht
    exact inv.stored name a ha t hta
  have hmem : ∀ t, members z2 t = Assoc.keys (bucketOf z2.tagBuckets t) := fun _ => rfl
  have hmem0 : ∀ t, members z t = Assoc.keys (bucketOf z.tagBuckets t) := fun _ => rfl
  have hlen0 : ∀ t, (members z t).length = (bucketOf z.tagBuckets t).length :=
    fun t => Assoc.length_keys _
  have notmem : ∀ t, ValidString t = true → t ∉ prevTagSet (z.attrs.get name) →
      name ∉ Assoc.keys (bucketOf z.tagBuckets t) := by
    intro t hv hp hn
    obtain ⟨a, ha, hta⟩ := inv.recorded t name hv hn
    exact hp ((memP t).mpr ⟨a, ha, hta⟩)
  have dellen : ∀ t, (bucketOf z.tagBuckets t).length
      ≤ ((bucketOf z.tagBuckets t).del name).length + 1 := by
    intro t
    by_cases hn : name ∈ Assoc.keys (bucketOf z.tagBuckets t)
    · exact le_of_eq (Assoc.length_del_of_mem (inv.sorted t) name hn).symm
    · rw [Assoc.del_eq_self _ _ hn]; exact Nat.le_succ _
  refine ⟨PutNoteDB_sorted ro z z2 name attr h inv.sorted, ?_, ?_, ?_, ?_, ?_⟩
  · intro n a ha t ht
    rw [hget] at ha
    split_ifs at ha with hn
    · cases ha; exact valid_jsonAttr attr t ht
    · exact inv.stored n a ha t ht
  · intro t n hv hn
    rw [hmem, hb] at hn
    rw [hget]
    by_cases hname : n = name
    · subst hname
      simp only [if_true, Option.some.injEq, exists_eq_left']
      apply mem_jsonAttr_of_valid attr t hv
      split_ifs at hn with h1 h2
      · exact absurd rfl ((Assoc.mem_keys_del _ _ _).mp hn).1
      · exact h2.1
      · by_contra hta
        have hp : t ∈ prevTagSet (z.attrs.get n) := by
          by_contra hp
          exact notmem t hv hp hn
        exact h1 ⟨hp, hta⟩
    · simp only [hname, if_false]
      apply inv.recorded t n hv
      split_ifs at hn with h1 h2
      · exact ((Assoc.mem_keys_del _ _ _).mp hn).2
      · rcases (Assoc.mem_keys_set _ _ _ _).mp hn with h3 | h3
        · exact absurd h3 hname
        · exact h3
      · exact hn
  · intro t hv
    rw [hc, hmem, hb]
    have hle := inv.le t hv
    have hnn := inv.nonneg t
    rw [hlen0] at hle
    split_ifs with h1 h2
    · have := dellen t
      rw [Assoc.length_keys, clamp0]
      split_ifs <;> omega
    · have := Assoc.length_set_of_not_mem (bucketOf z.tagBuckets t) name [0]
        (notmem t hv h2.2)
      rw [Assoc.length_keys, clamp0]
      split_ifs <;> omega
    · rw [Assoc.length_keys]; exact hle
  · intro t
    rw [hc]
    split_ifs
    · unfold clamp0; split_ifs <;> omega
    · unfold clamp0; split_ifs <;> omega
    · exact inv.nonneg t
  · intro t hnil
    rw [hmem, hb] at hnil
    rw [hc]
    split_ifs at hnil ⊢ with h1 h2
    · have hle := inv.le t (validP t h1.1)
      rw [hlen0] at hle
      have hd := dellen t
      have h0 : ((bucketOf z.tagBuckets t).del name).length = 0 := by
        rw [← Assoc.length_keys, hnil]; rfl
      unfold clamp0
      split_ifs <;> omega
    · have : name ∈ Assoc.keys ((bucketOf z.tagBuckets t).set name [0]) :=
        (Assoc.mem_keys_set _ _ _ _).mpr (Or.inl rfl)
      rw [hnil] at this
      cases this
    · exact inv.zero t hnil

theorem StoreInv_empty : StoreInv Store.empty := by
  refine ⟨fun t => Assoc.sorted_nil, ?_, ?_, ?_, ?_, ?_⟩
  · intro n a ha; cases ha
  · intro t n _ hn
    simp [members, bucketOf, Assoc.getD, Assoc.get, Assoc.keys, Store.empty] at hn
  · intro t _
    simp [members, bucketOf, Assoc.getD, Assoc.get, Assoc.keys, Store.empty, tagCount]
  · intro t
    simp [Assoc.getD, Assoc.get, Store.empty, tagCount]
  · intro t _
    simp [Assoc.getD, Assoc.get, Store.empty, tagCount]

theorem runPuts_storeInv (calls : List PutCall) (z z2 : Store)
    (h : runPuts z calls = some z2) (inv : StoreInv z) : StoreInv z2 := by
  induction calls generalizing z with
  | nil => simp only [runPuts, Option.some.injEq] at h; subst h; exact inv
  | cons c cs ih =>
    rw [runPuts] at h
    cases hp : PutNoteDB c.ro z c.name c.attr with
    | mk z1 e =>
      rw [hp] at h
      cases e with
      | some e => simp at h
      | none => exact ih z1 h (PutNoteDB_storeInv _ _ _ _ _ hp inv)

/-- C11, counterexample: note `b` is written with the tag U+FFFD, note `a` with the tag
`[255]` (stored as U+FFFD) and then `a` with no tag; the three calls return no error.  The
last call reads U+FFFD back as a tag `a` has dropped and takes 1 from its count, which was 1
for `b`: the row of U+FFFD is deleted while `b` is still a key of its membership table, so
the tag has a member and no row. -/
theorem C11_counterexample :
    (runPuts Store.empty (staleCalls.take 2)).map (fun z => z.tagsStats)
        = some [([239, 191, 189], 1), ([255], 1)]
      ∧ runPuts Store.empty staleCalls = some staleStore
      ∧ members staleStore [239, 191, 189] = [[98]]
      ∧ staleStore.tagsStats.get [239, 191, 189] = none := by
  decide

/-- C11, amended (no stale zero counts): after every sequence of successful `PutNote` calls
on the empty store, so after each call of it, every row of `tags_stats` holds a count above
zero, and a tag whose membership table has no row has no count row; when every tag of the
sequence is valid UTF-8, a tag has a count row exactly when its membership table has a row:
the row of a tag goes when its last member drops the tag and comes back when a note takes
the tag. -/
theorem C11_no_stale_counts (calls : List PutCall) (z : Store)
    (h : runPuts Store.empty calls = some z) :
    (∀ e ∈ z.tagsStats, 0 < e.2)
      ∧ (∀ t, members z t = [] → z.tagsStats.get t = none)
      ∧ ((∀ c ∈ calls, ∀ t ∈ c.attr.Tags, ValidString t = true) →
          ∀ t, (z.tagsStats.get t = none ↔ members z t = [])) := by
  have hpos := runPuts_pos calls Store.empty z (fun e he => by cases he) h
  have hzero := (runPuts_storeInv calls _ z h StoreInv_empty).zero
  have hrow : ∀ t, members z t = [] → z.tagsStats.get t = none := by
    intro t hnil
    have h0 := hzero t hnil
    unfold tagCount Assoc.getD at h0
    cases hg : z.tagsStats.get t with
    | none => rfl
    | some c =>
      rw [hg] at h0
      simp only [Option.getD_some] at h0
      have hc := hpos (t, c) (mem_of_get hg)
      simp only at hc
      omega
  refine ⟨hpos, hrow, fun hv t => ⟨fun hg => ?_, hrow t⟩⟩
  have h1 := (runPuts_inv calls _ z hv h IndexInv_empty).i1 t
  unfold tagCount Assoc.getD at h1
  rw [hg] at h1
  simp only [Option.getD_none] at h1
  have : (members z t).length = 0 := by omega
  exact List.length_eq_zero.mp this

theorem C11_no_stale_counts_witness :
    (runPuts Store.empty (scenarioCalls.take 2)).map (fun z => z.tagsStats)
        = some [([120], 1), ([121], 2)]
      ∧ runPuts Store.empty scenarioCalls = some scenarioStore
      ∧ scenarioStore.tagsStats = [([121], 2)]
      ∧ (∀ c ∈ scenarioCalls, ∀ t ∈ c.attr.Tags, ValidString t = true)
      ∧ ((∀ e ∈ scenarioStore.tagsStats, 0 < e.2)
        ∧ (∀ t, members scenarioStore t = [] → scenarioStore.tagsStats.get t = none)
        ∧ ((∀ c ∈ scenarioCalls, ∀ t ∈ c.attr.Tags, ValidString t = true) →
            ∀ t, (scenarioStore.tagsStats.get t = none ↔ members scenarioStore t = []))) :=
  ⟨by decide, by decide, by decide, by decide,
    C11_no_stale_counts scenarioCalls scenarioStore (by decide)⟩

end Zettelo

namespace Zettelo

/-! ### What a query does to the store -/

theorem get_create (tb : Assoc (Assoc GoString)) (k t : GoString) :
    (createBucketIfNotExists tb k).get t
      = match tb.get t with
        | some b => some b
        | none => if t = k then some [] else none := by
  unfold createBucketIfNotExists
  cases hk : tb.get k with
  | some b0 =>
    simp only
    cases ht : tb.get t with
    | some b => rfl
    | none =>
      have : t ≠ k := fun e => by rw [e, hk] at ht; cases ht
      simp [this]
  | none =>
    simp only
    rw [Assoc.get_set]
    by_cases h : t = k
    · subst h; simp [hk]
    · simp only [h, if_false]
      cases tb.get t <;> rfl

theorem get_foldl_create (ks : List GoString) (tb : Assoc (Assoc GoString)) (t : GoString) :
    (ks.foldl createBucketIfNotExists tb).get t
      = match tb.get t with
        | some b => some b
        | none => if t ∈ ks then some [] else none := by
  induction ks generalizing tb with
  | nil =>
    rw [List.foldl_nil]
    cases tb.get t <;> simp
  | cons k ks ih =>
    rw [List.foldl_cons, ih, get_create]
    cases tb.get t with
    | some b => rfl
    | none =>
      by_cases h : t = k
      · subst h; simp
      · by_cases h2 : t ∈ ks
        · simp [h, h2]
        · simp [h, h2]

theorem mem_keys_foldl_count (v : List GoString) (tags : Assoc Int) (t : GoString) :
    t ∈ Assoc.keys (v.foldl (fun tags k => Assoc.set tags k (tags.getD k 0 + 1)) tags)
      ↔ t ∈ v ∨ t ∈ Assoc.keys tags := by
  induction v generalizing tags with
  | nil => simp
  | cons k ks ih =>
    rw [List.foldl_cons, ih, Assoc.mem_keys_set, List.mem_cons]
    tauto

/-- The map `tags` of `Filter` has a key for every tag that occurs in the query and no other
key. -/
theorem mem_keys_countTags (query : List (List GoString)) (t : GoString) :
    t ∈ Assoc.keys (countTags query) ↔ ∃ v ∈ query, t ∈ v := by
  unfold countTags
  have gen : ∀ (q : List (List GoString)) (tags : Assoc Int),
      t ∈ Assoc.keys (q.foldl (fun tags v =>
        v.foldl (fun tags k => Assoc.set tags k (tags.getD k 0 + 1)) tags) tags)
        ↔ (∃ v ∈ q, t ∈ v) ∨ t ∈ Assoc.keys tags := by
    intro q
    induction q with
    | nil => intro tags; simp
    | cons v vs ih =>
      intro tags
      rw [List.foldl_cons, ih, mem_keys_foldl_count]
      simp only [List.mem_cons, exists_eq_or_imp]
      constructor
      · rintro (h | h | h)
        · exact Or.inl (Or.inr h)
        · exact Or.inl (Or.inl h)
        · exact Or.inr h
      · rintro ((h | h) | h)
        · exact Or.inr (Or.inl h)
        · exact Or.inl h
        · exact Or.inr (Or.inr h)
  rw [gen]
  simp [Assoc.keys]

/-- C15 (read-only queries): in every store and for every input, `Filter` leaves the bucket
`attrs`, the bucket `tags_stats` and every membership bucket that exists with all its rows
as they were; for a tag without a bucket it creates an empty bucket when the tag occurs in
the query and nothing otherwise.  `GetTagsStats` leaves the store as it was. -/
theorem C15_queries_read_only (ro : RangeOrder) (z : Store) (query : List (List GoString))
    (seeks : Assoc GoString) (max : Int) (seek : GoString) (limit : Int) :
    (Filter ro z query seeks max).2.2.attrs = z.attrs
      ∧ (Filter ro z query seeks max).2.2.tagsStats = z.tagsStats
      ∧ (∀ t b, z.tagBuckets.get t = some b →
          (Filter ro z query seeks max).2.2.tagBuckets.get t = some b)
      ∧ (∀ t, z.tagBuckets.get t = none → (∃ v ∈ query, t ∈ v) →
          (Filter ro z query seeks max).2.2.tagBuckets.get t = some [])
      ∧ (∀ t, z.tagBuckets.get t = none → (¬ ∃ v ∈ query, t ∈ v) →
          (Filter ro z query seeks max).2.2.tagBuckets.get t = none)
      ∧ GetTagsStatsStore z seek limit = z := by
  have hget : ∀ t, (Filter ro z query seeks max).2.2.tagBuckets.get t
      = match z.tagBuckets.get t with
        | some b => some b
        | none => if t ∈ ro.order _ 1 (Assoc.keys (countTags query)) then some [] else none :=
    fun t => get_foldl_create _ _ t
  refine ⟨rfl, rfl, fun t b h => ?_, fun t h hq => ?_, fun t h hq => ?_, rfl⟩
  · rw [hget, h]
  · rw [hget, h]
    simp only
    rw [if_pos (((ro.perm _ _ _).mem_iff).mpr ((mem_keys_countTags query t).mpr hq))]
  · rw [hget, h]
    simp only
    rw [if_neg (fun hm => hq ((mem_keys_countTags query t).mp (((ro.perm _ _ _).mem_iff).mp hm)))]

theorem C15_queries_read_only_witness :
    (Filter RangeOrder.stored dupStore [[[120], [122]]] [] 5).2.2.tagBuckets
        = [([120], [([97], [0]), ([98], [0])]), ([121], [([98], [0])]), ([122], [])]
      ∧ ((Filter RangeOrder.stored dupStore [[[120], [122]]] [] 5).2.2.attrs = dupStore.attrs
      ∧ (Filter RangeOrder.stored dupStore [[[120], [122]]] [] 5).2.2.tagsStats
          = dupStore.tagsStats
      ∧ (∀ t b, dupStore.tagBuckets.get t = some b →
          (Filter RangeOrder.stored dupStore [[[120], [122]]] [] 5).2.2.tagBuckets.get t
            = some b)
      ∧ (∀ t, dupStore.tagBuckets.get t = none → (∃ v ∈ [[[120], [122]]], t ∈ v) →
          (Filter RangeOrder.stored dupStore [[[120], [122]]] [] 5).2.2.tagBuckets.get t
            = some [])
      ∧ (∀ t, dupStore.tagBuckets.get t = none → (¬ ∃ v ∈ [[[120], [122]]], t ∈ v) →
          (Filter RangeOrder.stored dupStore [[[120], [122]]] [] 5).2.2.tagBuckets.get t
            = none)
      ∧ GetTagsStatsStore dupStore [121] 3 = dupStore) :=
  ⟨by decide,
    C15_queries_read_only RangeOrder.stored dupStore [[[120], [122]]] [] 5 [121] 3⟩

/-! ### The empty query -/

theorem foldl_seek_nil (sk : List (GoString × GoString)) :
    sk.foldl (fun (cs : Assoc (Cursor GoString)) tk =>
      match Assoc.get cs tk.1 with
      | some c => Assoc.set cs tk.1 (c.seek tk.2).1
      | none => cs) [] = [] := by
  induction sk with
  | nil => rfl
  | cons tk rest ih => rw [List.foldl_cons]; exact ih

theorem filterLoop_no_cursor (ro : RangeOrder) (tb : Assoc (Assoc GoString))
    (query : List (List GoString)) (seeks : Assoc GoString) (fuel i : Nat)
    (lp : Assoc GoString) (res : List GoString) :
    filterLoop ro tb query seeks fuel i ⟨[], lp, res⟩ = ⟨[], lp, res⟩ := by
  cases fuel with
  | zero => rfl
  | succ n => rw [filterLoop]; simp

/-- C16 (empty query): for every store, seek and `max`, `Filter` with a query of no clause
returns no result and an empty `lastPositions`, opens no cursor, creates no membership
bucket and leaves the store as it was. -/
theorem C16_empty_query (ro : RangeOrder) (z : Store) (seeks : Assoc GoString) (max : Int) :
    Filter ro z [] seeks max = ([], [], z)
      ∧ openCursors ro (openBuckets ro z []) [] seeks = []
      ∧ openBuckets ro z [] = z.tagBuckets := by
  have hb : openBuckets ro z [] = z.tagBuckets := by
    unfold openBuckets countTags
    simp only [List.foldl_nil, Assoc.keys, List.map_nil, order_nil]
  have hc : ∀ tb, openCursors ro tb [] seeks = [] := by
    intro tb
    unfold openCursors countTags primarySet
    simp only [List.foldl_nil, order_nil]
    exact foldl_seek_nil _
  refine ⟨?_, hc _, hb⟩
  unfold Filter
  simp only [hb, hc, filterLoop_no_cursor]

/-! ### The defects of `GetAttribute`, of the note file and of the empty clause -/

theorem GetAttribute_fails (z : Store) (name : GoString) :
    GetAttribute z name = (none, some TxErr.ErrTxNotWritable) := rfl

/-- C19, failing input: after the three successful writes of `demoCalls` the bucket `attrs`
holds an attribute for note `a`, and `GetAttribute("a")` returns no attribute and the error
`ErrTxNotWritable`: the function asks for the bucket with `CreateBucketIfNotExists` inside
`db.View`, a read-only transaction, where the other functions use `db.Update`.  For a name
that was never written the result is the same error, not an absent attribute with no
error. -/
theorem C19_get_attribute_fails :
    runPuts Store.empty demoCalls = some demoStore
      ∧ demoStore.attrs.get [97] = some ⟨[[121]], 1, 2⟩
      ∧ GetAttribute demoStore [97] = (none, some TxErr.ErrTxNotWritable)
      ∧ demoStore.attrs.get [100] = none
      ∧ GetAttribute demoStore [100] = (none, some TxErr.ErrTxNotWritable) := by
  decide

/-- C18, failing input: note `a` is written with the content `longContent` (header
`tags: [x]`, body `longer`) and then with the shorter `shortContent` (same header, body
`hi`); both calls return no error, and `ReadNote("a")` then yields the bytes of
`shortContent` followed by the last four bytes `nger` of the old content, because the file is
opened without `os.O_TRUNC`. -/
theorem C18_stale_tail :
    (PutNoteContent RangeOrder.stored [] Store.empty [97] longContent ⟨[[120]], 0, 0⟩).2.2
        = none
      ∧ (PutNoteContent RangeOrder.stored
          (PutNoteContent RangeOrder.stored [] Store.empty [97] longContent ⟨[[120]], 0, 0⟩).1
          (PutNoteContent RangeOrder.stored [] Store.empty [97] longContent ⟨[[120]], 0, 0⟩).2.1
          [97] shortContent ⟨[[120]], 0, 0⟩).2.2 = none
      ∧ ReadNote (PutNoteContent RangeOrder.stored
          (PutNoteContent RangeOrder.stored [] Store.empty [97] longContent ⟨[[120]], 0, 0⟩).1
          (PutNoteContent RangeOrder.stored [] Store.empty [97] longContent ⟨[[120]], 0, 0⟩).2.1
          [97] shortContent ⟨[[120]], 0, 0⟩).1 [97]
        = some (shortContent ++ [110, 103, 101, 114])
      ∧ ReadNote (PutNoteContent RangeOrder.stored [] Store.empty [97] longContent
          ⟨[[120]], 0, 0⟩).1 [97] = some longContent := by
  decide

/-- A write on a name without a file, or with a content at least as long as the file of the
name, is read back as written. -/
theorem ReadNote_PutNoteFile (fs : Assoc GoString) (name content : GoString)
    (h : ∀ old, fs.get name = some old → old.length ≤ content.length) :
    ReadNote (PutNoteFile fs name content) name = some content := by
  unfold ReadNote PutNoteFile
  rw [Assoc.get_set, if_pos rfl]
  cases hg : fs.get name with
  | none => rfl
  | some old =>
    simp only [writeFile]
    rw [List.drop_of_length_le (h old hg), List.append_nil]

/-- C20, failing input: on the table `y = a, b` the query with the clause `y` and an empty
clause returns `a`, `b` and the empty string, which is a key of no membership table: when
the cursor runs out, the empty string goes into `items` (the fall-through after the `nil`
read that also sets `lastPositions`), and the empty clause holds for every candidate. -/
theorem C20_empty_string_result :
    (Filter RangeOrder.stored demoStore [[[121]], []] [] 100).1 = [[97], [98], []]
      ∧ [] ∉ members demoStore [121] := by
  decide

/-- With no empty clause in the query, every name `Filter` returns is a key of the
membership table of a tag of the query. -/
theorem Filter_results_members (ro : RangeOrder) (z : Store) (query : List (List GoString))
    (hq : ∀ v ∈ query, v ≠ []) (seeks : Assoc GoString) (max : Int) (x : GoString)
    (hx : x ∈ (Filter ro z query seeks max).1) : ∃ v ∈ query, ∃ t ∈ v, x ∈ members z t := by
  obtain ⟨⟨v, hv, hall⟩, _⟩ := (Filter_results _ _ _ _ _ _).mp hx
  obtain ⟨t, ht⟩ := List.exists_mem_of_ne_nil v (hq v hv)
  exact ⟨v, hv, t, ht, hall t ht⟩

end Zettelo

namespace Zettelo

/-! ### The number of results -/

theorem matchClauses_of_mem (tb : Assoc (Assoc GoString)) (name : GoString)
    (query : List (List GoString)) (acc : List GoString × List GoString)
    (h : name ∈ acc.2) : matchClauses tb query acc name = acc := by
  unfold matchClauses
  induction query with
  | nil => rfl
  | cons v vs ih =>
    rw [List.foldl_cons, if_neg (fun hc => hc.1 h)]
    exact ih

theorem matchClauses_length (tb : Assoc (Assoc GoString)) (name : GoString)
    (query : List (List GoString)) (acc : List GoString × List GoString) :
    (matchClauses tb query acc name).1.length ≤ acc.1.length + 1 := by
  induction query generalizing acc with
  | nil => simp [matchClauses]
  | cons v vs ih =>
    have hstep : matchClauses tb (v :: vs) acc name
        = matchClauses tb vs
            (if name ∉ acc.2 ∧ isAll tb name v = true
              then (acc.1 ++ [name], setInsert acc.2 name) else acc) name := by
      unfold matchClauses; rw [List.foldl_cons]
    rw [hstep]
    by_cases hc : name ∉ acc.2 ∧ isAll tb name v = true
    · rw [if_pos hc, matchClauses_of_mem]
      · simp
      · exact (mem_setInsert _ _ _).mpr (Or.inl rfl)
    · rw [if_neg hc]; exact ih acc

theorem foldl_matchClauses_length (tb : Assoc (Assoc GoString)) (query : List (List GoString))
    (l : List GoString) (acc : List GoString × List GoString) :
    (l.foldl (matchClauses tb query) acc).1.length ≤ acc.1.length + l.length := by
  induction l generalizing acc with
  | nil => simp
  | cons name rest ih =>
    rw [List.foldl_cons, List.length_cons]
    have h1 := ih (matchClauses tb query acc name)
    have h2 := matchClauses_length tb name query acc
    omega

theorem length_setInsert_le (s : List GoString) (v : GoString) :
    (setInsert s v).length ≤ s.length + 1 := by
  unfold setInsert
  split_ifs <;> simp

theorem length_foldl_items {α : Type} (f : α → GoString) (l : List α) (acc : List GoString) :
    (l.foldl (fun s r => setInsert s (f r)) acc).length ≤ acc.length + l.length := by
  induction l generalizing acc with
  | nil => simp
  | cons r rest ih =>
    rw [List.foldl_cons, List.length_cons]
    have h1 := ih (setInsert acc (f r))
    have h2 := length_setInsert_le acc (f r)
    omega

/-- One round appends at most one name for every open cursor and opens no cursor. -/
theorem filterRound_length (ro : RangeOrder) (tb : Assoc (Assoc GoString))
    (query : List (List GoString)) (seeks : Assoc GoString) (i : Nat) (st : FilterState) :
    (filterRound ro tb query seeks i st).results.length
        ≤ st.results.length + st.cursors.length
      ∧ (filterRound ro tb query seeks i st).cursors.length ≤ st.cursors.length := by
  unfold filterRound
  simp only
  have hlen : (ro.order _ (3 + 2 * i) st.cursors).length = st.cursors.length :=
    (ro.perm _ _ _).length_eq
  constructor
  · have h1 := foldl_matchClauses_length tb query
      (ro.order _ (4 + 2 * i)
        (((ro.order _ (3 + 2 * i) st.cursors).map
          (fun kc => (kc.1, readCursor seeks i kc.1 kc.2))).foldl
            (fun s r => setInsert s (r.2.2.getD [])) [])) (st.results, [])
    have h2 := length_foldl_items (fun r : GoString × Cursor GoString × Option GoString =>
        r.2.2.getD [])
      ((ro.order _ (3 + 2 * i) st.cursors).map
        (fun kc => (kc.1, readCursor seeks i kc.1 kc.2))) []
    rw [(ro.perm _ _ _).length_eq] at h1
    simp only [List.length_map, List.length_nil] at h1 h2
    omega
  · refine (List.length_filterMap_le _ _).trans ?_
    rw [List.length_map, hlen]

theorem filterLoop_length (ro : RangeOrder) (tb : Assoc (Assoc GoString))
    (query : List (List GoString)) (seeks : Assoc GoString) (fuel : Nat) :
    ∀ (i : Nat) (st : FilterState),
      (filterLoop ro tb query seeks fuel i st).results.length
        ≤ st.results.length + fuel * st.cursors.length := by
  induction fuel with
  | zero => intro i st; simp [filterLoop]
  | succ n ih =>
    intro i st
    rw [filterLoop]
    split_ifs
    · have h1 := ih (i + 1) (filterRound ro tb query seeks i st)
      obtain ⟨h2, h3⟩ := filterRound_length ro tb query seeks i st
      have h4 : n * (filterRound ro tb query seeks i st).cursors.length
          ≤ n * st.cursors.length := Nat.mul_le_mul_left n h3
      have h5 : (n + 1) * st.cursors.length = n * st.cursors.length + st.cursors.length :=
        Nat.succ_mul n _
      omega
    · omega

theorem nodup_primarySet (tags : Assoc Int) (query : List (List GoString)) :
    (primarySet tags query).Nodup := by
  unfold primarySet
  have gen : ∀ (q : List (List GoString)) (acc : List GoString), acc.Nodup →
      (q.foldl (fun temp v => if (maxKeyOf tags v).2 ≥ 0
        then setInsert temp (maxKeyOf tags v).1 else temp) acc).Nodup := by
    intro q
    induction q with
    | nil => intro acc h; exact h
    | cons v vs ih =>
      intro acc h
      rw [List.foldl_cons]
      apply ih
      split_ifs
      · exact nodup_setInsert _ _ h
      · exact h
  exact gen query [] List.nodup_nil

theorem length_primarySet_le (tags : Assoc Int) (query : List (List GoString)) :
    (primarySet tags query).length ≤ query.length := by
  unfold primarySet
  have gen : ∀ (q : List (List GoString)) (acc : List GoString),
      (q.foldl (fun temp v => if (maxKeyOf tags v).2 ≥ 0
        then setInsert temp (maxKeyOf tags v).1 else temp) acc).length
        ≤ acc.length + q.length := by
    intro q
    induction q with
    | nil => intro acc; simp
    | cons v vs ih =>
      intro acc
      rw [List.foldl_cons, List.length_cons]
      refine (ih _).trans ?_
      split_ifs
      · have := length_setInsert_le acc (maxKeyOf tags v).1
        omega
      · omega
  simpa using gen query []

theorem length_openCursors (ro : RangeOrder) (tb : Assoc (Assoc GoString))
    (query : List (List GoString)) (seeks : Assoc GoString) :
    (openCursors ro tb query seeks).length ≤ (primarySet (countTags query) query).length := by
  have hok := openCursors_ok ro tb query seeks
  rw [← Assoc.length_keys]
  exact (List.subperm_of_subset (Assoc.nodup_keys hok.sorted)
    (fun k hk => (hok.keys k).mp hk)).length_le

/-- C12, counterexample: with note `a` tagged `x` and note `b` tagged `x, y`, the query
`x | y` with an empty seek and `max = 1` returns the two names `a` and `b`. -/
theorem C12_counterexample :
    (Filter RangeOrder.stored dupStore [[[120]], [[121]]] [] 1).1 = [[97], [98]]
      ∧ ¬ ((Filter RangeOrder.stored dupStore [[[120]], [[121]]] [] 1).1.length ≤ 1) := by
  decide

/-- C12, amended: `max` bounds the rounds of `Filter`, and a round appends at most one name
for every cursor, so `Filter` returns at most `max` times `p` names, where `p` is the number
of distinct primary tags of the query, which is at most the number of its clauses; for a
query with one primary tag the bound is `max`. -/
theorem C12_result_bound (ro : RangeOrder) (z : Store) (query : List (List GoString))
    (seeks : Assoc GoString) (max : Int) (hmax : 0 < max) :
    ((Filter ro z query seeks max).1.length : Int)
        ≤ max * ((primarySet (countTags query) query).length : Int)
      ∧ (primarySet (countTags query) query).length ≤ query.length := by
  refine ⟨?_, length_primarySet_le _ _⟩
  have h1 := filterLoop_length ro (openBuckets ro z query) query seeks max.toNat 0
    ⟨openCursors ro (openBuckets ro z query) query seeks, [], []⟩
  have h2 := length_openCursors ro (openBuckets ro z query) query seeks
  have h3 : max.toNat * (openCursors ro (openBuckets ro z query) query seeks).length
      ≤ max.toNat * (primarySet (countTags query) query).length := Nat.mul_le_mul_left _ h2
  have h4 : (Filter ro z query seeks max).1.length
      ≤ max.toNat * (primarySet (countTags query) query).length := by
    unfold Filter
    simp only [List.length_nil, Nat.zero_add] at h1 ⊢
    omega
  have h5 : ((max.toNat : Nat) : Int) = max := Int.toNat_of_nonneg (le_of_lt hmax)
  calc ((Filter ro z query seeks max).1.length : Int)
      ≤ ((max.toNat * (primarySet (countTags query) query).length : Nat) : Int) := by
        exact_mod_cast h4
    _ = max * ((primarySet (countTags query) query).length : Int) := by
        rw [Nat.cast_mul, h5]

theorem C12_result_bound_witness :
    (0 : Int) < 1
      ∧ (((Filter RangeOrder.stored dupStore [[[120]], [[121]]] [] 1).1.length : Int)
          ≤ 1 * ((primarySet (countTags [[[120]], [[121]]]) [[[120]], [[121]]]).length : Int)
        ∧ (primarySet (countTags [[[120]], [[121]]]) [[[120]], [[121]]]).length
            ≤ [[[120]], [[121]]].length) :=
  ⟨by decide, C12_result_bound RangeOrder.stored dupStore [[[120]], [[121]]] [] 1 (by decide)⟩

end Zettelo

namespace Zettelo

/-! ### The choice of the primary tag -/

theorem getD_foldl_count (v : List GoString) (tags : Assoc Int) (t : GoString) :
    (v.foldl (fun tags k => Assoc.set tags k (tags.getD k 0 + 1)) tags).getD t 0
      = tags.getD t 0 + ((v.filter (fun k => decide (k = t))).length : Int) := by
  induction v generalizing tags with
  | nil => simp
  | cons k ks ih =>
    rw [List.foldl_cons, ih, getD_set]
    by_cases h : k = t
    · subst h
      simp only [if_true, List.filter_cons_of_pos, decide_True, List.length_cons]
      push_cast
      ring
    · have h2 : ¬ t = k := fun e => h e.symm
      simp [h, h2]

/-- The count `tags[k]` of `Filter` is the number of occurrences of `k` in the query. -/
theorem getD_countTags (query : List (List GoString)) (t : GoString) :
    (countTags query).getD t 0 = occurrences query t := by
  unfold countTags occurrences
  have gen : ∀ (q : List (List GoString)) (tags : Assoc Int),
      (q.foldl (fun tags v =>
        v.foldl (fun tags k => Assoc.set tags k (tags.getD k 0 + 1)) tags) tags).getD t 0
        = tags.getD t 0 + ((q.flatten.filter (fun k => decide (k = t))).length : Int) := by
    intro q
    induction q with
    | nil => intro tags; simp
    | cons v vs ih =>
      intro tags
      rw [List.foldl_cons, ih, getD_foldl_count, List.flatten_cons, List.filter_append,
        List.length_append]
      push_cast
      ring
  rw [gen]
  simp [Assoc.getD, Assoc.get]

theorem maxKeyOf_foldl_spec (tags : Assoc Int) (v : List GoString) (m : GoString × Int) :
    (v.foldl (fun m k => if m.2 ≤ tags.getD k 0 then (k, tags.getD k 0) else m) m = m
        ∧ ∀ t ∈ v, tags.getD t 0 < m.2)
      ∨ ∃ pre post,
          v = pre ++ (v.foldl (fun m k =>
              if m.2 ≤ tags.getD k 0 then (k, tags.getD k 0) else m) m).1 :: post
          ∧ (v.foldl (fun m k =>
              if m.2 ≤ tags.getD k 0 then (k, tags.getD k 0) else m) m).2
            = tags.getD (v.foldl (fun m k =>
              if m.2 ≤ tags.getD k 0 then (k, tags.getD k 0) else m) m).1 0
          ∧ m.2 ≤ (v.foldl (fun m k =>
              if m.2 ≤ tags.getD k 0 then (k, tags.getD k 0) else m) m).2
          ∧ (∀ t ∈ pre, tags.getD t 0 ≤ (v.foldl (fun m k =>
              if m.2 ≤ tags.getD k 0 then (k, tags.getD k 0) else m) m).2)
          ∧ ∀ t ∈ post, tags.getD t 0 < (v.foldl (fun m k =>
              if m.2 ≤ tags.getD k 0 then (k, tags.getD k 0) else m) m).2 := by
  induction v generalizing m with
  | nil => exact Or.inl ⟨rfl, fun t ht => (by cases ht)⟩
  | cons k ks ih =>
    rw [List.foldl_cons]
    by_cases hc : m.2 ≤ tags.getD k 0
    · rw [if_pos hc]
      rcases ih (k, tags.getD k 0) with ⟨h1, h2⟩ | ⟨pre, post, h1, h2, h3, h4, h5⟩
      · right
        rw [h1]
        exact ⟨[], ks, rfl, rfl, hc, fun t ht => (by cases ht), h2⟩
      · right
        refine ⟨k :: pre, post, ?_, h2, le_trans hc h3, ?_, h5⟩
        · rw [List.cons_append, ← h1]
        · intro t ht
          rcases List.mem_cons.mp ht with rfl | ht
          · exact h3
          · exact h4 t ht
    · rw [if_neg hc]
      rcases ih m with ⟨h1, h2⟩ | ⟨pre, post, h1, h2, h3, h4, h5⟩
      · left
        refine ⟨h1, fun t ht => ?_⟩
        rcases List.mem_cons.mp ht with rfl | ht
        · exact not_le.mp hc
        · exact h2 t ht
      · right
        refine ⟨k :: pre, post, ?_, h2, h3, ?_, h5⟩
        · rw [List.cons_append, ← h1]
        · intro t ht
          rcases List.mem_cons.mp ht with rfl | ht
          · exact le_trans (le_of_lt (not_le.mp hc)) h3
          · exact h4 t ht

/-- C13, counterexample: in the clause `x, y` of the query `x & y` both tags have frequency
1 and `Filter` takes `y`, the tag met last, as the primary tag, not `x`; and in the query
`x & x & x & y | y` the first clause gets `x`, which occurs three times but in one clause
only, though `y` is referenced by two clauses. -/
theorem C13_counterexample :
    (maxKeyOf (countTags [[[120], [121]]]) [[120], [121]]).1 = [121]
      ∧ primarySet (countTags [[[120], [121]]]) [[[120], [121]]] = [[121]]
      ∧ occurrences [[[120], [121]]] [120] = occurrences [[[120], [121]]] [121]
      ∧ (maxKeyOf (countTags [[[120], [120], [120], [121]], [[121]]])
          [[120], [120], [120], [121]]).1 = [120]
      ∧ (countTags [[[120], [120], [120], [121]], [[121]]]).getD [120] 0 = 3
      ∧ (countTags [[[120], [120], [120], [121]], [[121]]]).getD [121] 0 = 2 := by
  decide

/-- C13, amended: for every query and every non-empty clause of it, the primary tag `Filter`
chooses for the clause is a tag of the clause whose frequency, the number of occurrences of
the tag in the whole query (repeats inside a clause included), is the highest among the tags
of the clause, and when several tags of the clause share that highest frequency it is the one
met last in the order of the clause: no tag after it in the clause reaches its frequency.
`Filter` opens a cursor on it. -/
theorem C13_primary_tag (query : List (List GoString)) (v : List GoString) (hv : v ∈ query)
    (hne : v ≠ []) :
    (maxKeyOf (countTags query) v).1 ∈ primarySet (countTags query) query
      ∧ ∃ pre post, v = pre ++ (maxKeyOf (countTags query) v).1 :: post
          ∧ (∀ t ∈ pre, occurrences query t
              ≤ occurrences query (maxKeyOf (countTags query) v).1)
          ∧ ∀ t ∈ post, occurrences query t
              < occurrences query (maxKeyOf (countTags query) v).1 := by
  have h0 := maxKeyOf_nonneg _ (getD_countTags_nonneg query) v hne
  refine ⟨(mem_primarySet _ _ _).mpr ⟨v, hv, h0, rfl⟩, ?_⟩
  rcases maxKeyOf_foldl_spec (countTags query) v ([], -1) with ⟨_, h2⟩ | ⟨pre, post, h1, h2, _, h4, h5⟩
  · obtain ⟨t, ht⟩ := List.exists_mem_of_ne_nil v hne
    have := h2 t ht
    have := getD_countTags_nonneg query t
    simp only at *
    omega
  · refine ⟨pre, post, h1, fun t ht => ?_, fun t ht => ?_⟩
    · have := h4 t ht
      rw [h2, getD_countTags, getD_countTags] at this
      exact this
    · have := h5 t ht
      rw [h2, getD_countTags, getD_countTags] at this
      exact this

theorem C13_primary_tag_witness :
    [[120], [121], [122]] ∈ [[[120], [121], [122]], [[121]]]
      ∧ [[120], [121], [122]] ≠ ([] : List GoString)
      ∧ ((maxKeyOf (countTags [[[120], [121], [122]], [[121]]]) [[120], [121], [122]]).1
          ∈ primarySet (countTags [[[120], [121], [122]], [[121]]])
              [[[120], [121], [122]], [[121]]]
        ∧ ∃ pre post, [[120], [121], [122]]
            = pre ++ (maxKeyOf (countTags [[[120], [121], [122]], [[121]]])
                [[120], [121], [122]]).1 :: post
          ∧ (∀ t ∈ pre, occurrences [[[120], [121], [122]], [[121]]] t
              ≤ occurrences [[[120], [121], [122]], [[121]]]
                  (maxKeyOf (countTags [[[120], [121], [122]], [[121]]])
                    [[120], [121], [122]]).1)
          ∧ ∀ t ∈ post, occurrences [[[120], [121], [122]], [[121]]] t
              < occurrences [[[120], [121], [122]], [[121]]]
                  (maxKeyOf (countTags [[[120], [121], [122]], [[121]]])
                    [[120], [121], [122]]).1) :=
  ⟨by decide, by decide,
    C13_primary_tag [[[120], [121], [122]], [[121]]] [[120], [121], [122]] (by decide)
      (by decide)⟩

end Zettelo

namespace Zettelo

/-! ### A query of one tag -/

theorem order_singleton (ro : RangeOrder) (α : Type) (site : Nat) (a : α) :
    ro.order α site [a] = [a] :=
  List.perm_singleton.mp (ro.perm α site [a])

theorem countTags_single (t : GoString) : countTags [[t]] = [(t, 1)] := by
  simp [countTags, Assoc.set, Assoc.getD, Assoc.get]

theorem primarySet_single (t : GoString) : primarySet (countTags [[t]]) [[t]] = [t] := by
  rw [countTags_single]
  simp [primarySet, maxKeyOf, Assoc.getD, Assoc.get, setInsert]

theorem eq_singleton_of_nodup {l : List GoString} {t : GoString} (hn : l.Nodup)
    (h : ∀ k, k ∈ l ↔ k = t) : l = [t] := by
  cases l with
  | nil => exact absurd ((h t).mpr rfl) (List.not_mem_nil t)
  | cons a rest =>
    have ha : a = t := (h a).mp (List.mem_cons_self _ _)
    subst ha
    rw [List.nodup_cons] at hn
    cases rest with
    | nil => rfl
    | cons b rest2 =>
      have hb : b = a := (h b).mp (List.mem_cons_of_mem _ (List.mem_cons_self _ _))
      subst hb
      exact absurd (List.mem_cons_self _ _) hn.1

theorem openCursors_single (ro : RangeOrder) (tb : Assoc (Assoc GoString)) (t : GoString)
    (seeks : Assoc GoString) :
    ∃ c : Cursor GoString, openCursors ro tb [[t]] seeks = [(t, c)]
      ∧ c.bucket = bucketOf tb t := by
  have hok := openCursors_ok ro tb [[t]] seeks
  have hkeys : Assoc.keys (openCursors ro tb [[t]] seeks) = [t] :=
    eq_singleton_of_nodup (Assoc.nodup_keys hok.sorted)
      (fun k => by rw [hok.keys, primarySet_single, List.mem_singleton])
  cases hcs : openCursors ro tb [[t]] seeks with
  | nil => rw [hcs] at hkeys; cases hkeys
  | cons kc rest =>
    rw [hcs, Assoc.keys_cons] at hkeys
    have h1 : kc.1 = t := (List.cons.inj hkeys).1
    have h2 : rest = [] := List.map_eq_nil_iff.mp (List.cons.inj hkeys).2
    obtain ⟨k0, c⟩ := kc
    simp only at h1
    subst h1 h2
    exact ⟨c, rfl, hok.bucket (k0, c) (by rw [hcs]; exact List.mem_cons_self _ _)⟩

theorem pending_sublist (seeks : Assoc GoString) (i : Nat) (kc : GoString × Cursor GoString)
    (h : i = 0 ∨ List.Sublist kc.2.stack kc.2.bucket) :
    List.Sublist (pending seeks i kc) kc.2.bucket := by
  unfold pending
  by_cases hi : i = 0
  · rw [if_pos hi]
    cases seeks.get kc.1 with
    | none => exact List.Sublist.refl _
    | some v => exact (List.dropWhile_suffix _).sublist
  · rw [if_neg hi]
    rcases h with h | h
    · exact absurd h hi
    · exact (List.tail_sublist _).trans h

/-- One round with a single cursor on the table of the only tag of the query. -/
theorem filterRound_single (ro : RangeOrder) (tb : Assoc (Assoc GoString)) (t : GoString)
    (hk : (bucketOf tb t).get [] = none) (seeks : Assoc GoString) (i : Nat)
    (c : Cursor GoString) (lp : Assoc GoString) (res : List GoString)
    (hb : c.bucket = bucketOf tb t) (hst : i = 0 ∨ List.Sublist c.stack c.bucket) :
    (pending seeks i (t, c) = []
        ∧ (filterRound ro tb [[t]] seeks i ⟨[(t, c)], lp, res⟩).cursors = []
        ∧ (filterRound ro tb [[t]] seeks i ⟨[(t, c)], lp, res⟩).results = res)
      ∨ ∃ e rest, pending seeks i (t, c) = e :: rest
        ∧ (filterRound ro tb [[t]] seeks i ⟨[(t, c)], lp, res⟩).cursors
            = [(t, ⟨c.bucket, e :: rest⟩)]
        ∧ (filterRound ro tb [[t]] seeks i ⟨[(t, c)], lp, res⟩).results = res ++ [e.1] := by
  have hsub := pending_sublist seeks i (t, c) hst
  have hread := readCursor_eq seeks i (t, c)
  simp only at hread hsub
  cases hp : pending seeks i (t, c) with
  | nil =>
    left
    refine ⟨rfl, ?_, ?_⟩
    · unfold filterRound
      simp [order_singleton, hread, hp]
    · unfold filterRound
      simp [order_singleton, hread, hp, setInsert, matchClauses, isAll, hk]
  | cons e rest =>
    right
    have hmem : e.1 ∈ Assoc.keys (bucketOf tb t) := by
      rw [← hb]
      exact mem_keys_of_mem (hsub.subset (by rw [hp]; exact List.mem_cons_self _ _))
    have hsome : ((bucketOf tb t).get e.1).isSome = true :=
      (Assoc.get_isSome_iff _ _).mpr hmem
    refine ⟨e, rest, rfl, ?_, ?_⟩
    · unfold filterRound
      simp [order_singleton, hread, hp]
    · unfold filterRound
      simp [order_singleton, hread, hp, setInsert, matchClauses, isAll, hsome]

/-- The results of the rounds of a query of one tag: the keys the cursor reads, in the order
of the table. -/
theorem filterLoop_single (ro : RangeOrder) (tb : Assoc (Assoc GoString)) (t : GoString)
    (hk : (bucketOf tb t).get [] = none) (seeks : Assoc GoString) (fuel : Nat) :
    ∀ (i : Nat) (c : Cursor GoString) (lp : Assoc GoString) (res : List GoString),
      c.bucket = bucketOf tb t → (i = 0 ∨ List.Sublist c.stack c.bucket) →
      (filterLoop ro tb [[t]] seeks fuel i ⟨[(t, c)], lp, res⟩).results
        = res ++ Assoc.keys ((pending seeks i (t, c)).take fuel) := by
  induction fuel with
  | zero => intro i c lp res _ _; simp [filterLoop, Assoc.keys]
  | succ n ih =>
    intro i c lp res hb hst
    rw [filterLoop, if_pos (by simp)]
    rcases filterRound_single ro tb t hk seeks i c lp res hb hst with
      ⟨hp, hc, hr⟩ | ⟨e, rest, hp, hc, hr⟩
    · generalize filterRound ro tb [[t]] seeks i ⟨[(t, c)], lp, res⟩ = st1 at hc hr ⊢
      obtain ⟨cs1, lp1, res1⟩ := st1
      simp only at hc hr
      subst hc hr
      rw [filterLoop_no_cursor, hp]
      simp [Assoc.keys]
    · generalize filterRound ro tb [[t]] seeks i ⟨[(t, c)], lp, res⟩ = st1 at hc hr ⊢
      obtain ⟨cs1, lp1, res1⟩ := st1
      simp only at hc hr
      subst hc hr
      rw [ih (i + 1) ⟨c.bucket, e :: rest⟩ _ _ hb
        (Or.inr (by rw [← hp]; exact pending_sublist seeks i (t, c) hst)), hp]
      simp [pending, Assoc.keys]

theorem sorted_filter_split (L : List GoString) (hs : L.Pairwise (· < ·)) (k : GoString) :
    L = L.filter (fun n => decide (n < k)) ++ L.filter (fun n => decide (k ≤ n)) := by
  induction L with
  | nil => rfl
  | cons a rest ih =>
    rw [List.pairwise_cons] at hs
    by_cases h : a < k
    · rw [List.filter_cons_of_pos (by simpa using h),
        List.filter_cons_of_neg (by simpa using h), List.cons_append, ← ih hs.2]
    · have hall : ∀ x ∈ rest, k ≤ x := fun x hx => le_trans (not_lt.mp h) (le_of_lt (hs.1 x hx))
      have h1 : rest.filter (fun n => decide (n < k)) = [] := by
        rw [List.filter_eq_nil_iff]
        intro x hx
        simpa using hall x hx
      have h2 : rest.filter (fun n => decide (k ≤ n)) = rest := by
        rw [List.filter_eq_self]
        intro x hx
        simpa using hall x hx
      rw [List.filter_cons_of_neg (by simpa using h),
        List.filter_cons_of_pos (by simpa using not_lt.mp h), h1, h2, List.nil_append]

theorem head_filter_ge (L : List GoString) (hs : L.Pairwise (· < ·)) (k : GoString)
    (hk : k ∈ L) : (L.filter (fun n => decide (k ≤ n))).head? = some k := by
  have hk2 : k ∈ L.filter (fun n => decide (k ≤ n)) := by
    rw [List.mem_filter]; exact ⟨hk, by simp⟩
  have hs2 : (L.filter (fun n => decide (k ≤ n))).Pairwise (· < ·) := hs.filter _
  cases hF : L.filter (fun n => decide (k ≤ n)) with
  | nil => rw [hF] at hk2; cases hk2
  | cons h tl =>
    rw [hF] at hk2 hs2
    have hh : k ≤ h := by
      have : h ∈ L.filter (fun n => decide (k ≤ n)) := by rw [hF]; exact List.mem_cons_self _ _
      simpa using (List.mem_filter.mp this).2
    rw [List.pairwise_cons] at hs2
    rcases List.mem_cons.mp hk2 with rfl | h3
    · rfl
    · exact absurd (hs2.1 k h3) (not_lt.mpr hh)

/-- The results of `Filter` for a query of the single tag `t`: the keys of the table of `t`
from the start position of the cursor on, at most `max` of them, in key order. -/
theorem Filter_single (ro : RangeOrder) (z : Store) (t : GoString)
    (hk : [] ∉ members z t) (seeks : Assoc GoString) (max : Int) :
    (Filter ro z [[t]] seeks max).1 = Assoc.keys ((startStack z seeks t).take max.toNat) := by
  obtain ⟨c, hc, hb⟩ := openCursors_single ro (openBuckets ro z [[t]]) t seeks
  have hk2 : (bucketOf (openBuckets ro z [[t]]) t).get [] = none := by
    rw [bucketOf_openBuckets]
    exact (Assoc.get_eq_none_iff _ _).mpr hk
  unfold Filter
  simp only
  rw [hc, filterLoop_single ro _ t hk2 seeks max.toNat 0 c [] [] hb (Or.inl rfl),
    List.nil_append]
  have := pending_zero ro z [[t]] seeks (t, c) (by rw [hc]; exact List.mem_cons_self _ _)
  rw [this]

/-- C14 (inclusive resume): for the query of the single tag `t`, a membership table of `t`
in key order, a `max` of at least 1 and a seek that maps `t` to the key `k`, the results of
`Filter` are the keys of the table that are at or after `k`, at most `max` of them, in key
order: the first name read is the smallest key at or after `k`, every key before the results
is below `k`, each later read is the next key of the table, and when `k` is a key of the
table it is the first result again. -/
theorem C14_inclusive_resume (ro : RangeOrder) (z : Store) (t k : GoString)
    (hs : Sorted (bucketOf z.tagBuckets t)) (hk : [] ∉ members z t)
    (seeks : Assoc GoString) (hseek : seeks.get t = some k) (max : Int) (hmax : 1 ≤ max) :
    (Filter ro z [[t]] seeks max).1
        = ((members z t).filter (fun n => decide (k ≤ n))).take max.toNat
      ∧ (∃ post, members z t
          = (members z t).filter (fun n => decide (n < k))
            ++ (Filter ro z [[t]] seeks max).1 ++ post)
      ∧ (k ∈ members z t → (Filter ro z [[t]] seeks max).1.head? = some k) := by
  have hres : (Filter ro z [[t]] seeks max).1
      = ((members z t).filter (fun n => decide (k ≤ n))).take max.toNat := by
    rw [Filter_single ro z t hk]
    unfold startStack members Assoc.keys
    rw [hseek]
    simp only
    rw [dropWhile_eq_filter _ hs, List.map_take, List.filter_map]
    rfl
  refine ⟨hres, ⟨((members z t).filter (fun n => decide (k ≤ n))).drop max.toNat, ?_⟩, ?_⟩
  · rw [hres, List.append_assoc, List.take_append_drop]
    exact sorted_filter_split _ hs k
  · intro hmem
    obtain ⟨m, hm⟩ : ∃ m : Nat, max.toNat = m + 1 := ⟨max.toNat - 1, by omega⟩
    have hh := head_filter_ge (members z t) hs k hmem
    rw [hres, hm]
    cases hF : (members z t).filter (fun n => decide (k ≤ n)) with
    | nil => rw [hF] at hh; cases hh
    | cons h tl =>
      rw [hF] at hh
      simpa using hh

theorem C14_inclusive_resume_witness :
    Sorted (bucketOf demoStore.tagBuckets [121]) ∧ [] ∉ members demoStore [121]
      ∧ Assoc.get [([121], [97])] [121] = some [97] ∧ (1 : Int) ≤ 2
      ∧ ((Filter RangeOrder.stored demoStore [[[121]]] [([121], [97])] 2).1
          = ((members demoStore [121]).filter (fun n => decide ([97] ≤ n))).take (2 : Int).toNat
        ∧ (∃ post, members demoStore [121]
            = (members demoStore [121]).filter (fun n => decide (n < [97]))
              ++ (Filter RangeOrder.stored demoStore [[[121]]] [([121], [97])] 2).1 ++ post)
        ∧ ([97] ∈ members demoStore [121] →
            (Filter RangeOrder.stored demoStore [[[121]]] [([121], [97])] 2).1.head?
              = some [97])) :=
  ⟨by decide, by decide, by decide, by decide,
    C14_inclusive_resume RangeOrder.stored demoStore [121] [97] (by decide) (by decide)
      [([121], [97])] (by decide) 2 (by decide)⟩

end Zettelo

namespace Zettelo

/-! ### The query string -/

theorem foldl_append_nonempty {α γ : Type} [DecidableEq γ] (f : α → List γ) (l : List α)
    (init : List (List γ)) :
    l.foldl (fun acc x => if (f x).length > 0 then acc ++ [f x] else acc) init
      = init ++ (l.map f).filter (fun q => decide (q ≠ [])) := by
  induction l generalizing init with
  | nil => simp
  | cons x rest ih =>
    rw [List.foldl_cons, ih, List.map_cons]
    by_cases h : f x = []
    · rw [List.filter_cons_of_neg (by simp [h])]
      simp [h]
    · have hl : (f x).length > 0 := List.length_pos.mpr h
      rw [List.filter_cons_of_pos (by simp [h]), if_pos hl, List.append_assoc]
      rfl

theorem splitByte_ne_nil (sep : Nat) (s : GoString) : splitByte sep s ≠ [] := by
  cases s with
  | nil => simp [splitByte]
  | cons c cs =>
    rw [splitByte]
    split_ifs
    · simp
    · cases splitByte sep cs <;> simp

/-- No piece of `strings.Split` holds the separator, and every byte of a piece is a byte of
the string. -/
theorem splitByte_piece (sep : Nat) (s : GoString) :
    ∀ p ∈ splitByte sep s, sep ∉ p ∧ ∀ c ∈ p, c ∈ s := by
  induction s with
  | nil =>
    intro p hp
    simp only [splitByte, List.mem_singleton] at hp
    subst hp
    exact ⟨List.not_mem_nil _, fun c hc => by cases hc⟩
  | cons c cs ih =>
    intro p hp
    rw [splitByte] at hp
    by_cases hsep : c = sep
    · rw [if_pos hsep, List.mem_cons] at hp
      rcases hp with rfl | hp
      · exact ⟨List.not_mem_nil _, fun c hc => by cases hc⟩
      · exact ⟨(ih p hp).1, fun x hx => List.mem_cons_of_mem _ ((ih p hp).2 x hx)⟩
    · rw [if_neg hsep] at hp
      cases hsp : splitByte sep cs with
      | nil => exact absurd hsp (splitByte_ne_nil sep cs)
      | cons p0 ps =>
        rw [hsp] at hp ih
        simp only at hp
        rw [List.mem_cons] at hp
        rcases hp with rfl | hp
        · have h0 := ih p0 (List.mem_cons_self _ _)
          refine ⟨fun hm => ?_, fun x hx => ?_⟩
          · rcases List.mem_cons.mp hm with h1 | h1
            · exact hsep h1.symm
            · exact h0.1 h1
          · rcases List.mem_cons.mp hx with rfl | h1
            · exact List.mem_cons_self _ _
            · exact List.mem_cons_of_mem _ (h0.2 x h1)
        · have h0 := ih p (List.mem_cons_of_mem _ hp)
          exact ⟨h0.1, fun x hx => List.mem_cons_of_mem _ (h0.2 x hx)⟩

theorem mem_removeSpaces (q : GoString) (c : Nat) :
    c ∈ removeSpaces q ↔ c ∈ q ∧ isSpaceByte c = false := by
  unfold removeSpaces
  rw [List.mem_filter]
  simp

/-- The model of `strings.Split` for a separator of one byte is the function `List.splitOn`
of the library. -/
theorem splitByte_eq_splitOn (sep : Nat) (s : GoString) : splitByte sep s = s.splitOn sep := by
  induction s with
  | nil => rfl
  | cons c cs ih =>
    rw [splitByte, List.splitOn, List.splitOnP_cons, ← List.splitOn, ← ih]
    by_cases h : c = sep
    · simp [h]
    · have hb : (c == sep) = false := by simpa using h
      rw [if_neg h, hb]
      simp only [Bool.false_eq_true, if_false]
      cases hs : splitByte sep cs with
      | nil => exact absurd hs (splitByte_ne_nil sep cs)
      | cons p ps => rfl

/-- Joining the pieces of `strings.Split` with the separator gives the string back. -/
theorem splitByte_intercalate (sep : Nat) (s : GoString) :
    List.intercalate [sep] (splitByte sep s) = s := by
  rw [splitByte_eq_splitOn]
  exact List.intercalate_splitOn s sep

/-- The bytes the pattern of line 203 removes are tab, newline, form feed, carriage return
and space. -/
theorem removeSpaces_eq (q : GoString) :
    removeSpaces q = q.filter (fun c => decide (c ∉ [9, 10, 12, 13, 32])) := by
  unfold removeSpaces
  apply List.filter_congr
  intro c _
  simp [isSpaceByte]

theorem parseQuery_eq_spec (rawQuery : GoString) : parseQuery rawQuery = parseQuerySpec rawQuery := by
  unfold parseQuery parseQuerySpec
  simp only
  rw [foldl_append_nonempty (fun v => (splitByte 38 v).foldl (fun acc q =>
      if (removeSpaces q).length > 0 then acc ++ [removeSpaces q] else acc) []),
    List.nil_append, splitByte_eq_splitOn]
  congr 1
  apply List.map_congr_left
  intro g _
  rw [foldl_append_nonempty removeSpaces, List.nil_append, splitByte_eq_splitOn]
  congr 1
  apply List.map_congr_left
  intro q _
  exact removeSpaces_eq q

/-- C17, counterexample: the query string of the three bytes `a`, vertical tab, `b` parses
to the one term `a<VT>b`: the vertical tab, a white space character (`unicode.IsSpace`), is
not removed, and the term contains it.  The no-break space U+00A0 (bytes `C2 A0`) stays in
the same way. -/
theorem C17_counterexample :
    parseQuery [97, 11, 98] = [[[97, 11, 98]]]
      ∧ unicodeIsSpace 11 = true
      ∧ (∃ g ∈ parseQuery [97, 11, 98], ∃ q ∈ g, ∃ c ∈ q, unicodeIsSpace c = true)
      ∧ parseQuery [97, 194, 160, 98] = [[[97, 194, 160, 98]]] := by
  refine ⟨by decide, by decide, ⟨[[97, 11, 98]], by decide, [97, 11, 98], by decide, 11,
    by decide, by decide⟩, by decide⟩

/-- C17, amended (query-string parsing): for every query string, the parse of the serving
layer is the list of the groups obtained by splitting on the vertical bar, each split on the
ampersand into terms from which the bytes tab, newline, form feed, carriage return and space
(the class the pattern of line 203 matches; other white space stays) are removed, without
the empty terms and then without the empty groups, in the order of the string; so the parsed
query has no empty group and no empty term, and no term holds one of these five bytes, a
vertical bar or an ampersand. -/
theorem C17_parse_query (rawQuery : GoString) :
    parseQuery rawQuery = parseQuerySpec rawQuery
      ∧ ∀ g ∈ parseQuery rawQuery, g ≠ []
          ∧ ∀ q ∈ g, q ≠ [] ∧ ∀ c ∈ q, c ∉ [9, 10, 12, 13, 32] ∧ c ≠ 124 ∧ c ≠ 38 := by
  refine ⟨parseQuery_eq_spec rawQuery, ?_⟩
  rw [parseQuery_eq_spec]
  unfold parseQuerySpec
  intro g hg
  rw [List.mem_filter, List.mem_map] at hg
  obtain ⟨⟨grp, hgrp, rfl⟩, hne⟩ := hg
  refine ⟨by simpa using hne, fun q hq => ?_⟩
  rw [List.mem_filter, List.mem_map] at hq
  obtain ⟨⟨piece, hpiece, rfl⟩, hqne⟩ := hq
  refine ⟨by simpa using hqne, fun c hc => ?_⟩
  rw [List.mem_filter, decide_eq_true_eq] at hc
  obtain ⟨hcp, hsp⟩ := hc
  rw [← splitByte_eq_splitOn] at hpiece hgrp
  have h38 := splitByte_piece 38 grp piece hpiece
  have h124 := splitByte_piece 124 rawQuery grp hgrp
  refine ⟨hsp, fun e => ?_, fun e => ?_⟩
  · subst e; exact h124.1 (h38.2 _ hcp)
  · subst e; exact h38.1 hcp

/-- The parse of the string ` a &b|| &|c<TAB>d` is the two groups `a, b` and `cd`. -/
theorem parseQuery_example :
    parseQuery [32, 97, 32, 38, 98, 124, 124, 32, 38, 124, 99, 9, 100]
      = [[[97], [98]], [[99, 100]]] := by
  decide

end Zettelo
